import Mathlib

/-!
# Verification of the soroban-dex order-book core

A shallow embedding of the repository's order-book engine and market facade:

* `src/orderbook/src/storage.rs` — the `OrderId` codec and the `BookStorage`
  persistence layer (Layout A: the per-price queue stores local ids, order
  sizes live in separate attribute-key records);
* `src/orderbook/src/lib.rs`     — the `OrderBook` matching engine;
* `src/contracts/dex-market/src/lib.rs` — the `DexMarketContract` facade
  (`init` / `place_order` / `cancel_order`, escrow and settlement transfers),
  together with the mock token transfer semantics of
  `src/contracts/test-token/src/lib.rs`.

Machine integers are modelled as `Nat` (unsigned) and `Int` (`i128` token
amounts); the byte-level key derivations of `OrderId` are modelled exactly,
big-endian, so that key-collision behaviour is preserved.  Panics/aborts of
the host (fixed-point overflow, failed transfers) are modelled by `Option`:
`none` means the transaction aborts and no state change survives.
-/

namespace SorobanDex

/-! ## Byte-level codec (`OrderId`, `storage.rs` lines 26-71)

`beBytes w n` is `n.to_be_bytes()` for a `w`-byte unsigned integer; bytes are
`Nat`s below 256. -/

/-- Big-endian byte encoding of `n % 256^w` into exactly `w` bytes,
mirroring Rust's `to_be_bytes` on a `w`-byte unsigned integer. -/
def beBytes : Nat → Nat → List Nat
  | 0, _ => []
  | w + 1, n => beBytes w (n / 256) ++ [n % 256]

/-- Big-endian byte decoding, mirroring Rust's `from_be_bytes`. -/
def fromBeBytes (bs : List Nat) : Nat :=
  bs.foldl (fun acc b => acc * 256 + b) 0

/-! ## Order sides (`OrderbookSide` in `lib.rs`, `OrderSide` in `storage.rs`) -/

/-- The side of the book an order can be placed on (`Bid = 0`, `Ask = 1`). -/
inductive OrderSide : Type
  | Bid : OrderSide
  | Ask : OrderSide
  deriving DecidableEq, Repr

/-- The `repr(C)` discriminant used as byte 3 of an `OrderId` (`side as u8`). -/
def OrderSide.toByte : OrderSide → Nat
  | .Bid => 0
  | .Ask => 1

/-- `OrderbookSide::opposite` from `lib.rs`. -/
def OrderSide.opposite : OrderSide → OrderSide
  | .Bid => .Ask
  | .Ask => .Bid

/-! ## The `OrderId` codec (`storage.rs` lines 26-71)

An `OrderId` is a 16-byte value:
bytes 0..2 prefix (u16 BE), byte 2 reserved 0, byte 3 side, bytes 4..12
price (u64 BE), bytes 12..16 local id (u32 BE).  We model the raw bytes. -/

/-- `OrderId::new(env, prefix, side, price, id)`: the 16-byte layout. -/
def idBytes (pfx : Nat) (side : OrderSide) (price localId : Nat) : List Nat :=
  beBytes 2 pfx ++ [0, side.toByte] ++ beBytes 8 price ++ beBytes 4 localId

/-- `OrderId::book_key`: the first 3 bytes. -/
def bookKeyBytes (pfx : Nat) (side : OrderSide) (price localId : Nat) : List Nat :=
  (idBytes pfx side price localId).take 3

/-- `OrderId::price_key`: the first 12 bytes with byte 4 forced to 0. -/
def priceKeyBytes (pfx : Nat) (side : OrderSide) (price localId : Nat) : List Nat :=
  ((idBytes pfx side price localId).take 12).set 4 0

/-- `OrderId::with_attr_key(key)`: the 16 bytes with byte 4 overridden. -/
def withAttrKeyBytes (pfx : Nat) (side : OrderSide) (price localId : Nat)
    (key : Nat) : List Nat :=
  (idBytes pfx side price localId).set 4 key

/-- `ORDER_ATTR_KEY_DETAIL` (`storage.rs` line 9). -/
def ORDER_ATTR_KEY_DETAIL : Nat := 0

/-- `ORDER_ATTR_KEY_SIZE` (`storage.rs` line 10). -/
def ORDER_ATTR_KEY_SIZE : Nat := 1

/-- `OrderId::side`: byte 3 decoded. -/
def idSide (bs : List Nat) : Option OrderSide :=
  match bs.get? 3 with
  | some 0 => some .Bid
  | some 1 => some .Ask
  | _ => none

/-- `OrderId::price`: bytes 4..12 decoded big-endian. -/
def idPrice (bs : List Nat) : Nat :=
  fromBeBytes ((bs.drop 4).take 8)

/-- `OrderId::id`: bytes 12..16 decoded big-endian. -/
def idLocalId (bs : List Nat) : Nat :=
  fromBeBytes (bs.drop 12)

/-- `BookStorage::price_queue_key(price)` (`storage.rs` lines 133-135):
the `price_key` of `OrderId::new(env, prefix, OrderSide::Bid, price, 0)` —
note the side is always `Bid`, so the queue key does not depend on the side. -/
def priceQueueKeyBytes (pfx price : Nat) : List Nat :=
  priceKeyBytes pfx OrderSide.Bid price 0

/-! ## Association-list helpers

The host's persistent KV store, restricted to the keys the book uses.  Keys
are compared for equality only (`get`/`set`/`remove`), so an unordered
duplicate-free association list models it. -/

/-- KV `get`. -/
def alGet {κ α : Type _} [DecidableEq κ] : List (κ × α) → κ → Option α
  | [], _ => none
  | e :: t, k => if e.1 = k then some e.2 else alGet t k

/-- KV `remove`. -/
def alRemove {κ α : Type _} [DecidableEq κ] (l : List (κ × α)) (k : κ) : List (κ × α) :=
  l.filter (fun e => e.1 ≠ k)

/-- KV `set` (insert or overwrite). -/
def alSet {κ α : Type _} [DecidableEq κ] (l : List (κ × α)) (k : κ) (v : α) : List (κ × α) :=
  alRemove l k ++ [(k, v)]

/-! ## Storage model (`BookStorage`, `storage.rs` lines 88-242)

Layout A: the price queue holds local ids (`Vec<u32>`), sizes live in
separate attribute-key records.  The storage keys are modelled structurally,
with the exact information content of the byte keys derived above:

* details record: the raw 16-byte `OrderId`, i.e. `(side, price, local_id)`
  (the price field carries all 8 bytes);
* size record: `with_attr_key(ORDER_ATTR_KEY_SIZE)` overwrites byte 4, the
  top byte of the big-endian price, i.e. `(side, price % 2^56, local_id)`;
* price queue: `price_queue_key(price)` is built from a `Bid`-side id and
  zeroes byte 4, i.e. `price % 2^56` — independent of side and local id;
* price set (book): the 3-byte `(prefix, side)` key, i.e. the side.

The `prefix` is fixed (the market uses `0xF1A0`), so it is dropped from the
structured keys; `keyFacts` theorems below connect these structured keys to
the byte-level functions. -/

/-- `2^56`: the modulus that forcing byte 4 (the top price byte) to zero
imposes on the price field of a 16-byte key. -/
def P56 : Nat := 2 ^ 56

/-- A decoded `OrderId`: side, price (u64), per-price local id (u32). -/
structure OId where
  side : OrderSide
  price : Nat
  localId : Nat
  deriving DecidableEq, Repr

/-- The structured content of an order's size-attribute key
(`with_attr_key(ORDER_ATTR_KEY_SIZE)` zeroes nothing but overwrites the top
price byte with 1, keeping side, the low 7 price bytes and the local id). -/
def sizeKey (id : OId) : OrderSide × Nat × Nat :=
  (id.side, id.price % P56, id.localId)

/-- `OrderEntry` (`lib.rs` lines 172-181). -/
structure OrderEntry (T : Type) where
  id : OId
  price : Nat
  size : Nat
  details : T
  deriving DecidableEq, Repr

/-- The persistent state of one order book (prefix-namespaced KV records).
`events` is the optional per-order event queue (`Map<OrderId, Vec<OrderEvent>>`
at key `prefix ‖ 0xFF`); events are `Fill(amount)` so a `Nat` payload. -/
structure BookState (T : Type) where
  bidBook : List Nat
  askBook : List Nat
  queues : List (Nat × List Nat)
  sizes : List ((OrderSide × Nat × Nat) × Nat)
  details : List ((OrderSide × Nat × Nat) × T)
  events : List ((OrderSide × Nat × Nat) × List Nat)
  deriving DecidableEq

/-- The empty book (no KV records written yet). -/
def BookState.empty {T : Type} : BookState T :=
  ⟨[], [], [], [], [], []⟩

/-- `get_book(side)`: the per-side price set; Soroban `Map<u64,()>` keys
iterate in ascending order, so the list is kept sorted ascending. -/
def BookState.book {T : Type} (b : BookState T) : OrderSide → List Nat
  | .Bid => b.bidBook
  | .Ask => b.askBook

/-- `set_book(side, book)`. -/
def BookState.setBook {T : Type} (b : BookState T) : OrderSide → List Nat → BookState T
  | .Bid, l => { b with bidBook := l }
  | .Ask, l => { b with askBook := l }

/-- `Map<u64,()>::set(price, ())`: sorted insertion (no duplicate keys). -/
def insortNat : List Nat → Nat → List Nat
  | [], p => [p]
  | x :: t, p =>
    if p < x then p :: x :: t
    else if p = x then x :: t
    else x :: insortNat t p

/-- `get_price_queue(price)`: `Vec<u32>` of local ids, `Vec::new()` if the
key is absent.  The key is `price % 2^56` (`price_queue_key`). -/
def BookState.queueAt {T : Type} (b : BookState T) (qk : Nat) : List Nat :=
  (alGet b.queues qk).getD []

/-- The structured content of a raw `OrderId` used as the details key. -/
def detKey (id : OId) : OrderSide × Nat × Nat :=
  (id.side, id.price, id.localId)

/-- `Book::get_order` for `BookStorage` (`storage.rs` lines 163-175): the
size record is read first (via the attribute key), then the details record;
`None` if either is missing. -/
def getOrderS {T : Type} (b : BookState T) (id : OId) : Option (OrderEntry T) :=
  match alGet b.sizes (sizeKey id) with
  | none => none
  | some size => (alGet b.details (detKey id)).map fun d => ⟨id, id.price, size, d⟩

/-- `Book::get_order` with soroban's typed-read panic made explicit.
`getOrderS` keys the two record families structurally, but on the wire both
are 16-byte keys, and when the id's price has top byte `ORDER_ATTR_KEY_SIZE
= 1` — price in `[2^56, 2*2^56)` — the raw id used for the details read has
exactly the bytes of `with_attr_key(ORDER_ATTR_KEY_SIZE)` for the same
side, `price % 2^56` and local id (`idBytes_size_key_collision` below).
That key is where size records live: size records are the only writes with
byte 4 = 1 (a details record lands there only transiently inside
`place_order`, at such a price, and is clobbered by the size write that
immediately follows).  So whenever the size read succeeds — the shared
`(side, price % 2^56, local)` slot is occupied by a `u128` — the details
read `get::<OrderId, OrderDetail>` finds that `u128` and panics on `Val`
conversion.  `none` models this host trap; `some r` means the read
completes and returns `r`, which then agrees with `getOrderS`.  For prices
with top byte 0 or ≥ 2 the raw id collides with no written key (attrs
other than 1 are never written) and the read is always faithful. -/
def getOrderR {T : Type} (b : BookState T) (id : OId) : Option (Option (OrderEntry T)) :=
  match alGet b.sizes (sizeKey id) with
  | none => some none
  | some size =>
    if P56 ≤ id.price ∧ id.price < 2 * P56 then none
    else some ((alGet b.details (detKey id)).map fun d => ⟨id, id.price, size, d⟩)

/-- `Book::place_order` for `BookStorage` (`storage.rs` lines 186-210):
register the price, append `last+1` (or 0) to the price queue, write the
details record and the size record.  Returns the new id and state. -/
def placeOrderS {T : Type} (b : BookState T) (side : OrderSide) (price size : Nat)
    (d : T) : OId × BookState T :=
  let bk := b.book side
  let b₁ := if price ∈ bk then b else b.setBook side (insortNat bk price)
  let q := b₁.queueAt (price % P56)
  let next := match q.getLast? with
    | some m => m + 1
    | none => 0
  let b₂ := { b₁ with queues := alSet b₁.queues (price % P56) (q ++ [next]) }
  let id : OId := ⟨side, price, next⟩
  let b₃ := { b₂ with details := alSet b₂.details (detKey id) d }
  let b₄ := { b₃ with sizes := alSet b₃.sizes (sizeKey id) size }
  (id, b₄)

/-- `Book::remove_order` for `BookStorage` (`storage.rs` lines 212-237):
drop the details and size records, erase the first occurrence of the local
id from the price queue; if the queue is now empty, delete the queue key and
remove the price from the side's price set. -/
def removeOrderS {T : Type} (b : BookState T) (id : OId) : BookState T :=
  let b₁ := { b with
    details := alRemove b.details (detKey id),
    sizes := alRemove b.sizes (sizeKey id) }
  let q := b₁.queueAt (id.price % P56)
  let q' := q.erase id.localId
  if q'.isEmpty then
    let b₂ := { b₁ with queues := alRemove b₁.queues (id.price % P56) }
    b₂.setBook id.side ((b₂.book id.side).filter (· ≠ id.price))
  else
    { b₁ with queues := alSet b₁.queues (id.price % P56) q' }

/-- `Book::modify_order` for `BookStorage` (`storage.rs` lines 239-241):
only rewrites the size record — no auto-delete on zero. -/
def modifyOrderS {T : Type} (b : BookState T) (id : OId) (size : Nat) : BookState T :=
  { b with sizes := alSet b.sizes (sizeKey id) size }

/-- `Book::orders(side)` for `BookStorage` (`storage.rs` lines 177-184 and
the `StoredOrders` iterator, lines 282-322), fully materialised: iterate the
side's price set (descending for `Bid`, ascending for `Ask`) and yield each
price's queue entries in order under that price. -/
def ordersListS {T : Type} (b : BookState T) (side : OrderSide) : List OId :=
  let prices := match side with
    | .Bid => b.bidBook.reverse
    | .Ask => b.askBook
  prices.flatMap fun p => (b.queueAt (p % P56)).map fun l => ⟨side, p, l⟩

/-- Modelled from the spec: `OrderEventMap::push` is missing from `src/`
(only its trait declaration and callers are present); §4.2 of the spec says
the event queue record holds `Map<OrderId, Vec<OrderEvent>>` and `push(id,
event)` appends to the order's list. -/
def pushEventS {T : Type} (b : BookState T) (id : OId) (amount : Nat) : BookState T :=
  { b with events := alSet b.events (detKey id) (((alGet b.events (detKey id)).getD []) ++ [amount]) }

/-- Modelled from the spec: `OrderEventMap::consume` for a single listed
order is missing from `src/`; §4.2 of the spec says it pops up to `count`
events from the order's list and, if afterwards the order's event list is
empty and the order itself is fully filled, performs the conditional
cleanup that removes the order's records (details, size, queue entry, and
the now-empty price queue and price-set entry if needed). -/
def consumeOneS {T : Type} (b : BookState T) (id : OId) (count : Nat) : BookState T :=
  let evs := (alGet b.events (detKey id)).getD []
  let rest := evs.drop count
  let b₁ :=
    if rest.isEmpty then { b with events := alRemove b.events (detKey id) }
    else { b with events := alSet b.events (detKey id) rest }
  if rest.isEmpty ∧ alGet b₁.sizes (sizeKey id) = some 0 then removeOrderS b₁ id else b₁

/-! ## Matching engine (`OrderBook::place_order`, `lib.rs` lines 50-113)

The engine is generic over the detail payload `T` and over the state `E` the
settlement callback closes over (for the market: token balances, the
self-trade flag and the consumed accumulators).  The callback receives the
whole machine state `BookState T × E` because the market's closure also
mutates book storage (it consumes the maker's fill event); it returns `none`
when a host panic aborts the transaction.

Each run also produces the list of `Visit`s — the candidates the opposite-
side walk touched, in order.  This trace is a ghost output (the returned
state and summary never depend on it); it records exactly the arguments of
the `on_match` invocations and where the walk skipped or stopped. -/

/-- `OrderParams` (`lib.rs` lines 163-169). -/
structure OBParams (T : Type) where
  side : OrderSide
  price : Nat
  size : Nat
  details : T

/-- `OrderSummary` (`lib.rs` lines 183-194). -/
structure OBSummary where
  postedId : Option OId
  postedSize : Nat
  deriving DecidableEq, Repr

/-- One step of the opposite-side walk, recorded for the ghost trace:
a candidate whose `get_order` failed (`continue`), a delivered fill, or the
candidate that failed the price gate (`break`). -/
inductive Visit (T : Type) where
  | skipped : OId → Visit T
  | filled : OrderEntry T → Visit T
  | gateStop : OId → Visit T
  deriving DecidableEq

/-- The fills of a trace: the entries passed to `on_match`, in order. -/
def visitFills {T : Type} (vs : List (Visit T)) : List (OrderEntry T) :=
  vs.filterMap fun v => match v with
    | .filled e => some e
    | _ => none

/-- The candidate id of a visit: the id whose `get_order` read the walk
performed at that step (for a fill, the filled entry's id). -/
def visitId {T : Type} : Visit T → OId
  | .skipped id => id
  | .filled e => e.id
  | .gateStop id => id

/-- The price gate (`lib.rs` lines 64-67): a Bid taker matches only
`order.price ≤ params.price`; an Ask taker only `order.price ≥ params.price`. -/
def gateMatch (takerSide : OrderSide) (limit oprice : Nat) : Prop :=
  match takerSide with
  | .Bid => oprice ≤ limit
  | .Ask => limit ≤ oprice

instance (takerSide : OrderSide) (limit oprice : Nat) :
    Decidable (gateMatch takerSide limit oprice) := by
  cases takerSide <;> simp [gateMatch] <;> infer_instance

/-- The body of the match loop for the candidates of one price: the lazy
iterator has loaded this price's queue; each local id is looked up, gated,
filled (storage mutation, event push, callback) or skipped.  Returns
`none` on a callback abort, otherwise the state, the remaining
`amount_to_post`, and whether the loop broke (gate failure or full fill). -/
def priceWalk {T E : Type} (params : OBParams T)
    (cb : OrderEntry T → BookState T × E → Option (BookState T × E)) (price : Nat) :
    List Nat → Nat → BookState T × E →
      Option ((BookState T × E) × Nat × Bool) × List (Visit T)
  | [], amt, s => (some (s, amt, false), [])
  | l :: rest, amt, s =>
    let id : OId := ⟨params.side.opposite, price, l⟩
    match getOrderS s.1 id with
    | none =>
      let (r, vs) := priceWalk params cb price rest amt s
      (r, .skipped id :: vs)
    | some order =>
      if gateMatch params.side params.price order.price then
        let matched := if order.size ≤ amt then order.size else amt
        let b₁ := modifyOrderS s.1 id (if order.size ≤ amt then 0 else order.size - amt)
        let b₂ := pushEventS b₁ id matched
        let entry : OrderEntry T := { order with size := matched }
        match cb entry (b₂, s.2) with
        | none => (none, [.filled entry])
        | some s' =>
          let amt' := amt - matched
          if amt' = 0 then (some (s', amt', true), [.filled entry])
          else
            let (r, vs) := priceWalk params cb price rest amt' s'
            (r, .filled entry :: vs)
      else (some (s, amt, true), [.gateStop id])

/-- The outer walk over the opposite side's price list (the iterator's
snapshot of `PriceSet(side.opposite())`); each price's queue is loaded
lazily from the current state, matching `StoredOrders::next`. -/
def engineWalk {T E : Type} (params : OBParams T)
    (cb : OrderEntry T → BookState T × E → Option (BookState T × E)) :
    List Nat → Nat → BookState T × E →
      Option ((BookState T × E) × Nat) × List (Visit T)
  | [], amt, s => (some (s, amt), [])
  | p :: rest, amt, s =>
    let locals := s.1.queueAt (p % P56)
    match priceWalk params cb p locals amt s with
    | (none, vs) => (none, vs)
    | (some (s', amt', stop), vs) =>
      if stop then (some (s', amt'), vs)
      else
        let (r, vs') := engineWalk params cb rest amt' s'
        (r, vs ++ vs')

/-- `OrderBook::place_order` (`lib.rs` lines 50-113): walk the opposite side
in price priority, fill against each candidate that passes the gate, stop at
the first gate failure or when the size is consumed, then post any
remainder at `params.price`. -/
def obPlaceOrder {T E : Type} (params : OBParams T)
    (cb : OrderEntry T → BookState T × E → Option (BookState T × E))
    (s : BookState T × E) :
    Option ((BookState T × E) × OBSummary) × List (Visit T) :=
  let prices := match params.side.opposite with
    | .Bid => s.1.bidBook.reverse
    | .Ask => s.1.askBook
  match engineWalk params cb prices params.size s with
  | (none, vs) => (none, vs)
  | (some ((b, e), amt), vs) =>
    if 0 < amt then
      let (pid, b') := placeOrderS b params.side params.price amt params.details
      (some ((b', e), ⟨some pid, amt⟩), vs)
    else (some ((b, e), ⟨none, amt⟩), vs)

/-- `OrderBook::cancel_order` (`lib.rs` lines 46-48): unconditional
`remove_order`. -/
def obCancelOrder {T : Type} (b : BookState T) (id : OId) : BookState T :=
  removeOrderS b id

/-! ## Market facade (`dex-market/src/lib.rs`)

Addresses are `Nat`; the market contract's own address is `marketAddr`.
Token balances are total maps `Nat → Int` (Soroban balances default to 0),
one per token; transfers follow the mock token
(`test-token/src/lib.rs` lines 40-59): abort iff `from`'s balance is below
the amount — there is no sign check, and the `to` write happens last. -/

/-- The market contract's own address (`env.current_contract_address()`). -/
def marketAddr : Nat := 0

/-- `token::Interface::transfer` of the mock token: reads both balances,
aborts (`none`) iff `from_balance < amount`, writes `from` then `to`. -/
def transferTok (bal : Nat → Int) (src dst : Nat) (amt : Int) : Option (Nat → Int) :=
  let fb := bal src
  let tb := bal dst
  if fb < amt then none
  else some fun a => if a = dst then tb + amt else if a = src then fb - amt else bal a

/-- `quote_amount(price, base_amount)` (`dex-market/src/lib.rs` lines
263-268), the exact value: `U96F32::from_bits(price)` is `price / 2^32`,
the product is truncated toward zero, so the result is
`price * base_amount / 2^32` (integer division). -/
def quoteAmountN (price size : Nat) : Nat :=
  price * size / 2 ^ 32

/-- `quote_amount` with the `fixed`-crate panics made explicit:
`U96F32::from_num(base_amount)` panics when `base_amount ≥ 2^96`, and the
multiplication overflows (panics) when the 128 raw result bits overflow,
i.e. when `price * base_amount ≥ 2^128`; `to_num::<i128>()` then always
fits (the value is below `2^96`). -/
def quoteAmountChecked (price size : Nat) : Option Int :=
  if size < 2 ^ 96 ∧ price * size < 2 ^ 128 then some (quoteAmountN price size : Nat)
  else none

/-- `OrderDetail` (`dex-market/src/lib.rs` lines 256-259). -/
structure ODetail where
  owner : Nat
  deriving DecidableEq, Repr

/-- `DexMarketError` (`dex-market/src/lib.rs` lines 65-71). -/
inductive DexMarketError where
  | InvalidOrderSize : DexMarketError
  | CannotSelfTrade : DexMarketError
  deriving DecidableEq, Repr

/-- The stable `u32` error codes (`repr(u32)`, 100 and 101). -/
def DexMarketError.code : DexMarketError → Nat
  | .InvalidOrderSize => 100
  | .CannotSelfTrade => 101

/-- `OrderParams` of the market (`dex-market/src/lib.rs` lines 19-33). -/
structure MParams where
  side : OrderSide
  size : Nat
  price : Nat
  owner : Nat
  deriving DecidableEq, Repr

/-- The full market state: the order book under prefix `0xF1A0`, the two
token ledgers, and the stored `DexMarketInfo` (the token addresses are
abstracted into the two ledgers; `minSize` is `base_min_order_size`). -/
structure MarketState where
  book : BookState ODetail
  base : Nat → Int
  quote : Nat → Int
  minSize : Nat

/-- `DexMarket::init` (`dex-market/src/lib.rs` lines 81-83): store the
market info over an empty book and whatever token ledgers exist. -/
def marketInit (minSize : Nat) (base quote : Nat → Int) : MarketState :=
  ⟨BookState.empty, base, quote, minSize⟩

/-- The mutable context the market's `on_match` closure captures:
the two ledgers, the self-trade flag and the consumed accumulators
(`dex-market/src/lib.rs` lines 128-130). -/
structure MExt where
  base : Nat → Int
  quote : Nat → Int
  selfTrade : Bool
  quoteConsumed : Int
  baseConsumed : Int

/-- The market's settlement closure (`dex-market/src/lib.rs` lines
131-178): record self-trade, compute the fill legs at the MAKER's price
(`entry.price`), accumulate, transfer both legs according to the maker's
side, then consume the maker's fill event. -/
def marketCb (owner : Nat) (e : OrderEntry ODetail) (s : BookState ODetail × MExt) :
    Option (BookState ODetail × MExt) :=
  let b := s.1
  let x := s.2
  let x₁ := { x with selfTrade := x.selfTrade || decide (e.details.owner = owner) }
  let baseAmount : Int := (e.size : Int)
  match quoteAmountChecked e.price e.size with
  | none => none
  | some qa =>
    let x₂ := { x₁ with
      baseConsumed := x₁.baseConsumed + baseAmount,
      quoteConsumed := x₁.quoteConsumed + qa }
    match e.id.side with
    | .Bid =>
      match transferTok x₂.base marketAddr e.details.owner baseAmount with
      | none => none
      | some base' =>
        match transferTok x₂.quote marketAddr owner qa with
        | none => none
        | some quote' =>
          some (consumeOneS b e.id 1, { x₂ with base := base', quote := quote' })
    | .Ask =>
      match transferTok x₂.quote marketAddr e.details.owner qa with
      | none => none
      | some quote' =>
        match transferTok x₂.base marketAddr owner baseAmount with
        | none => none
        | some base' =>
          some (consumeOneS b e.id 1, { x₂ with base := base', quote := quote' })

/-- `DexMarket::place_order` (`dex-market/src/lib.rs` lines 86-211).
Result: `none` models a host panic/abort (overflow, failed transfer);
`some (.error e)` a typed contract error; `some (.ok (s', id))` success.
All failures roll back, so only the `.ok` state is ever adopted.  The
second component is the ghost trace of the engine walk. -/
def marketPlaceOrder (s : MarketState) (p : MParams) :
    Option (Except DexMarketError (MarketState × Option OId)) × List (Visit ODetail) :=
  if p.size < s.minSize then (some (.error .InvalidOrderSize), [])
  else
    -- params.details.owner.require_auth(): host-verified, modelled as success
    match quoteAmountChecked p.price p.size with
    | none => (none, [])
    | some quoteOffer =>
      let escrowed : Option (MarketState) :=
        match p.side with
        | .Bid => (transferTok s.quote p.owner marketAddr quoteOffer).map
            fun quote' => { s with quote := quote' }
        | .Ask => (transferTok s.base p.owner marketAddr (p.size : Int)).map
            fun base' => { s with base := base' }
      match escrowed with
      | none => (none, [])
      | some s₁ =>
        let params : OBParams ODetail := ⟨p.side, p.price, p.size, ⟨p.owner⟩⟩
        let x₀ : MExt := ⟨s₁.base, s₁.quote, false, 0, 0⟩
        match obPlaceOrder params (marketCb p.owner) (s₁.book, x₀) with
        | (none, vs) => (none, vs)
        | (some ((b, x), sm), vs) =>
          if x.selfTrade then (some (.error .CannotSelfTrade), vs)
          else
            match p.side with
            | .Bid =>
              match quoteAmountChecked p.price sm.postedSize with
              | none => (none, vs)
              | some reserve =>
                let ret := quoteOffer - x.quoteConsumed - reserve
                match transferTok x.quote marketAddr p.owner ret with
                | none => (none, vs)
                | some quote' =>
                  (some (.ok (⟨b, x.base, quote', s.minSize⟩, sm.postedId)), vs)
            | .Ask =>
              let ret : Int := ((p.size - sm.postedSize : Nat) : Int) - x.baseConsumed
              match transferTok x.base marketAddr p.owner ret with
              | none => (none, vs)
              | some base' =>
                (some (.ok (⟨b, base', x.quote, s.minSize⟩, sm.postedId)), vs)

/-- `DexMarket::cancel_order` (`dex-market/src/lib.rs` lines 214-249):
silent when the order is absent; otherwise the stored owner authorises,
the escrowed collateral is returned (Ask: `size` base; Bid:
`quote_amount(price, size)` quote) and the order is removed. -/
def marketCancelOrder (s : MarketState) (id : OId) : Option MarketState :=
  match getOrderS s.book id with
  | none => some s
  | some o =>
    -- order_detail.details.owner.require_auth(): host-verified, modelled as success
    match o.id.side with
    | .Ask =>
      (transferTok s.base marketAddr o.details.owner (o.size : Int)).map
        fun base' => { s with base := base', book := obCancelOrder s.book id }
    | .Bid =>
      match quoteAmountChecked o.price o.size with
      | none => none
      | some qa =>
        (transferTok s.quote marketAddr o.details.owner qa).map
          fun quote' => { s with quote := quote', book := obCancelOrder s.book id }

/-- The states reachable from `init` by successful `place_order` /
`cancel_order` calls with well-typed arguments (`price : u64`,
`size : u128`, `local id : u32`; the owner is a user address, not the
market's own — the host would reject the contract authorising itself).
Failed calls (errors and panics) roll back and do not change the state. -/
inductive Reach : MarketState → Prop where
  | init (minSize : Nat) (base quote : Nat → Int)
      (hb : ∀ a, 0 ≤ base a) (hq : ∀ a, 0 ≤ quote a) :
      Reach (marketInit minSize base quote)
  | place {s : MarketState} (p : MParams) {s' : MarketState} {oid : Option OId}
      {vs : List (Visit ODetail)} :
      Reach s → p.price < 2 ^ 64 → p.size < 2 ^ 128 → p.owner ≠ marketAddr →
      marketPlaceOrder s p = (some (.ok (s', oid)), vs) → Reach s'
  | cancel {s : MarketState} (id : OId) {s' : MarketState} :
      Reach s → id.price < 2 ^ 64 → id.localId < 2 ^ 32 →
      marketCancelOrder s id = some s' → Reach s'

/-- Book states reachable through the raw `BookStorage` interface
(`place_order` / `remove_order` / `modify_order` with well-typed
arguments); this is the interface the `Book` trait exposes and the storage
tests exercise directly. -/
inductive StoreReach {T : Type} : BookState T → Prop where
  | empty : StoreReach BookState.empty
  | place {b : BookState T} (side : OrderSide) (price size : Nat) (d : T) :
      StoreReach b → price < 2 ^ 64 →
      StoreReach (placeOrderS b side price size d).2
  | remove {b : BookState T} (id : OId) :
      StoreReach b → id.price < 2 ^ 64 → id.localId < 2 ^ 32 →
      alGet b.details (detKey id) ≠ none →
      StoreReach (removeOrderS b id)
  | modify {b : BookState T} (id : OId) (size : Nat) :
      StoreReach b → id.price < 2 ^ 64 → id.localId < 2 ^ 32 →
      StoreReach (modifyOrderS b id size)

/-- The local id `BookStorage::place_order` assigns at a price:
`queue.last().map(|id| id + 1).unwrap_or(0)`. -/
def nextLocal {T : Type} (b : BookState T) (price : Nat) : Nat :=
  match (b.queueAt (price % P56)).getLast? with
  | some m => m + 1
  | none => 0

/-- An order is live when its details record exists (`OrderDetails` in the
spec's data model); on well-formed states this coincides with
`get_order ≠ None`. -/
def live {T : Type} (b : BookState T) (id : OId) : Prop :=
  (alGet b.details (detKey id)).isSome = true

instance {T : Type} (b : BookState T) (id : OId) : Decidable (live b id) := by
  unfold live; infer_instance

/-- Strict price-time priority on ids of one side: better price first
(higher for `Bid`, lower for `Ask`), and lower local id first within a
price. -/
def priorityLT (side : OrderSide) (a c : OId) : Prop :=
  match side with
  | .Bid => c.price < a.price ∨ (a.price = c.price ∧ a.localId < c.localId)
  | .Ask => a.price < c.price ∨ (a.price = c.price ∧ a.localId < c.localId)

/-- Well-formedness of a stored book, maintained by the `BookStorage`
operations: sorted price sets and queues, nodup KV key lists, and the
correspondence between details records, size records, queue entries and
price-set entries. -/
structure SWF {T : Type} (b : BookState T) : Prop where
  booksSorted : ∀ side, (b.book side).Sorted (· < ·)
  booksBound : ∀ side p, p ∈ b.book side → p < 2 ^ 64
  queuesSorted : ∀ qk, (b.queueAt qk).Sorted (· < ·)
  detailsNodup : (b.details.map Prod.fst).Nodup
  sizesNodup : (b.sizes.map Prod.fst).Nodup
  liveInBook : ∀ id : OId, live b id → id.price ∈ b.book id.side
  liveInQueue : ∀ id : OId, live b id → id.localId ∈ b.queueAt (id.price % P56)
  liveSize : ∀ id : OId, live b id → alGet b.sizes (sizeKey id) ≠ none
  queueOwner : ∀ qk l, l ∈ b.queueAt qk →
    ∃ id : OId, id.price % P56 = qk ∧ id.localId = l ∧ live b id
  liveUnique : ∀ id id' : OId, live b id → live b id' →
    id.price % P56 = id'.price % P56 → id.localId = id'.localId → id = id'

/-- The total size of a list of fills (used to state fill accounting). -/
def sumSizes {T : Type} (l : List (OrderEntry T)) : Nat :=
  (l.map fun e => e.size).sum

/-! ### Concrete example runs used by counterexamples below -/

/-- Two bids at price 5 (locals 0 and 1), then the second is removed:
the bucket stays non-empty but the queue's last key drops back to 0. -/
def reuseS1 : BookState Nat := (placeOrderS (BookState.empty (T := Nat)) OrderSide.Bid 5 10 0).2

/-- The id of the second bid at price 5 (local id 1). -/
def reuseId2 : OId := (placeOrderS reuseS1 OrderSide.Bid 5 10 0).1

/-- The state after both bids. -/
def reuseS2 : BookState Nat := (placeOrderS reuseS1 OrderSide.Bid 5 10 0).2

/-- The state after removing the second bid (bucket still holds local 0). -/
def reuseS3 : BookState Nat := removeOrderS reuseS2 reuseId2

/-- The id assigned to a third bid at price 5 placed after the removal. -/
def reuseId4 : OId := (placeOrderS reuseS3 OrderSide.Bid 5 10 0).1

/-- A settlement callback that does nothing (engine used bare). -/
def noOpCb : OrderEntry Nat → BookState Nat × Unit → Option (BookState Nat × Unit) :=
  fun _ s => some s

/-- Engine run: an Ask at price `5 + 2^56` into an empty book. -/
def phantomRun1 : Option ((BookState Nat × Unit) × OBSummary) :=
  (obPlaceOrder ⟨OrderSide.Ask, 5 + 2 ^ 56, 10, 0⟩ noOpCb (BookState.empty, ())).1

/-- Then a Bid at price 5 — the two do not cross (`5 + 2^56 > 5`), yet the
two orders share the queue record keyed by `price % 2^56 = 5`. -/
def phantomRun2 : Option ((BookState Nat × Unit) × OBSummary) :=
  phantomRun1.bind fun r => (obPlaceOrder ⟨OrderSide.Bid, 5, 10, 0⟩ noOpCb r.1).1

/-- The book after the two non-crossing engine placements. -/
def phantomBook : BookState Nat := (phantomRun2.map fun r => r.1.1).getD BookState.empty

/-- A book with one resting Ask of size 10 at price 5 (engine-placed). -/
def crossS1 : BookState Nat :=
  ((obPlaceOrder (T := Nat) (E := Unit) ⟨OrderSide.Ask, 5, 10, 0⟩ noOpCb
    (BookState.empty, ())).1.map fun r => r.1.1).getD BookState.empty

/-- An engine run of a Bid for 7 at price 5 against `crossS1`: it fills 7
against the resting Ask and posts nothing. -/
def crossRun : Option ((BookState Nat × Unit) × OBSummary) × List (Visit Nat) :=
  obPlaceOrder ⟨OrderSide.Bid, 5, 7, 0⟩ noOpCb (crossS1, ())

/-! ## Market reserves and the market invariant

The market's solvency argument: the contract's base balance always covers
the total remaining size of the resting `Ask` orders (whose base it
escrows), and its quote balance covers the sum of `quote_amount(price,
remaining_size)` over the resting `Bid` orders.  These sums are expressed
over the details records, with each order's remaining size read from its
size record. -/

/-- The id a details key denotes (inverse of `detKey`). -/
def keyId (k : OrderSide × Nat × Nat) : OId := ⟨k.1, k.2.1, k.2.2⟩

/-- The stored remaining size of an order (0 when the size record is
absent). -/
def storedSize {T : Type} (b : BookState T) (id : OId) : Nat :=
  (alGet b.sizes (sizeKey id)).getD 0

/-- Sum over all details records of a weight of the order's id and stored
size. -/
def reserveSum {T : Type} (b : BookState T) (w : OId → Nat → Nat) : Nat :=
  (b.details.map fun e => w (keyId e.1) (storedSize b (keyId e.1))).sum

/-- Weight of an order in the contract's base-token obligations: an `Ask`
order is owed its remaining size in base. -/
def askWeight : OId → Nat → Nat := fun id sz =>
  if id.side = OrderSide.Ask then sz else 0

/-- Weight of an order in the contract's quote-token obligations: a `Bid`
order is owed `quote_amount(price, remaining_size)` in quote. -/
def bidWeight : OId → Nat → Nat := fun id sz =>
  if id.side = OrderSide.Bid then quoteAmountN id.price sz else 0

/-- Total base escrow owed to resting `Ask` orders. -/
def askReserve {T : Type} (b : BookState T) : Nat := reserveSum b askWeight

/-- Total quote escrow owed to resting `Bid` orders. -/
def bidReserve {T : Type} (b : BookState T) : Nat := reserveSum b bidWeight

/-- Every live order's stored size is positive and inside the fixed-point
bounds under which `quote_amount` cannot panic. -/
def SizesOK {T : Type} (b : BookState T) : Prop :=
  ∀ id : OId, live b id →
    0 < storedSize b id ∧ storedSize b id < 2 ^ 96 ∧
      id.price * storedSize b id < 2 ^ 128

/-- No stored order is owned by the market contract itself (`place_order`
authenticates `params.details.owner`, which the host cannot do for the
contract's own address). -/
def OwnersOK (b : BookState ODetail) : Prop :=
  ∀ k d, alGet b.details k = some d → d.owner ≠ marketAddr

/-- The market invariant: a well-formed book whose live orders have
positive in-bounds sizes and user owners, an empty event queue between
calls, non-negative balances everywhere, and contract balances covering
both reserves. -/
structure MINV (s : MarketState) : Prop where
  wf : SWF s.book
  sizesOK : SizesOK s.book
  owners : OwnersOK s.book
  ev : s.book.events = []
  baseNN : ∀ a, 0 ≤ s.base a
  quoteNN : ∀ a, 0 ≤ s.quote a
  baseRes : (askReserve s.book : Int) ≤ s.base marketAddr
  quoteRes : (bidReserve s.book : Int) ≤ s.quote marketAddr

/-- The book-storage effect of one fill on the maker `id`: the engine
rewrites the size to `z`, pushes a `Fill(m)` event, and the market's
callback consumes that event (removing the order if it is now empty and
fully filled). -/
def fillBook {T : Type} (b : BookState T) (id : OId) (z m : Nat) : BookState T :=
  consumeOneS (pushEventS (modifyOrderS b id z) id m) id 1

/-- Loop invariant of the matching walk for a `Bid` taker with limit price
`P` and escrowed quote `qo = quote_amount(P, params.size)`; `amt` is the
taker size still unfilled. -/
structure QBid (P qo : Nat) (amt : Nat) (st : BookState ODetail × MExt) : Prop where
  wf : SWF st.1
  sizesOK : SizesOK st.1
  owners : OwnersOK st.1
  ev : st.1.events = []
  baseNN : ∀ a, 0 ≤ st.2.base a
  quoteNN : ∀ a, 0 ≤ st.2.quote a
  baseRes : (askReserve st.1 : Int) ≤ st.2.base marketAddr
  quoteRes : (bidReserve st.1 : Int) + (qo : Int) - st.2.quoteConsumed
    ≤ st.2.quote marketAddr
  qCons : st.2.quoteConsumed + (quoteAmountN P amt : Int) ≤ (qo : Int)

/-- Loop invariant of the matching walk for an `Ask` taker of original
size `sz0` (whose base is escrowed); `amt` is the size still unfilled. -/
structure QAsk (sz0 : Nat) (amt : Nat) (st : BookState ODetail × MExt) : Prop where
  wf : SWF st.1
  sizesOK : SizesOK st.1
  owners : OwnersOK st.1
  ev : st.1.events = []
  baseNN : ∀ a, 0 ≤ st.2.base a
  quoteNN : ∀ a, 0 ≤ st.2.quote a
  baseRes : (askReserve st.1 : Int) + (amt : Int) ≤ st.2.base marketAddr
  quoteRes : (bidReserve st.1 : Int) ≤ st.2.quote marketAddr
  bcNN : 0 ≤ st.2.baseConsumed
  bcAcc : st.2.baseConsumed + (amt : Int) = (sz0 : Int)

/-! ### Concrete market runs (the spec's Scenario B and a self-trade)

Prices are raw `U96F32` bits: `2.0` is `2 * 2^32`, `3.0` is `3 * 2^32`.
Account 0 is the market contract (`marketAddr`); accounts 1 and 2 are
users. -/

/-- Price `2.0` as raw `U96F32` bits. -/
def px2 : Nat := 2 * 2 ^ 32

/-- Price `3.0` as raw `U96F32` bits. -/
def px3 : Nat := 3 * 2 ^ 32

/-- Scenario B initial base ledger: user 1 holds 1000 base. -/
def exBase0 : Nat → Int := fun a => if a = 1 then 1000 else 0

/-- Scenario B initial quote ledger: user 2 holds 3000 quote. -/
def exQuote0 : Nat → Int := fun a => if a = 2 then 3000 else 0

/-- Scenario B market after `init` (minimum order size 1). -/
def exS0 : MarketState := marketInit 1 exBase0 exQuote0

/-- Scenario B maker call: user 1 asks 1000 base at price 2.0. -/
def exPA : MParams := ⟨OrderSide.Ask, 1000, px2, 1⟩

/-- The maker's `place_order` run. -/
def exPlaceA := marketPlaceOrder exS0 exPA

/-- Scenario B market after the maker's order rests. -/
def exS1 : MarketState :=
  match exPlaceA.1 with
  | some (Except.ok (s, _)) => s
  | _ => exS0

/-- Scenario B taker call: user 2 bids 1000 base at limit price 3.0. -/
def exPB : MParams := ⟨OrderSide.Bid, 1000, px3, 2⟩

/-- The taker's `place_order` run. -/
def exPlaceB := marketPlaceOrder exS1 exPB

/-- Scenario B market after the cross. -/
def exS2 : MarketState :=
  match exPlaceB.1 with
  | some (Except.ok (s, _)) => s
  | _ => exS1

/-- The maker's fill entry delivered to `on_match` in Scenario B: the
resting order's id and PRICE (2.0), with the fill size. -/
def exMakerEntry : OrderEntry ODetail := ⟨⟨OrderSide.Ask, px2, 0⟩, px2, 1000, ⟨1⟩⟩

/-- A small book holding only the Scenario B maker, for exercising the
settlement callback directly. -/
def exCbBook : BookState ODetail :=
  (placeOrderS (BookState.empty (T := ODetail)) OrderSide.Ask px2 1000 ⟨1⟩).2

/-- A callback context in which the market holds 1000 base and 2000
quote. -/
def exCbX : MExt :=
  ⟨fun a => if a = marketAddr then 1000 else 0,
   fun a => if a = marketAddr then 2000 else 0, false, 0, 0⟩

/-- A direct settlement-callback run for taker 2 against the maker. -/
def exCbRun := marketCb 2 exMakerEntry (exCbBook, exCbX)

/-- Self-trade scenario initial base ledger: user 3 holds 1000 base. -/
def exTBase : Nat → Int := fun a => if a = 3 then 1000 else 0

/-- Self-trade scenario initial quote ledger: user 3 holds 3000 quote. -/
def exTQuote : Nat → Int := fun a => if a = 3 then 3000 else 0

/-- Self-trade scenario market after `init`. -/
def exT0 : MarketState := marketInit 1 exTBase exTQuote

/-- Self-trade maker call: user 3 asks 1000 base at price 2.0. -/
def exTPA : MParams := ⟨OrderSide.Ask, 1000, px2, 3⟩

/-- The self-trade maker's `place_order` run. -/
def exPlaceTA := marketPlaceOrder exT0 exTPA

/-- Self-trade market with user 3's ask resting. -/
def exT1 : MarketState :=
  match exPlaceTA.1 with
  | some (Except.ok (s, _)) => s
  | _ => exT0

/-- Self-trade taker call: user 3 bids 500 at limit 3.0 against their own
resting ask. -/
def exTPC : MParams := ⟨OrderSide.Bid, 500, px3, 3⟩

/-- The self-trading `place_order` run. -/
def exPlaceC := marketPlaceOrder exT1 exTPC

/-! ### A key-collision scenario: a resting order priced in `[2^56, 2*2^56)`

All prices are admissible `u64` values, so `place_order` accepts a price
whose top byte is 1; the storage writes for such an order byte-collide
(details and size share one key), and later `get_order` reads of it trap. -/

/-- Collision scenario initial base ledger: user 4 holds 1500 base. -/
def exUBase : Nat → Int := fun a => if a = 4 then 1500 else 0

/-- Collision scenario initial quote ledger: user 4 holds 5000 quote. -/
def exUQuote : Nat → Int := fun a => if a = 4 then 5000 else 0

/-- Collision scenario market after `init`. -/
def exU0 : MarketState := marketInit 1 exUBase exUQuote

/-- First maker call: user 4 asks 1000 base at price 2.0. -/
def exUPA : MParams := ⟨OrderSide.Ask, 1000, px2, 4⟩

/-- The first maker's `place_order` run. -/
def exPlaceUA := marketPlaceOrder exU0 exUPA

/-- Collision scenario market with the 2.0 ask resting. -/
def exU1 : MarketState :=
  match exPlaceUA.1 with
  | some (Except.ok (s, _)) => s
  | _ => exU0

/-- Second maker call: user 4 asks 500 base at the `u64` price `2^56 +
3*2^32`, whose top byte is `ORDER_ATTR_KEY_SIZE = 1`. -/
def exUPB : MParams := ⟨OrderSide.Ask, 500, P56 + px3, 4⟩

/-- The second maker's `place_order` run (it crosses nothing and rests). -/
def exPlaceUB := marketPlaceOrder exU1 exUPB

/-- Collision scenario market with both asks resting. -/
def exU2 : MarketState :=
  match exPlaceUB.1 with
  | some (Except.ok (s, _)) => s
  | _ => exU1

/-- Taker call: user 4 bids 1500 at limit 3.0 — a self-trade against their
own 2.0 ask, after which the walk reaches the collided second ask. -/
def exUPC : MParams := ⟨OrderSide.Bid, 1500, px3, 4⟩

/-- The self-trading `place_order` run that walks into the collided id. -/
def exPlaceU := marketPlaceOrder exU2 exUPC

/-! # Theorems -/

/-! ## Byte codec lemmas -/

@[simp] theorem beBytes_length (w n : Nat) : (beBytes w n).length = w := by
  induction w generalizing n with
  | zero => rfl
  | succ w ih => simp [beBytes, ih]

theorem fromBeBytes_append (xs ys : List Nat) :
    fromBeBytes (xs ++ ys) = ys.foldl (fun acc b => acc * 256 + b) (fromBeBytes xs) := by
  simp [fromBeBytes, List.foldl_append]

theorem fromBeBytes_beBytes (w n : Nat) : fromBeBytes (beBytes w n) = n % 256 ^ w := by
  induction w generalizing n with
  | zero => simp [beBytes, fromBeBytes, Nat.mod_one]
  | succ w ih =>
    have h : fromBeBytes (beBytes w (n / 256) ++ [n % 256])
        = fromBeBytes (beBytes w (n / 256)) * 256 + n % 256 := by
      simp [fromBeBytes_append, fromBeBytes]
    have hpow : 256 ^ (w + 1) = 256 * 256 ^ w := by ring
    calc fromBeBytes (beBytes (w + 1) n)
        = fromBeBytes (beBytes w (n / 256)) * 256 + n % 256 := h
      _ = n / 256 % 256 ^ w * 256 + n % 256 := by rw [ih]
      _ = n % 256 ^ (w + 1) := by
          rw [hpow, Nat.mod_mul]; ring

theorem beBytes_inj {w m n : Nat} (hm : m < 256 ^ w) (hn : n < 256 ^ w)
    (h : beBytes w m = beBytes w n) : m = n := by
  have := congrArg fromBeBytes h
  rwa [fromBeBytes_beBytes, fromBeBytes_beBytes, Nat.mod_eq_of_lt hm,
    Nat.mod_eq_of_lt hn] at this

theorem beBytes_split (w k n : Nat) :
    beBytes (w + k) n = beBytes w (n / 256 ^ k) ++ beBytes k n := by
  induction k generalizing n with
  | zero => simp [beBytes]
  | succ k ih =>
    have h1 : w + (k + 1) = (w + k) + 1 := rfl
    calc beBytes (w + (k + 1)) n
        = beBytes (w + k) (n / 256) ++ [n % 256] := by rw [h1]; rfl
      _ = (beBytes w (n / 256 / 256 ^ k) ++ beBytes k (n / 256)) ++ [n % 256] := by
          rw [ih]
      _ = beBytes w (n / 256 ^ (k + 1)) ++ (beBytes k (n / 256) ++ [n % 256]) := by
          rw [Nat.div_div_eq_div_mul, List.append_assoc]
          ring_nf
      _ = beBytes w (n / 256 ^ (k + 1)) ++ beBytes (k + 1) n := rfl

theorem beBytes_mod (w n : Nat) : beBytes w (n % 256 ^ w) = beBytes w n := by
  induction w generalizing n with
  | zero => rfl
  | succ w ih =>
    have h1 : n % 256 ^ (w + 1) / 256 = n / 256 % 256 ^ w := by
      have : (256 : Nat) ^ (w + 1) = 256 * 256 ^ w := by ring
      rw [this, Nat.mod_mul_right_div_self]
    have h2 : n % 256 ^ (w + 1) % 256 = n % 256 :=
      Nat.mod_mod_of_dvd n (dvd_pow_self 256 (Nat.succ_ne_zero w))
    show beBytes w (n % 256 ^ (w + 1) / 256) ++ [n % 256 ^ (w + 1) % 256]
        = beBytes w (n / 256) ++ [n % 256]
    rw [h1, h2, ih]

theorem pow256_7 : (256 : Nat) ^ 7 = P56 := by norm_num [P56]

/-- Normal form of the 16-byte id: byte 4 is the top byte of the
big-endian price. -/
theorem idBytes_eq (pfx : Nat) (s : OrderSide) (p l : Nat) :
    idBytes pfx s p l =
      pfx / 256 % 256 :: pfx % 256 :: 0 :: s.toByte :: (p / P56 % 256) ::
        (beBytes 7 p ++ beBytes 4 l) := by
  have h8 : beBytes 8 p = (p / P56 % 256) :: beBytes 7 p := by
    have h : beBytes 8 p = beBytes 1 (p / 256 ^ 7) ++ beBytes 7 p := beBytes_split 1 7 p
    rw [pow256_7] at h
    have h1 : beBytes 1 (p / P56) = [p / P56 % 256] := rfl
    rw [h1] at h
    simpa using h
  have h2 : beBytes 2 pfx = [pfx / 256 % 256, pfx % 256] := rfl
  rw [idBytes, h2, h8]
  simp

/-- `with_attr_key(key)` overwrites byte 4 — the price's top byte. -/
theorem withAttrKeyBytes_eq (pfx : Nat) (s : OrderSide) (p l k : Nat) :
    withAttrKeyBytes pfx s p l k =
      pfx / 256 % 256 :: pfx % 256 :: 0 :: s.toByte :: k ::
        (beBytes 7 p ++ beBytes 4 l) := by
  rw [withAttrKeyBytes, idBytes_eq]
  rfl

/-- The cross-family key collision: the raw 16-byte id of an order whose
price top byte is 1 (price in `[2^56, 2*2^56)`) has exactly the bytes of
the size-attribute key (`with_attr_key(ORDER_ATTR_KEY_SIZE)`) of the same
side, the price mod `2^56` and the same local id. -/
theorem idBytes_size_key_collision (pfx : Nat) (s : OrderSide) (r l : Nat) (hr : r < P56) :
    idBytes pfx s (P56 + r) l = withAttrKeyBytes pfx s r l ORDER_ATTR_KEY_SIZE := by
  have hP : 0 < P56 := by norm_num [P56]
  rw [idBytes_eq, withAttrKeyBytes_eq]
  have hdiv : (P56 + r) / P56 = 1 := by
    rw [Nat.add_comm, Nat.add_div_right r hP, Nat.div_eq_of_lt hr]
  have h7 : beBytes 7 (P56 + r) = beBytes 7 r := by
    rw [← beBytes_mod 7 (P56 + r), pow256_7, Nat.add_mod_left, Nat.mod_eq_of_lt hr]
  rw [hdiv, h7]
  rfl

/-- `price_key` keeps side but zeroes the price's top byte. -/
theorem priceKeyBytes_eq (pfx : Nat) (s : OrderSide) (p l : Nat) :
    priceKeyBytes pfx s p l =
      pfx / 256 % 256 :: pfx % 256 :: 0 :: s.toByte :: 0 :: beBytes 7 p := by
  rw [priceKeyBytes, idBytes_eq]
  have ht : (beBytes 7 p ++ beBytes 4 l).take 7 = beBytes 7 p := by
    have h := List.take_left (beBytes 7 p) (beBytes 4 l)
    rwa [beBytes_length] at h
  show ((pfx / 256 % 256 :: pfx % 256 :: 0 :: s.toByte :: (p / P56 % 256) ::
      (beBytes 7 p ++ beBytes 4 l)).take 12).set 4 0 = _
  have htake : (pfx / 256 % 256 :: pfx % 256 :: 0 :: s.toByte :: (p / P56 % 256) ::
      (beBytes 7 p ++ beBytes 4 l)).take 12
      = pfx / 256 % 256 :: pfx % 256 :: 0 :: s.toByte :: (p / P56 % 256) :: beBytes 7 p := by
    show _ :: _ :: _ :: _ :: _ :: (beBytes 7 p ++ beBytes 4 l).take 7 = _
    rw [ht]
  rw [htake]
  rfl

/-- The queue key: built from a `Bid`-side id, so independent of side and
local id; only `price % 2^56` remains. -/
theorem priceQueueKeyBytes_eq (pfx p : Nat) :
    priceQueueKeyBytes pfx p =
      pfx / 256 % 256 :: pfx % 256 :: 0 :: 0 :: 0 :: beBytes 7 p := by
  rw [priceQueueKeyBytes, priceKeyBytes_eq]
  rfl

theorem priceQueueKeyBytes_eq_iff (pfx p p' : Nat) :
    priceQueueKeyBytes pfx p = priceQueueKeyBytes pfx p' ↔ p % P56 = p' % P56 := by
  rw [priceQueueKeyBytes_eq, priceQueueKeyBytes_eq]
  constructor
  · intro h
    have h7 : beBytes 7 p = beBytes 7 p' := by simpa using h
    have := congrArg fromBeBytes h7
    rwa [fromBeBytes_beBytes, fromBeBytes_beBytes, pow256_7] at this
  · intro h
    have h7 : beBytes 7 p = beBytes 7 p' := by
      rw [← beBytes_mod 7 p, ← beBytes_mod 7 p', pow256_7, h]
    rw [h7]

theorem OrderSide.toByte_inj {s s' : OrderSide} (h : s.toByte = s'.toByte) : s = s' := by
  cases s <;> cases s' <;> simp_all [OrderSide.toByte]

/-- Helper: split an equality of two `beBytes 7 _ ++ beBytes 4 _` tails. -/
theorem tail_split {p p' l l' : Nat}
    (h : beBytes 7 p ++ beBytes 4 l = beBytes 7 p' ++ beBytes 4 l') :
    beBytes 7 p = beBytes 7 p' ∧ beBytes 4 l = beBytes 4 l' := by
  have hlen : (beBytes 7 p).length = (beBytes 7 p').length := by simp
  exact List.append_inj h hlen

/-- The raw 16-byte id key (the details record key) is injective on
`(side, price, local_id)` for `u64` prices and `u32` local ids. -/
theorem idBytes_inj (pfx : Nat) {s s' : OrderSide} {p p' l l' : Nat}
    (hp : p < 2 ^ 64) (hp' : p' < 2 ^ 64) (hl : l < 2 ^ 32) (hl' : l' < 2 ^ 32) :
    idBytes pfx s p l = idBytes pfx s' p' l' ↔ s = s' ∧ p = p' ∧ l = l' := by
  constructor
  · intro h
    rw [idBytes_eq, idBytes_eq] at h
    simp only [List.cons.injEq] at h
    obtain ⟨-, -, -, hside, htop, htail⟩ := h
    obtain ⟨h7, h4⟩ := tail_split htail
    refine ⟨OrderSide.toByte_inj hside, ?_, ?_⟩
    · have hmod : p % P56 = p' % P56 := by
        have := congrArg fromBeBytes h7
        rwa [fromBeBytes_beBytes, fromBeBytes_beBytes, pow256_7] at this
      have hdivlt : p / P56 < 256 := by
        apply Nat.div_lt_of_lt_mul
        calc p < 2 ^ 64 := hp
          _ = P56 * 256 := by norm_num [P56]
      have hdivlt' : p' / P56 < 256 := by
        apply Nat.div_lt_of_lt_mul
        calc p' < 2 ^ 64 := hp'
          _ = P56 * 256 := by norm_num [P56]
      have hdiv : p / P56 = p' / P56 := by
        rwa [Nat.mod_eq_of_lt hdivlt, Nat.mod_eq_of_lt hdivlt'] at htop
      have e1 : p = P56 * (p / P56) + p % P56 := (Nat.div_add_mod p P56).symm
      have e2 : p' = P56 * (p' / P56) + p' % P56 := (Nat.div_add_mod p' P56).symm
      rw [e1, e2, hdiv, hmod]
    · exact beBytes_inj (by norm_num at hl ⊢; omega) (by norm_num at hl' ⊢; omega) h4
  · rintro ⟨rfl, rfl, rfl⟩
    rfl

/-- The size-attribute key is injective on side, `price % 2^56` and local id. -/
theorem sizeAttrKeyBytes_inj (pfx : Nat) {s s' : OrderSide} {p p' l l' : Nat}
    (hl : l < 2 ^ 32) (hl' : l' < 2 ^ 32) :
    withAttrKeyBytes pfx s p l ORDER_ATTR_KEY_SIZE
        = withAttrKeyBytes pfx s' p' l' ORDER_ATTR_KEY_SIZE ↔
      s = s' ∧ p % P56 = p' % P56 ∧ l = l' := by
  rw [withAttrKeyBytes_eq, withAttrKeyBytes_eq]
  constructor
  · intro h
    simp only [List.cons.injEq] at h
    obtain ⟨-, -, -, hside, -, htail⟩ := h
    obtain ⟨h7, h4⟩ := tail_split htail
    refine ⟨OrderSide.toByte_inj hside, ?_, ?_⟩
    · have := congrArg fromBeBytes h7
      rwa [fromBeBytes_beBytes, fromBeBytes_beBytes, pow256_7] at this
    · exact beBytes_inj (by norm_num at hl ⊢; omega) (by norm_num at hl' ⊢; omega) h4
  · rintro ⟨rfl, hmod, rfl⟩
    have h7 : beBytes 7 p = beBytes 7 p' := by
      rw [← beBytes_mod 7 p, ← beBytes_mod 7 p', pow256_7, hmod]
    rw [h7]

/-- C10, counterexample.  The claim's final sentence — for prices below
`2^56` the derived keys of distinct `(side, price, local_id)` triples are
pairwise distinct — fails: `price_queue_key` is built from a `Bid`-side id
(`storage.rs` line 134), so the two distinct triples `(Bid, 5, 0)` and
`(Ask, 5, 0)` share one queue key even at price `5 < 2^56`; consequently a
`Bid` and an `Ask` placed at price 5 land in the same stored queue
(locals `[0, 1]`). -/
theorem c10_queue_key_counterexample :
    (⟨.Bid, 5, 0⟩ : OId) ≠ (⟨.Ask, 5, 0⟩ : OId) ∧ (5 : Nat) < P56 ∧
    priceQueueKeyBytes 0xF1A0 (⟨.Bid, 5, 0⟩ : OId).price
      = priceQueueKeyBytes 0xF1A0 (⟨.Ask, 5, 0⟩ : OId).price ∧
    ((placeOrderS (placeOrderS (BookState.empty (T := Nat)) .Bid 5 10 0).2
        .Ask 5 10 0).2).queueAt (5 % P56) = [0, 1] := by
  refine ⟨by decide, by decide, rfl, by decide⟩

/-- C10, amended.  The derived storage keys are pairwise disjoint only for
prices below `2^56`: (i) any two prices congruent mod `2^56` (in
particular, differing only in their top 8 bits) share a price-queue key;
(ii) the plain `OrderId` of a price with top byte `ORDER_ATTR_KEY_SIZE = 1`
coincides with the size-attribute key at the corresponding low price; and
(iii) for prices below `2^56` (and `u32` local ids) the details keys are
injective in `(side, price, local_id)`, the size keys likewise, the
price-queue keys are injective in the price — though independent of side
and local id, which is the sole failure of the original sentence — and the
three key families are mutually disjoint. -/
theorem c10_storage_keys_amended :
    (∀ pfx p p' : Nat, p % P56 = p' % P56 →
        priceQueueKeyBytes pfx p = priceQueueKeyBytes pfx p') ∧
    (∀ (pfx : Nat) (s : OrderSide) (r l : Nat), r < P56 →
        idBytes pfx s (P56 + r) l = withAttrKeyBytes pfx s r l ORDER_ATTR_KEY_SIZE) ∧
    (∀ (pfx : Nat) (s s' : OrderSide) (p p' l l' : Nat),
        p < P56 → p' < P56 → l < 2 ^ 32 → l' < 2 ^ 32 →
        (idBytes pfx s p l = idBytes pfx s' p' l' ↔ s = s' ∧ p = p' ∧ l = l') ∧
        (withAttrKeyBytes pfx s p l ORDER_ATTR_KEY_SIZE
            = withAttrKeyBytes pfx s' p' l' ORDER_ATTR_KEY_SIZE ↔
          s = s' ∧ p = p' ∧ l = l') ∧
        (priceQueueKeyBytes pfx p = priceQueueKeyBytes pfx p' ↔ p = p') ∧
        idBytes pfx s p l ≠ withAttrKeyBytes pfx s' p' l' ORDER_ATTR_KEY_SIZE ∧
        priceQueueKeyBytes pfx p ≠ idBytes pfx s' p' l' ∧
        priceQueueKeyBytes pfx p ≠ withAttrKeyBytes pfx s' p' l' ORDER_ATTR_KEY_SIZE) := by
  have hP : 0 < P56 := by norm_num [P56]
  refine ⟨?_, ?_, ?_⟩
  · intro pfx p p' h
    exact (priceQueueKeyBytes_eq_iff pfx p p').mpr h
  · intro pfx s r l hr
    rw [idBytes_eq, withAttrKeyBytes_eq]
    have hdiv : (P56 + r) / P56 = 1 := by
      rw [Nat.add_comm, Nat.add_div_right r hP, Nat.div_eq_of_lt hr]
    have h7 : beBytes 7 (P56 + r) = beBytes 7 r := by
      rw [← beBytes_mod 7 (P56 + r), pow256_7, Nat.add_mod_left, Nat.mod_eq_of_lt hr]
    rw [hdiv, h7]
    rfl
  · intro pfx s s' p p' l l' hp hp' hl hl'
    have hP64 : P56 < 2 ^ 64 := by norm_num [P56]
    have hp64 : p < 2 ^ 64 := lt_trans hp hP64
    have hp64' : p' < 2 ^ 64 := lt_trans hp' hP64
    refine ⟨idBytes_inj pfx hp64 hp64' hl hl', ?_, ?_, ?_, ?_, ?_⟩
    · rw [sizeAttrKeyBytes_inj pfx hl hl', Nat.mod_eq_of_lt hp, Nat.mod_eq_of_lt hp']
    · rw [priceQueueKeyBytes_eq_iff, Nat.mod_eq_of_lt hp, Nat.mod_eq_of_lt hp']
    · rw [idBytes_eq, withAttrKeyBytes_eq]
      intro h
      simp only [List.cons.injEq] at h
      have hbyte := h.2.2.2.2.1
      rw [Nat.div_eq_of_lt hp] at hbyte
      exact absurd hbyte (by decide)
    · intro h
      have hlen := congrArg List.length h
      simp [priceQueueKeyBytes_eq, idBytes_eq] at hlen
    · intro h
      have hlen := congrArg List.length h
      simp [priceQueueKeyBytes_eq, withAttrKeyBytes_eq] at hlen

/-! ## Association list lemmas -/

@[simp] theorem alGet_nil {κ α : Type _} [DecidableEq κ] (k : κ) :
    alGet ([] : List (κ × α)) k = none := rfl

theorem alGet_append {κ α : Type _} [DecidableEq κ] (l₁ l₂ : List (κ × α)) (k : κ) :
    alGet (l₁ ++ l₂) k = ((alGet l₁ k).orElse fun _ => alGet l₂ k) := by
  induction l₁ with
  | nil => simp [alGet]
  | cons e t ih =>
    by_cases h : e.1 = k <;> simp [alGet, h, ih]

theorem alGet_alRemove {κ α : Type _} [DecidableEq κ] (l : List (κ × α)) (k k' : κ) :
    alGet (alRemove l k) k' = if k' = k then none else alGet l k' := by
  induction l with
  | nil => simp [alRemove, alGet]
  | cons e t ih =>
    by_cases he : e.1 = k
    · have h1 : alRemove (e :: t) k = alRemove t k := by simp [alRemove, he]
      rw [h1, ih]
      by_cases hk : k' = k
      · simp [hk]
      · have hne : e.1 ≠ k' := by rw [he]; exact fun h => hk h.symm
        simp [hk, alGet, hne]
    · have h1 : alRemove (e :: t) k = e :: alRemove t k := by simp [alRemove, he]
      rw [h1]
      by_cases hek : e.1 = k'
      · have hk : ¬ (k' = k) := fun h => he (hek.trans h)
        simp [alGet, hek, hk]
      · simp [alGet, hek, ih]

theorem alGet_alSet {κ α : Type _} [DecidableEq κ] (l : List (κ × α)) (k k' : κ) (v : α) :
    alGet (alSet l k v) k' = if k' = k then some v else alGet l k' := by
  rw [alSet, alGet_append, alGet_alRemove]
  by_cases hk : k' = k
  · simp [hk, alGet]
  · have hne : ¬ k = k' := fun h => hk h.symm
    cases h : alGet l k' <;> simp [hk, alGet, hne, Option.orElse, h]

@[simp] theorem alGet_alSet_self {κ α : Type _} [DecidableEq κ] (l : List (κ × α)) (k : κ) (v : α) :
    alGet (alSet l k v) k = some v := by simp [alGet_alSet]

theorem alGet_alSet_ne {κ α : Type _} [DecidableEq κ] (l : List (κ × α)) {k k' : κ} (v : α)
    (h : k' ≠ k) : alGet (alSet l k v) k' = alGet l k' := by simp [alGet_alSet, h]

theorem alGet_eq_none_of_not_mem {κ α : Type _} [DecidableEq κ] {l : List (κ × α)} {k : κ}
    (h : k ∉ l.map Prod.fst) : alGet l k = none := by
  induction l with
  | nil => rfl
  | cons e t ih =>
    simp only [List.map_cons, List.mem_cons] at h
    push_neg at h
    have h1 : e.1 ≠ k := fun hh => h.1 hh.symm
    simp [alGet, h1, ih h.2]

theorem alRemove_eq_self {κ α : Type _} [DecidableEq κ] {l : List (κ × α)} {k : κ}
    (h : k ∉ l.map Prod.fst) : alRemove l k = l := by
  induction l with
  | nil => rfl
  | cons e t ih =>
    simp only [List.map_cons, List.mem_cons] at h
    push_neg at h
    have h1 : e.1 ≠ k := fun hh => h.1 hh.symm
    show List.filter _ (e :: t) = e :: t
    rw [List.filter_cons_of_pos (by simpa using h1)]
    exact congrArg (e :: ·) (ih h.2)

theorem alRemove_keys_nodup {κ α : Type _} [DecidableEq κ] (l : List (κ × α)) (k : κ)
    (h : (l.map Prod.fst).Nodup) : ((alRemove l k).map Prod.fst).Nodup :=
  List.Nodup.sublist ((List.filter_sublist l).map Prod.fst) h

theorem not_mem_alRemove_keys {κ α : Type _} [DecidableEq κ] (l : List (κ × α)) (k : κ) :
    k ∉ (alRemove l k).map Prod.fst := by
  intro h
  obtain ⟨e, he, hek⟩ := List.mem_map.mp h
  have h2 := (List.mem_filter.mp he).2
  simp only [ne_eq, decide_not, Bool.not_eq_true', decide_eq_false_iff_not] at h2
  exact h2 hek

theorem alSet_keys_nodup {κ α : Type _} [DecidableEq κ] (l : List (κ × α)) (k : κ) (v : α)
    (h : (l.map Prod.fst).Nodup) : ((alSet l k v).map Prod.fst).Nodup := by
  rw [alSet, List.map_append]
  refine List.Nodup.append (alRemove_keys_nodup l k h) (List.nodup_singleton k) ?_
  intro x hx hk
  simp only [List.map_cons, List.map_nil, List.mem_singleton] at hk
  subst hk
  exact not_mem_alRemove_keys l x hx

/-- `k ∈ (alSet l k v)` always, with value `v`; membership of the entry. -/
theorem mem_alSet_self {κ α : Type _} [DecidableEq κ] (l : List (κ × α)) (k : κ) (v : α) :
    (k, v) ∈ alSet l k v := by
  simp [alSet]

/-! ## Frame lemmas for the storage operations -/

theorem live_iff {T : Type} (b : BookState T) (id : OId) :
    live b id ↔ alGet b.details (detKey id) ≠ none := by
  simp [live, Option.isSome_iff_ne_none]

theorem book_setBook {T : Type} (b : BookState T) (s s' : OrderSide) (l : List Nat) :
    (b.setBook s l).book s' = if s' = s then l else b.book s' := by
  cases s <;> cases s' <;> simp [BookState.setBook, BookState.book]

theorem setBook_queues {T : Type} (b : BookState T) (s : OrderSide) (l : List Nat) :
    (b.setBook s l).queues = b.queues := by cases s <;> rfl

theorem setBook_details {T : Type} (b : BookState T) (s : OrderSide) (l : List Nat) :
    (b.setBook s l).details = b.details := by cases s <;> rfl

theorem setBook_sizes {T : Type} (b : BookState T) (s : OrderSide) (l : List Nat) :
    (b.setBook s l).sizes = b.sizes := by cases s <;> rfl

theorem setBook_events {T : Type} (b : BookState T) (s : OrderSide) (l : List Nat) :
    (b.setBook s l).events = b.events := by cases s <;> rfl

theorem setBook_queueAt {T : Type} (b : BookState T) (s : OrderSide) (l : List Nat) (qk : Nat) :
    (b.setBook s l).queueAt qk = b.queueAt qk := by
  simp [BookState.queueAt, setBook_queues]

theorem placeOrderS_interQ {T : Type} (b : BookState T) (side : OrderSide) (price : Nat) :
    (if price ∈ b.book side then b
      else b.setBook side (insortNat (b.book side) price)).queueAt (price % P56)
      = b.queueAt (price % P56) := by
  split
  · rfl
  · exact setBook_queueAt b side _ _

theorem placeOrderS_fst {T : Type} (b : BookState T) (side : OrderSide) (price size : Nat)
    (d : T) : (placeOrderS b side price size d).1 = ⟨side, price, nextLocal b price⟩ := by
  simp only [placeOrderS, placeOrderS_interQ]
  rfl

theorem placeOrderS_book_same {T : Type} (b : BookState T) (side : OrderSide)
    (price size : Nat) (d : T) :
    (placeOrderS b side price size d).2.book side
      = if price ∈ b.book side then b.book side else insortNat (b.book side) price := by
  by_cases hmem : price ∈ b.book side
  · simp only [placeOrderS, if_pos hmem]
    cases side <;> rfl
  · simp only [placeOrderS, if_neg hmem]
    cases side <;> rfl

theorem placeOrderS_book_other {T : Type} (b : BookState T) {side s' : OrderSide}
    (price size : Nat) (d : T) (h : s' ≠ side) :
    (placeOrderS b side price size d).2.book s' = b.book s' := by
  by_cases hmem : price ∈ b.book side
  · simp only [placeOrderS, if_pos hmem]
    cases s' <;> rfl
  · simp only [placeOrderS, if_neg hmem]
    cases s' <;> cases side <;> simp_all [BookState.setBook, BookState.book]

theorem placeOrderS_queueAt {T : Type} (b : BookState T) (side : OrderSide)
    (price size : Nat) (d : T) (qk : Nat) :
    (placeOrderS b side price size d).2.queueAt qk
      = if qk = price % P56 then b.queueAt (price % P56) ++ [nextLocal b price]
        else b.queueAt qk := by
  have step : ∀ bb : BookState T, bb.queues = b.queues →
      ((⟨bb.bidBook, bb.askBook,
          alSet bb.queues (price % P56) (b.queueAt (price % P56) ++ [nextLocal b price]),
          bb.sizes, bb.details, bb.events⟩ : BookState T)).queueAt qk
        = if qk = price % P56 then b.queueAt (price % P56) ++ [nextLocal b price]
          else b.queueAt qk := by
    intro bb hq
    show (alGet (alSet bb.queues (price % P56) _) qk).getD [] = _
    rw [hq, alGet_alSet]
    by_cases hqk : qk = price % P56
    · rw [if_pos hqk, if_pos hqk]
      rfl
    · rw [if_neg hqk, if_neg hqk]
      rfl
  by_cases hmem : price ∈ b.book side
  · simp only [placeOrderS, if_pos hmem]
    exact step b rfl
  · simp only [placeOrderS, if_neg hmem]
    rw [setBook_queueAt]
    exact step (b.setBook side (insortNat (b.book side) price)) (setBook_queues b side _)

theorem placeOrderS_details_list {T : Type} (b : BookState T) (side : OrderSide)
    (price size : Nat) (d : T) :
    (placeOrderS b side price size d).2.details
      = alSet b.details (side, price, nextLocal b price) d := by
  simp only [placeOrderS, placeOrderS_interQ]
  split
  · rfl
  · rw [setBook_details]
    rfl

theorem placeOrderS_sizes_list {T : Type} (b : BookState T) (side : OrderSide)
    (price size : Nat) (d : T) :
    (placeOrderS b side price size d).2.sizes
      = alSet b.sizes (side, price % P56, nextLocal b price) size := by
  simp only [placeOrderS, placeOrderS_interQ]
  split
  · rfl
  · rw [setBook_sizes]
    rfl

theorem placeOrderS_events {T : Type} (b : BookState T) (side : OrderSide)
    (price size : Nat) (d : T) :
    (placeOrderS b side price size d).2.events = b.events := by
  simp only [placeOrderS, placeOrderS_interQ]
  split
  · rfl
  · rw [setBook_events]

theorem removeOrderS_details_list {T : Type} (b : BookState T) (id : OId) :
    (removeOrderS b id).details = alRemove b.details (detKey id) := by
  simp only [removeOrderS]
  split
  · rw [setBook_details]
  · rfl

theorem removeOrderS_sizes_list {T : Type} (b : BookState T) (id : OId) :
    (removeOrderS b id).sizes = alRemove b.sizes (sizeKey id) := by
  simp only [removeOrderS]
  split
  · rw [setBook_sizes]
  · rfl

theorem removeOrderS_events {T : Type} (b : BookState T) (id : OId) :
    (removeOrderS b id).events = b.events := by
  simp only [removeOrderS]
  split
  · rw [setBook_events]
  · rfl

theorem removeOrderS_queueAt {T : Type} (b : BookState T) (id : OId) (qk : Nat) :
    (removeOrderS b id).queueAt qk
      = if qk = id.price % P56 then (b.queueAt (id.price % P56)).erase id.localId
        else b.queueAt qk := by
  simp only [removeOrderS]
  split
  · next hemp =>
    rw [setBook_queueAt]
    show (alGet (alRemove b.queues (id.price % P56)) qk).getD [] = _
    rw [alGet_alRemove]
    by_cases hqk : qk = id.price % P56
    · rw [if_pos hqk, if_pos hqk]
      have : ((b.queueAt (id.price % P56)).erase id.localId) = [] :=
        List.isEmpty_iff.mp hemp
      rw [this]
      rfl
    · rw [if_neg hqk, if_neg hqk]
      rfl
  · next hemp =>
    show (alGet (alSet b.queues (id.price % P56) _) qk).getD [] = _
    rw [alGet_alSet]
    by_cases hqk : qk = id.price % P56
    · rw [if_pos hqk, if_pos hqk]
      rfl
    · rw [if_neg hqk, if_neg hqk]
      rfl

theorem book_mk {T : Type} (b : BookState T) (q : List (Nat × List Nat))
    (sz : List ((OrderSide × Nat × Nat) × Nat)) (dt : List ((OrderSide × Nat × Nat) × T))
    (ev : List ((OrderSide × Nat × Nat) × List Nat)) (s' : OrderSide) :
    ((⟨b.bidBook, b.askBook, q, sz, dt, ev⟩ : BookState T)).book s' = b.book s' := by
  cases s' <;> rfl

theorem removeOrderS_book {T : Type} (b : BookState T) (id : OId) (s' : OrderSide) :
    (removeOrderS b id).book s'
      = if ((b.queueAt (id.price % P56)).erase id.localId).isEmpty ∧ s' = id.side
        then (b.book s').filter (· ≠ id.price) else b.book s' := by
  simp only [removeOrderS]
  split
  · next hemp =>
    rw [book_setBook]
    by_cases hs : s' = id.side
    · rw [if_pos hs, if_pos ⟨hemp, hs⟩]
      subst hs
      rw [book_mk]
    · rw [if_neg hs, if_neg (fun hh => hs hh.2)]
      rw [book_mk]
  · next hemp =>
    have hemp' : ¬ ((b.queueAt (id.price % P56)).erase id.localId).isEmpty = true := hemp
    rw [if_neg (fun hh => hemp' hh.1)]
    rw [book_mk]

theorem modifyOrderS_sizes_list {T : Type} (b : BookState T) (id : OId) (size : Nat) :
    (modifyOrderS b id size).sizes = alSet b.sizes (sizeKey id) size := rfl

theorem modifyOrderS_details {T : Type} (b : BookState T) (id : OId) (size : Nat) :
    (modifyOrderS b id size).details = b.details := rfl

theorem modifyOrderS_book {T : Type} (b : BookState T) (id : OId) (size : Nat)
    (s' : OrderSide) : (modifyOrderS b id size).book s' = b.book s' := by
  cases s' <;> rfl

theorem modifyOrderS_queueAt {T : Type} (b : BookState T) (id : OId) (size : Nat) (qk : Nat) :
    (modifyOrderS b id size).queueAt qk = b.queueAt qk := rfl

theorem modifyOrderS_events {T : Type} (b : BookState T) (id : OId) (size : Nat) :
    (modifyOrderS b id size).events = b.events := rfl

/-! ## Sorted-list helpers and liveness transport -/

theorem detKey_inj {id id' : OId} (h : detKey id = detKey id') : id = id' := by
  cases id
  cases id'
  simpa [detKey, OId.mk.injEq, Prod.ext_iff] using h

theorem mem_insortNat (l : List Nat) (p x : Nat) : x ∈ insortNat l p ↔ x = p ∨ x ∈ l := by
  induction l with
  | nil => simp [insortNat]
  | cons a t ih =>
    by_cases h1 : p < a
    · simp [insortNat, h1]
    · by_cases h2 : p = a
      · subst h2
        simp [insortNat, h1]
      · simp [insortNat, h1, h2, ih]
        tauto

theorem insortNat_sorted {l : List Nat} (h : l.Sorted (· < ·)) (p : Nat) :
    (insortNat l p).Sorted (· < ·) := by
  induction l with
  | nil => simp [insortNat]
  | cons a t ih =>
    rw [List.sorted_cons] at h
    by_cases h1 : p < a
    · rw [insortNat, if_pos h1, List.sorted_cons]
      refine ⟨?_, List.sorted_cons.mpr h⟩
      intro c hc
      rcases List.mem_cons.mp hc with rfl | hc'
      · exact h1
      · exact lt_trans h1 (h.1 c hc')
    · by_cases h2 : p = a
      · rw [insortNat, if_neg h1, if_pos h2]
        exact List.sorted_cons.mpr h
      · have hap : a < p := lt_of_le_of_ne (not_lt.mp h1) fun hh => h2 hh.symm
        rw [insortNat, if_neg h1, if_neg h2, List.sorted_cons]
        refine ⟨?_, ih h.2⟩
        intro c hc
        rcases (mem_insortNat t p c).mp hc with rfl | hc'
        · exact hap
        · exact h.1 c hc'

theorem sorted_getLast_max {l : List Nat} (h : l.Sorted (· < ·)) (hne : l ≠ []) :
    ∃ m, l.getLast? = some m ∧ m ∈ l ∧ ∀ x ∈ l, x ≤ m := by
  induction l with
  | nil => exact absurd rfl hne
  | cons a t ih =>
    rw [List.sorted_cons] at h
    cases t with
    | nil => exact ⟨a, rfl, List.mem_singleton_self a, by simp⟩
    | cons c t' =>
      obtain ⟨m, hm, hmem, hmax⟩ := ih h.2 (List.cons_ne_nil c t')
      refine ⟨m, by simpa using hm, List.mem_cons_of_mem a hmem, ?_⟩
      intro x hx
      rcases List.mem_cons.mp hx with rfl | hx'
      · exact le_of_lt (lt_of_lt_of_le (h.1 c (List.mem_cons_self c t'))
          (hmax c (List.mem_cons_self c t')))
      · exact hmax x hx'

theorem sorted_le_getLast {l : List Nat} (h : l.Sorted (· < ·)) {x : Nat} (hx : x ∈ l) :
    ∃ m, l.getLast? = some m ∧ x ≤ m := by
  obtain ⟨m, hm, -, hmax⟩ := sorted_getLast_max h (List.ne_nil_of_mem hx)
  exact ⟨m, hm, hmax x hx⟩

theorem lt_nextLocal {T : Type} (b : BookState T) (price : Nat)
    (h : (b.queueAt (price % P56)).Sorted (· < ·)) :
    ∀ x ∈ b.queueAt (price % P56), x < nextLocal b price := by
  intro x hx
  obtain ⟨m, hm, hle⟩ := sorted_le_getLast h hx
  unfold nextLocal
  rw [hm]
  show x < m + 1
  omega

theorem nextLocal_not_mem {T : Type} (b : BookState T) (price : Nat)
    (h : (b.queueAt (price % P56)).Sorted (· < ·)) :
    nextLocal b price ∉ b.queueAt (price % P56) := by
  intro hmem
  exact lt_irrefl _ (lt_nextLocal b price h _ hmem)

theorem live_place {T : Type} (b : BookState T) (side : OrderSide) (price size : Nat)
    (d : T) (id' : OId) :
    live (placeOrderS b side price size d).2 id' ↔
      id' = ⟨side, price, nextLocal b price⟩ ∨ live b id' := by
  unfold live
  rw [placeOrderS_details_list, alGet_alSet]
  by_cases h : detKey id' = (side, price, nextLocal b price)
  · have hid : id' = ⟨side, price, nextLocal b price⟩ := detKey_inj h
    rw [if_pos h]
    simp [hid]
  · have hne : id' ≠ ⟨side, price, nextLocal b price⟩ := by
      intro hh
      exact h (by rw [hh]; rfl)
    rw [if_neg h]
    simp [hne, live]

theorem live_remove {T : Type} (b : BookState T) (id id' : OId) :
    live (removeOrderS b id) id' ↔ id' ≠ id ∧ live b id' := by
  unfold live
  rw [removeOrderS_details_list, alGet_alRemove]
  by_cases h : detKey id' = detKey id
  · have hid : id' = id := detKey_inj h
    rw [if_pos h]
    simp [hid]
  · have hne : id' ≠ id := fun hh => h (by rw [hh])
    rw [if_neg h]
    simp [hne, live]

theorem live_modify {T : Type} (b : BookState T) (id : OId) (size : Nat) (id' : OId) :
    live (modifyOrderS b id size) id' ↔ live b id' := by
  unfold live
  rw [modifyOrderS_details]

/-! ## Preservation of well-formedness by the storage operations -/

theorem SWF_empty {T : Type} : SWF (BookState.empty (T := T)) := by
  refine ⟨?_, ?_, ?_, ?_, ?_, ?_, ?_, ?_, ?_, ?_⟩
  · intro side
    cases side <;> simp [BookState.empty, BookState.book]
  · intro side p hp
    cases side <;> simp [BookState.empty, BookState.book] at hp
  · intro qk
    simp [BookState.empty, BookState.queueAt, alGet]
  · simp [BookState.empty]
  · simp [BookState.empty]
  · intro id hid
    simp [live, BookState.empty, alGet] at hid
  · intro id hid
    simp [live, BookState.empty, alGet] at hid
  · intro id hid
    simp [live, BookState.empty, alGet] at hid
  · intro qk l hl
    simp [BookState.empty, BookState.queueAt, alGet] at hl
  · intro id id' hid hid'
    simp [live, BookState.empty, alGet] at hid

theorem SWF_modify {T : Type} {b : BookState T} (h : SWF b) (id : OId) (size : Nat) :
    SWF (modifyOrderS b id size) := by
  refine ⟨?_, ?_, ?_, ?_, ?_, ?_, ?_, ?_, ?_, ?_⟩
  · intro s'
    rw [modifyOrderS_book]
    exact h.booksSorted s'
  · intro s' p hp
    rw [modifyOrderS_book] at hp
    exact h.booksBound s' p hp
  · intro qk
    rw [modifyOrderS_queueAt]
    exact h.queuesSorted qk
  · rw [modifyOrderS_details]
    exact h.detailsNodup
  · rw [modifyOrderS_sizes_list]
    exact alSet_keys_nodup _ _ _ h.sizesNodup
  · intro id' hl
    rw [modifyOrderS_book]
    exact h.liveInBook id' ((live_modify b id size id').mp hl)
  · intro id' hl
    rw [modifyOrderS_queueAt]
    exact h.liveInQueue id' ((live_modify b id size id').mp hl)
  · intro id' hl
    rw [modifyOrderS_sizes_list, alGet_alSet]
    by_cases hk : sizeKey id' = sizeKey id
    · rw [if_pos hk]
      simp
    · rw [if_neg hk]
      exact h.liveSize id' ((live_modify b id size id').mp hl)
  · intro qk l hl
    rw [modifyOrderS_queueAt] at hl
    obtain ⟨id₀, h1, h2, h3⟩ := h.queueOwner qk l hl
    exact ⟨id₀, h1, h2, (live_modify b id size id₀).mpr h3⟩
  · intro idA idB hA hB h1 h2
    exact h.liveUnique idA idB ((live_modify b id size idA).mp hA)
      ((live_modify b id size idB).mp hB) h1 h2

theorem SWF_place {T : Type} {b : BookState T} (h : SWF b) (side : OrderSide)
    (price size : Nat) (d : T) (hp : price < 2 ^ 64) :
    SWF (placeOrderS b side price size d).2 := by
  have hqs := h.queuesSorted (price % P56)
  have hlt := lt_nextLocal b price hqs
  have hnm := nextLocal_not_mem b price hqs
  refine ⟨?_, ?_, ?_, ?_, ?_, ?_, ?_, ?_, ?_, ?_⟩
  · intro s'
    by_cases hs : s' = side
    · subst hs
      rw [placeOrderS_book_same]
      split
      · exact h.booksSorted s'
      · exact insortNat_sorted (h.booksSorted s') price
    · rw [placeOrderS_book_other _ _ _ _ hs]
      exact h.booksSorted s'
  · intro s' p hmem
    by_cases hs : s' = side
    · subst hs
      rw [placeOrderS_book_same] at hmem
      split at hmem
      · exact h.booksBound s' p hmem
      · rcases (mem_insortNat _ _ _).mp hmem with rfl | hmem'
        · exact hp
        · exact h.booksBound s' p hmem'
    · rw [placeOrderS_book_other _ _ _ _ hs] at hmem
      exact h.booksBound s' p hmem
  · intro qk
    rw [placeOrderS_queueAt]
    by_cases hqk : qk = price % P56
    · rw [if_pos hqk]
      refine List.pairwise_append.mpr ⟨h.queuesSorted _, List.pairwise_singleton _ _, ?_⟩
      intro a ha c hc
      simp only [List.mem_singleton] at hc
      subst hc
      exact hlt a ha
    · rw [if_neg hqk]
      exact h.queuesSorted qk
  · rw [placeOrderS_details_list]
    exact alSet_keys_nodup _ _ _ h.detailsNodup
  · rw [placeOrderS_sizes_list]
    exact alSet_keys_nodup _ _ _ h.sizesNodup
  · intro id' hlive
    rcases (live_place b side price size d id').mp hlive with rfl | hl
    · show price ∈ _
      rw [placeOrderS_book_same]
      split
      · next hmem => exact hmem
      · exact (mem_insortNat _ _ _).mpr (Or.inl rfl)
    · have hmem := h.liveInBook id' hl
      by_cases hs : id'.side = side
      · rw [hs] at hmem ⊢
        rw [placeOrderS_book_same]
        split
        · next h2 => exact hmem
        · exact (mem_insortNat _ _ _).mpr (Or.inr hmem)
      · rw [placeOrderS_book_other _ _ _ _ hs]
        exact hmem
  · intro id' hlive
    rw [placeOrderS_queueAt]
    rcases (live_place b side price size d id').mp hlive with rfl | hl
    · rw [if_pos rfl]
      simp
    · have hq := h.liveInQueue id' hl
      by_cases hqk : id'.price % P56 = price % P56
      · rw [if_pos hqk]
        rw [hqk] at hq
        exact List.mem_append_left _ hq
      · rw [if_neg hqk]
        exact hq
  · intro id' hlive
    rw [placeOrderS_sizes_list, alGet_alSet]
    by_cases hk : sizeKey id' = (side, price % P56, nextLocal b price)
    · rw [if_pos hk]
      simp
    · rw [if_neg hk]
      rcases (live_place b side price size d id').mp hlive with rfl | hl
      · exact absurd rfl hk
      · exact h.liveSize id' hl
  · intro qk l hl
    rw [placeOrderS_queueAt] at hl
    by_cases hqk : qk = price % P56
    · rw [if_pos hqk] at hl
      rcases List.mem_append.mp hl with hq | hnew
      · obtain ⟨id₀, h1, h2, h3⟩ := h.queueOwner (price % P56) l hq
        exact ⟨id₀, h1.trans hqk.symm, h2,
          (live_place b side price size d id₀).mpr (Or.inr h3)⟩
      · simp only [List.mem_singleton] at hnew
        subst hnew
        refine ⟨⟨side, price, nextLocal b price⟩, hqk.symm, rfl, ?_⟩
        exact (live_place b side price size d _).mpr (Or.inl rfl)
    · rw [if_neg hqk] at hl
      obtain ⟨id₀, h1, h2, h3⟩ := h.queueOwner qk l hl
      exact ⟨id₀, h1, h2, (live_place b side price size d id₀).mpr (Or.inr h3)⟩
  · intro idA idB hA hB h1 h2
    rcases (live_place b side price size d idA).mp hA with rfl | hA'
    · rcases (live_place b side price size d idB).mp hB with rfl | hB'
      · rfl
      · exfalso
        have hq := h.liveInQueue idB hB'
        rw [← h1] at hq
        rw [← h2] at hq
        exact hnm hq
    · rcases (live_place b side price size d idB).mp hB with rfl | hB'
      · exfalso
        have hq := h.liveInQueue idA hA'
        rw [h1] at hq
        rw [h2] at hq
        exact hnm hq
      · exact h.liveUnique idA idB hA' hB' h1 h2

theorem SWF_remove {T : Type} {b : BookState T} (h : SWF b) {id : OId} (hl : live b id) :
    SWF (removeOrderS b id) := by
  refine ⟨?_, ?_, ?_, ?_, ?_, ?_, ?_, ?_, ?_, ?_⟩
  · intro s'
    rw [removeOrderS_book]
    split
    · exact List.Pairwise.filter _ (h.booksSorted s')
    · exact h.booksSorted s'
  · intro s' p hp
    rw [removeOrderS_book] at hp
    split at hp
    · exact h.booksBound s' p (List.mem_of_mem_filter hp)
    · exact h.booksBound s' p hp
  · intro qk
    rw [removeOrderS_queueAt]
    split
    · exact List.Pairwise.sublist (List.erase_sublist _ _) (h.queuesSorted _)
    · exact h.queuesSorted qk
  · rw [removeOrderS_details_list]
    exact alRemove_keys_nodup _ _ h.detailsNodup
  · rw [removeOrderS_sizes_list]
    exact alRemove_keys_nodup _ _ h.sizesNodup
  · intro id' hlive
    obtain ⟨hne, hl'⟩ := (live_remove b id id').mp hlive
    have hmem := h.liveInBook id' hl'
    rw [removeOrderS_book]
    split
    · next hcond =>
      refine List.mem_filter.mpr ⟨hmem, ?_⟩
      have hpne : id'.price ≠ id.price := by
        intro hpe
        have hqeq : id'.price % P56 = id.price % P56 := by rw [hpe]
        have hq' := h.liveInQueue id' hl'
        rw [hqeq] at hq'
        have hqe : (b.queueAt (id.price % P56)).erase id.localId = [] :=
          List.isEmpty_iff.mp hcond.1
        have hlne : id'.localId = id.localId := by
          by_contra hll
          have : id'.localId ∈ (b.queueAt (id.price % P56)).erase id.localId :=
            (List.mem_erase_of_ne hll).mpr hq'
          rw [hqe] at this
          cases this
        exact hne (h.liveUnique id' id hl' hl hqeq hlne)
      simpa using hpne
    · exact hmem
  · intro id' hlive
    obtain ⟨hne, hl'⟩ := (live_remove b id id').mp hlive
    rw [removeOrderS_queueAt]
    by_cases hqk : id'.price % P56 = id.price % P56
    · rw [if_pos hqk]
      have hq := h.liveInQueue id' hl'
      rw [hqk] at hq
      have hlne : id'.localId ≠ id.localId := by
        intro he
        exact hne (h.liveUnique id' id hl' hl hqk he)
      exact (List.mem_erase_of_ne hlne).mpr hq
    · rw [if_neg hqk]
      exact h.liveInQueue id' hl'
  · intro id' hlive
    obtain ⟨hne, hl'⟩ := (live_remove b id id').mp hlive
    rw [removeOrderS_sizes_list, alGet_alRemove]
    have hk : sizeKey id' ≠ sizeKey id := by
      intro he
      have h1 : id'.price % P56 = id.price % P56 := congrArg (fun k => k.2.1) he
      have h2 : id'.localId = id.localId := congrArg (fun k => k.2.2) he
      exact hne (h.liveUnique id' id hl' hl h1 h2)
    rw [if_neg hk]
    exact h.liveSize id' hl'
  · intro qk l hl'
    rw [removeOrderS_queueAt] at hl'
    by_cases hqk : qk = id.price % P56
    · rw [if_pos hqk] at hl'
      have hnd : (b.queueAt (id.price % P56)).Nodup := (h.queuesSorted _).nodup
      obtain ⟨hlne, hmem⟩ := (List.Nodup.mem_erase_iff hnd).mp hl'
      obtain ⟨id₀, hk0, hl0, hlive0⟩ := h.queueOwner (id.price % P56) l hmem
      have hne0 : id₀ ≠ id := by
        intro he
        rw [he] at hl0
        exact hlne hl0.symm
      exact ⟨id₀, hk0.trans hqk.symm, hl0, (live_remove b id id₀).mpr ⟨hne0, hlive0⟩⟩
    · rw [if_neg hqk] at hl'
      obtain ⟨id₀, hk0, hl0, hlive0⟩ := h.queueOwner qk l hl'
      have hne0 : id₀ ≠ id := by
        intro he
        rw [he] at hk0
        exact hqk hk0.symm
      exact ⟨id₀, hk0, hl0, (live_remove b id id₀).mpr ⟨hne0, hlive0⟩⟩
  · intro idA idB hA hB h1 h2
    obtain ⟨-, hA'⟩ := (live_remove b id idA).mp hA
    obtain ⟨-, hB'⟩ := (live_remove b id idB).mp hB
    exact h.liveUnique idA idB hA' hB' h1 h2

/-- Well-formedness only mentions the books, queues, sizes and details, so
it transports across event-queue-only updates. -/
theorem SWF_eventsEq {T : Type} {b b' : BookState T} (h : SWF b)
    (hbid : b'.bidBook = b.bidBook) (hask : b'.askBook = b.askBook)
    (hq : b'.queues = b.queues) (hs : b'.sizes = b.sizes) (hd : b'.details = b.details) :
    SWF b' := by
  have hbook : ∀ s, b'.book s = b.book s := by
    intro s
    cases s
    · exact hbid
    · exact hask
  have hqa : ∀ qk, b'.queueAt qk = b.queueAt qk := by
    intro qk
    simp [BookState.queueAt, hq]
  have hlive : ∀ id, live b' id ↔ live b id := by
    intro id
    simp [live, hd]
  refine ⟨?_, ?_, ?_, ?_, ?_, ?_, ?_, ?_, ?_, ?_⟩
  · intro s'
    rw [hbook]
    exact h.booksSorted s'
  · intro s' p hp
    rw [hbook] at hp
    exact h.booksBound s' p hp
  · intro qk
    rw [hqa]
    exact h.queuesSorted qk
  · rw [hd]
    exact h.detailsNodup
  · rw [hs]
    exact h.sizesNodup
  · intro id hl
    rw [hbook]
    exact h.liveInBook id ((hlive id).mp hl)
  · intro id hl
    rw [hqa]
    exact h.liveInQueue id ((hlive id).mp hl)
  · intro id hl
    rw [hs]
    exact h.liveSize id ((hlive id).mp hl)
  · intro qk l hl
    rw [hqa] at hl
    obtain ⟨id₀, h1, h2, h3⟩ := h.queueOwner qk l hl
    exact ⟨id₀, h1, h2, (hlive id₀).mpr h3⟩
  · intro idA idB hA hB h1 h2
    exact h.liveUnique idA idB ((hlive idA).mp hA) ((hlive idB).mp hB) h1 h2

theorem SWF_pushEvent {T : Type} {b : BookState T} (h : SWF b) (id : OId) (amount : Nat) :
    SWF (pushEventS b id amount) :=
  SWF_eventsEq h rfl rfl rfl rfl rfl

theorem live_pushEvent {T : Type} (b : BookState T) (id : OId) (amount : Nat) (id' : OId) :
    live (pushEventS b id amount) id' ↔ live b id' := Iff.rfl

theorem SWF_consumeOne {T : Type} {b : BookState T} (h : SWF b) (id : OId) (cnt : Nat)
    (hl : live b id) : SWF (consumeOneS b id cnt) := by
  simp only [consumeOneS]
  by_cases hrest : ((((alGet b.events (detKey id)).getD []).drop cnt).isEmpty) = true
  · rw [if_pos hrest]
    have h₁ : SWF { b with events := alRemove b.events (detKey id) } :=
      SWF_eventsEq h rfl rfl rfl rfl rfl
    have hl₁ : live { b with events := alRemove b.events (detKey id) } id := hl
    by_cases hz : alGet ({ b with events := alRemove b.events (detKey id) } :
        BookState T).sizes (sizeKey id) = some 0
    · rw [if_pos ⟨hrest, hz⟩]
      exact SWF_remove h₁ hl₁
    · rw [if_neg (fun hh => hz hh.2)]
      exact h₁
  · rw [if_neg hrest]
    have h₁ : SWF { b with events :=
        (alSet b.events (detKey id) (((alGet b.events (detKey id)).getD []).drop cnt)) } :=
      SWF_eventsEq h rfl rfl rfl rfl rfl
    rw [if_neg (fun hh => hrest hh.1)]
    exact h₁

/-- Every storage-reachable state is well-formed. -/
theorem SWF_reach {T : Type} {b : BookState T} (h : StoreReach b) : SWF b := by
  induction h with
  | empty => exact SWF_empty
  | place side price size d _ hp ih => exact SWF_place ih side price size d hp
  | remove id _ _ _ hlv ih =>
    exact SWF_remove ih ((live_iff _ _).mpr hlv)
  | modify id size _ _ _ ih => exact SWF_modify ih id size

/-! ## C7: local-id assignment in a price bucket -/

/-- C7, counterexample.  The claim that a `local_id` is never reused within
the lifetime of a (side, price) bucket fails: `place_order` assigns
`last_key + 1`, so deleting the entry with the greatest key makes the
counter step back while the bucket is still non-empty.  Concretely: two
bids at price 5 get locals 0 and 1; after removing the second, the bucket
still holds local 0 (it was never empty), yet a third bid is assigned
local 1 again — the same id as the removed order. -/
theorem c7_localid_reuse_counterexample :
    reuseId2.localId = 1 ∧ reuseId4 = reuseId2 ∧
    reuseS3.queueAt (5 % P56) = [0] ∧ live reuseS3 ⟨OrderSide.Bid, 5, 0⟩ := by
  refine ⟨by decide, by decide, by decide, by decide⟩

/-- C7, amended.  For every storage-reachable state, every price-queue's
keys are strictly increasing, and a newly placed order is assigned
`local_id = max existing + 1` (0 when the bucket is empty); but a
`local_id` CAN be reused while the bucket is alive, once the entry holding
the maximum key has been deleted (see the counterexample). -/
theorem c7_localid_assignment_amended {T : Type} (b : BookState T) (hr : StoreReach b) :
    (∀ qk, (b.queueAt qk).Pairwise (· < ·)) ∧
    (∀ (side : OrderSide) (price size : Nat) (d : T),
      (b.queueAt (price % P56) = [] →
        (placeOrderS b side price size d).1.localId = 0) ∧
      (b.queueAt (price % P56) ≠ [] →
        ∃ m ∈ b.queueAt (price % P56),
          (∀ x ∈ b.queueAt (price % P56), x ≤ m) ∧
          (placeOrderS b side price size d).1.localId = m + 1)) := by
  have h := SWF_reach hr
  refine ⟨h.queuesSorted, ?_⟩
  intro side price size d
  constructor
  · intro hemp
    rw [placeOrderS_fst]
    show nextLocal b price = 0
    unfold nextLocal
    rw [hemp]
    rfl
  · intro hne
    obtain ⟨m, hm, hmem, hmax⟩ := sorted_getLast_max (h.queuesSorted (price % P56)) hne
    refine ⟨m, hmem, hmax, ?_⟩
    rw [placeOrderS_fst]
    show nextLocal b price = m + 1
    unfold nextLocal
    rw [hm]

/-- Witness for the amended C7 theorem at a concrete reachable state:
in `reuseS3` (whose queue at price 5 is `[0]`), a new bid is assigned
`local_id = 0 + 1`. -/
theorem c7_localid_assignment_amended_witness :
    (reuseS3.queueAt (5 % P56)).Pairwise (· < ·) ∧
    ∃ m ∈ reuseS3.queueAt (5 % P56), (∀ x ∈ reuseS3.queueAt (5 % P56), x ≤ m) ∧
      (placeOrderS reuseS3 OrderSide.Bid 5 10 0).1.localId = m + 1 := by
  have hr : StoreReach reuseS3 := by
    have h1 : StoreReach reuseS1 :=
      StoreReach.place OrderSide.Bid 5 10 0 StoreReach.empty (by norm_num)
    have h2 : StoreReach reuseS2 :=
      StoreReach.place OrderSide.Bid 5 10 0 h1 (by norm_num)
    exact StoreReach.remove reuseId2 h2 (by decide) (by decide) (by decide)
  obtain ⟨hq, hplace⟩ := c7_localid_assignment_amended reuseS3 hr
  exact ⟨hq (5 % P56), (hplace OrderSide.Bid 5 10 0).2 (by decide)⟩

/-! ## C2: the price-priority iterator -/

/-- C2, counterexample.  `orders(side)` does not always yield exactly the
live orders of the side: the queue key ignores the side and the top price
byte, so after two engine placements that do NOT cross (an Ask at
`5 + 2^56`, then a Bid at 5) the two orders share the queue record at key
5, and `orders(Bid)` yields the phantom id `(Bid, 5, 0)` — an id whose
`get_order` is `None` — besides the real `(Bid, 5, 1)`. -/
theorem c2_orders_iterator_counterexample :
    ordersListS phantomBook OrderSide.Bid
        = [⟨OrderSide.Bid, 5, 0⟩, ⟨OrderSide.Bid, 5, 1⟩] ∧
    getOrderS phantomBook ⟨OrderSide.Bid, 5, 0⟩ = none ∧
    live phantomBook ⟨OrderSide.Bid, 5, 1⟩ ∧
    (∃ id ∈ ordersListS phantomBook OrderSide.Bid, ¬ live phantomBook id) := by
  refine ⟨by decide, by decide, by decide, ⟨⟨OrderSide.Bid, 5, 0⟩, by decide, by decide⟩⟩

/-- C2, amended.  For every storage-reachable book state in which all
listed prices are below `2^56` and no price is listed on both sides —
these two conditions keep the side-blind, top-byte-blind queue keys of
distinct (side, price) buckets distinct — `orders(side)` yields exactly
the live orders of that side, in price priority (descending prices for
Bid, ascending for Ask) and ascending local id within a price. -/
theorem c2_orders_iterator_amended {T : Type} (b : BookState T) (hr : StoreReach b)
    (hbound : ∀ s p, p ∈ b.book s → p < P56)
    (hdisj : ∀ p, p ∈ b.book OrderSide.Bid → p ∉ b.book OrderSide.Ask) :
    ∀ side, (∀ id : OId, id ∈ ordersListS b side ↔ (id.side = side ∧ live b id)) ∧
      (ordersListS b side).Pairwise (priorityLT side) := by
  have h := SWF_reach hr
  have memPrices : ∀ side p, (p ∈ (match side with
      | OrderSide.Bid => b.bidBook.reverse
      | OrderSide.Ask => b.askBook)) ↔ p ∈ b.book side := by
    intro side p
    cases side
    · exact List.mem_reverse
    · exact Iff.rfl
  have blockOwner : ∀ (side : OrderSide) (p l : Nat), p ∈ b.book side →
      l ∈ b.queueAt (p % P56) → live b ⟨side, p, l⟩ := by
    intro side p l hp hl
    obtain ⟨id₀, hk0, hl0, hlive0⟩ := h.queueOwner (p % P56) l hl
    have hpP : p < P56 := hbound side p hp
    have hp0P : id₀.price < P56 := hbound id₀.side id₀.price (h.liveInBook id₀ hlive0)
    have hpeq : id₀.price = p := by
      have := hk0
      rwa [Nat.mod_eq_of_lt hp0P, Nat.mod_eq_of_lt hpP] at this
    have hseq : id₀.side = side := by
      by_contra hss
      have hmem0 := h.liveInBook id₀ hlive0
      rw [hpeq] at hmem0
      cases hs0 : id₀.side <;> cases hs1 : side
      · rw [hs0, hs1] at hss; exact hss rfl
      · rw [hs0] at hmem0; exact hdisj p hmem0 (by rwa [hs1] at hp)
      · rw [hs1] at hp; exact hdisj p hp (by rwa [hs0] at hmem0)
      · rw [hs0, hs1] at hss; exact hss rfl
    have : id₀ = ⟨side, p, l⟩ := by
      cases id₀
      simp_all
    rwa [this] at hlive0
  intro side
  constructor
  · intro id
    constructor
    · intro hmem
      simp only [ordersListS] at hmem
      rw [List.mem_flatMap] at hmem
      obtain ⟨p, hp, hid⟩ := hmem
      rw [List.mem_map] at hid
      obtain ⟨l, hl, rfl⟩ := hid
      have hpb : p ∈ b.book side := (memPrices side p).mp hp
      exact ⟨rfl, blockOwner side p l hpb hl⟩
    · rintro ⟨hside, hlive⟩
      simp only [ordersListS]
      rw [List.mem_flatMap]
      refine ⟨id.price, ?_, ?_⟩
      · rw [memPrices side id.price]
        have := h.liveInBook id hlive
        rwa [hside] at this
      · rw [List.mem_map]
        refine ⟨id.localId, h.liveInQueue id hlive, ?_⟩
        cases id
        simp_all
  · simp only [ordersListS]
    rw [List.flatMap_def, List.pairwise_flatten]
    have hq : ∀ p, ((b.queueAt (p % P56)).map
        (fun l => (⟨side, p, l⟩ : OId))).Pairwise (priorityLT side) := by
      intro p
      rw [List.pairwise_map]
      refine List.Pairwise.imp ?_ (h.queuesSorted (p % P56))
      intro a c hac
      cases side
      · exact Or.inr ⟨rfl, hac⟩
      · exact Or.inr ⟨rfl, hac⟩
    have hcross : ∀ p₁ p₂ : Nat,
        (side = OrderSide.Bid → p₂ < p₁) → (side = OrderSide.Ask → p₁ < p₂) →
        ∀ x ∈ (b.queueAt (p₁ % P56)).map (fun l => (⟨side, p₁, l⟩ : OId)),
        ∀ y ∈ (b.queueAt (p₂ % P56)).map (fun l => (⟨side, p₂, l⟩ : OId)),
          priorityLT side x y := by
      intro p₁ p₂ hbid hask x hx y hy
      rw [List.mem_map] at hx hy
      obtain ⟨l₁, -, rfl⟩ := hx
      obtain ⟨l₂, -, rfl⟩ := hy
      cases side
      · exact Or.inl (hbid rfl)
      · exact Or.inl (hask rfl)
    constructor
    · intro block hblock
      rw [List.mem_map] at hblock
      obtain ⟨p, -, rfl⟩ := hblock
      exact hq p
    · rw [List.pairwise_map]
      cases side
      · have : (b.bidBook.reverse).Pairwise (fun p₁ p₂ => p₂ < p₁) := by
          rw [List.pairwise_reverse]
          exact h.booksSorted OrderSide.Bid
        refine List.Pairwise.imp ?_ this
        intro p₁ p₂ hlt
        exact hcross p₁ p₂ (fun _ => hlt) (fun hh => by cases hh)
      · refine List.Pairwise.imp ?_ (h.booksSorted OrderSide.Ask)
        intro p₁ p₂ hlt
        exact hcross p₁ p₂ (fun hh => by cases hh) (fun _ => hlt)

/-! ## Engine walk lemmas (for C3 and C4) -/

theorem visitFills_nil {T : Type} : visitFills ([] : List (Visit T)) = [] := rfl

theorem visitFills_skipped {T : Type} (id : OId) (vs : List (Visit T)) :
    visitFills (Visit.skipped id :: vs) = visitFills vs := by
  simp [visitFills]

theorem visitFills_filled {T : Type} (e : OrderEntry T) (vs : List (Visit T)) :
    visitFills (Visit.filled e :: vs) = e :: visitFills vs := by
  simp [visitFills]

theorem visitFills_gateStop {T : Type} (id : OId) (vs : List (Visit T)) :
    visitFills (Visit.gateStop id :: vs) = visitFills vs := by
  simp [visitFills]

theorem visitFills_append {T : Type} (vs vs' : List (Visit T)) :
    visitFills (vs ++ vs') = visitFills vs ++ visitFills vs' := by
  simp [visitFills]

theorem sumSizes_nil {T : Type} : sumSizes ([] : List (OrderEntry T)) = 0 := rfl

theorem sumSizes_cons {T : Type} (e : OrderEntry T) (l : List (OrderEntry T)) :
    sumSizes (e :: l) = e.size + sumSizes l := by
  simp [sumSizes]

theorem sumSizes_append {T : Type} (l l' : List (OrderEntry T)) :
    sumSizes (l ++ l') = sumSizes l + sumSizes l' := by
  simp [sumSizes]

/-- Destructing a successful `get_order`: the entry carries the id, the
id's price, the stored size and the stored details. -/
theorem getOrderS_some {T : Type} {b : BookState T} {id : OId} {o : OrderEntry T}
    (h : getOrderS b id = some o) :
    o.id = id ∧ o.price = id.price ∧ alGet b.sizes (sizeKey id) = some o.size ∧
      alGet b.details (detKey id) = some o.details := by
  unfold getOrderS at h
  cases hs : alGet b.sizes (sizeKey id) with
  | none => rw [hs] at h; cases h
  | some sz =>
    rw [hs] at h
    cases hd : alGet b.details (detKey id) with
    | none => rw [hd] at h; cases h
    | some d =>
      rw [hd] at h
      injection h with hh
      subst hh
      refine ⟨rfl, rfl, ?_, ?_⟩
      · exact rfl
      · exact rfl

/-- Splitting a triple equality. -/
theorem triple_inj {A B C : Type _} {a a' : A} {b b' : B} {c c' : C}
    (h : (a, b, c) = (a', b', c')) : a = a' ∧ b = b' ∧ c = c' := by
  obtain ⟨h1, h2⟩ := Prod.mk.inj h
  obtain ⟨h3, h4⟩ := Prod.mk.inj h2
  exact ⟨h1, h3, h4⟩

/-- Combined specification of the per-price walk: (i) every fill passed to
the callback satisfied the price gate; (ii) a `gateStop` visit is final
and records a candidate that genuinely failed the gate; (iii) when the walk
returns, the remaining amount plus the fill sizes equals the amount that
entered, and a non-stopping walk produced no `gateStop`. -/
theorem priceWalk_master {T E : Type} (params : OBParams T)
    (cb : OrderEntry T → BookState T × E → Option (BookState T × E)) (price : Nat) :
    ∀ (locals : List Nat) (amt : Nat) (s : BookState T × E)
      (r : Option ((BookState T × E) × Nat × Bool)) (vs : List (Visit T)),
      priceWalk params cb price locals amt s = (r, vs) →
      (∀ e ∈ visitFills vs, gateMatch params.side params.price e.price) ∧
      (∀ pre id post, vs = pre ++ Visit.gateStop id :: post →
          post = [] ∧ ¬ gateMatch params.side params.price id.price) ∧
      (∀ s' amt' stop, r = some (s', amt', stop) →
          amt' + sumSizes (visitFills vs) = amt ∧
          (stop = false → ∀ id, Visit.gateStop id ∉ vs)) := by
  intro locals
  induction locals with
  | nil =>
    intro amt s r vs h
    simp only [priceWalk] at h
    injection h with h1 h2
    subst h1
    subst h2
    refine ⟨by simp [visitFills_nil], ?_, ?_⟩
    · intro pre id post hsplit
      exact absurd hsplit (by simp)
    · intro s' amt' stop hr
      injection hr with hh
      obtain ⟨rfl, rfl, rfl⟩ := triple_inj hh
      exact ⟨by simp [visitFills_nil, sumSizes_nil], fun _ id => by simp⟩
  | cons l rest ih =>
    intro amt s r vs h
    simp only [priceWalk] at h
    split at h
    · -- get_order failed: skip the candidate
      injection h with h1 h2
      subst h1
      subst h2
      obtain ⟨ih1, ih2, ih3⟩ := ih amt s _ _ Prod.mk.eta.symm
      refine ⟨?_, ?_, ?_⟩
      · rw [visitFills_skipped]
        exact ih1
      · intro pre id post hsplit
        cases pre with
        | nil => cases hsplit
        | cons x pre' =>
          rw [List.cons_append] at hsplit
          obtain ⟨-, h2⟩ := List.cons.inj hsplit
          exact ih2 pre' id post h2
      · intro s' amt' stop hr
        obtain ⟨hsum, hnostop⟩ := ih3 s' amt' stop hr
        refine ⟨by rwa [visitFills_skipped], ?_⟩
        intro hstop id hmem
        rcases List.mem_cons.mp hmem with heq | hmem'
        · cases heq
        · exact hnostop hstop id hmem'
    · next order heq =>
      have hm : (if order.size ≤ amt then order.size else amt) ≤ amt := by
        split <;> omega
      split at h
      · next hg =>
        -- gate passed: fill the candidate
        split at h
        · -- the settlement callback aborted
          injection h with h1 h2
          subst h1
          subst h2
          refine ⟨?_, ?_, ?_⟩
          · intro e he
            rw [visitFills_filled, visitFills_nil] at he
            rcases List.mem_singleton.mp he with rfl
            exact hg
          · intro pre id post hsplit
            rcases pre with - | ⟨x, pre'⟩
            · cases hsplit
            · rw [List.cons_append] at hsplit
              obtain ⟨-, h2⟩ := List.cons.inj hsplit
              exact absurd h2 (by simp)
          · intro s' amt' stop hr
            cases hr
        · next s₁ hcb =>
          split at h
          · next hsz =>
            -- the maker is fully consumed (matched = order.size)
            split at h
            · next hz =>
              -- and the taker too: break
              injection h with h1 h2
              subst h1
              subst h2
              refine ⟨?_, ?_, ?_⟩
              · intro e he
                rw [visitFills_filled, visitFills_nil] at he
                rcases List.mem_singleton.mp he with rfl
                exact hg
              · intro pre id post hsplit
                rcases pre with - | ⟨x, pre'⟩
                · cases hsplit
                · rw [List.cons_append] at hsplit
                  obtain ⟨-, h2⟩ := List.cons.inj hsplit
                  exact absurd h2 (by simp)
              · intro s' amt' stop hr
                injection hr with hh
                obtain ⟨rfl, rfl, rfl⟩ := triple_inj hh
                refine ⟨?_, fun hh2 => by cases hh2⟩
                rw [visitFills_filled, visitFills_nil, sumSizes_cons, sumSizes_nil]
                dsimp only
                omega
            · next hz =>
              -- taker has remaining size: continue down the queue
              injection h with h1 h2
              subst h1
              subst h2
              obtain ⟨ih1, ih2, ih3⟩ := ih (amt - order.size) s₁ _ _ Prod.mk.eta.symm
              refine ⟨?_, ?_, ?_⟩
              · intro e he
                rw [visitFills_filled] at he
                rcases List.mem_cons.mp he with rfl | he'
                · exact hg
                · exact ih1 e he'
              · intro pre id post hsplit
                rcases pre with - | ⟨x, pre'⟩
                · cases hsplit
                · rw [List.cons_append] at hsplit
                  obtain ⟨-, h2⟩ := List.cons.inj hsplit
                  exact ih2 pre' id post h2
              · intro s' amt' stop hr
                obtain ⟨hsum, hnostop⟩ := ih3 s' amt' stop hr
                refine ⟨?_, ?_⟩
                · rw [visitFills_filled, sumSizes_cons]
                  dsimp only
                  omega
                · intro hstop id hmem
                  rcases List.mem_cons.mp hmem with heq2 | hmem'
                  · cases heq2
                  · exact hnostop hstop id hmem'
          · next hsz =>
            -- the maker covers the rest (matched = amt): break after the fill
            split at h
            · next hz =>
              injection h with h1 h2
              subst h1
              subst h2
              refine ⟨?_, ?_, ?_⟩
              · intro e he
                rw [visitFills_filled, visitFills_nil] at he
                rcases List.mem_singleton.mp he with rfl
                exact hg
              · intro pre id post hsplit
                rcases pre with - | ⟨x, pre'⟩
                · cases hsplit
                · rw [List.cons_append] at hsplit
                  obtain ⟨-, h2⟩ := List.cons.inj hsplit
                  exact absurd h2 (by simp)
              · intro s' amt' stop hr
                injection hr with hh
                obtain ⟨rfl, rfl, rfl⟩ := triple_inj hh
                refine ⟨?_, fun hh2 => by cases hh2⟩
                rw [visitFills_filled, visitFills_nil, sumSizes_cons, sumSizes_nil]
                dsimp only
                omega
            · next hz =>
              exact absurd (Nat.sub_self amt) hz
      · next hg =>
        -- gate failed: stop
        injection h with h1 h2
        subst h1
        subst h2
        refine ⟨?_, ?_, ?_⟩
        · intro e he
          rw [visitFills_gateStop, visitFills_nil] at he
          cases he
        · intro pre id post hsplit
          rcases pre with - | ⟨x, pre'⟩
          · obtain ⟨h1, h2⟩ := List.cons.inj hsplit
            obtain rfl : id = ⟨params.side.opposite, price, l⟩ := by
              injection h1 with hh
              exact hh.symm
            have hop : order.price
                = ({ side := params.side.opposite, price := price, localId := l } : OId).price :=
              (getOrderS_some heq).2.1
            refine ⟨h2.symm, ?_⟩
            rw [← hop]
            exact hg
          · rw [List.cons_append] at hsplit
            obtain ⟨-, h2⟩ := List.cons.inj hsplit
            exact absurd h2 (by simp)
        · intro s' amt' stop hr
          injection hr with hh
          obtain ⟨rfl, rfl, rfl⟩ := triple_inj hh
          refine ⟨by rw [visitFills_gateStop, visitFills_nil, sumSizes_nil]; omega, ?_⟩
          intro hh2
          cases hh2

/-- The same specification lifted over the outer walk of the opposite
side's price list. -/
theorem engineWalk_master {T E : Type} (params : OBParams T)
    (cb : OrderEntry T → BookState T × E → Option (BookState T × E)) :
    ∀ (prices : List Nat) (amt : Nat) (s : BookState T × E)
      (r : Option ((BookState T × E) × Nat)) (vs : List (Visit T)),
      engineWalk params cb prices amt s = (r, vs) →
      (∀ e ∈ visitFills vs, gateMatch params.side params.price e.price) ∧
      (∀ pre id post, vs = pre ++ Visit.gateStop id :: post →
          post = [] ∧ ¬ gateMatch params.side params.price id.price) ∧
      (∀ s' amt', r = some (s', amt') → amt' + sumSizes (visitFills vs) = amt) := by
  intro prices
  induction prices with
  | nil =>
    intro amt s r vs h
    simp only [engineWalk] at h
    injection h with h1 h2
    subst h1
    subst h2
    refine ⟨by simp [visitFills_nil], ?_, ?_⟩
    · intro pre id post hsplit
      exact absurd hsplit (by simp)
    · intro s' amt' hr
      injection hr with hh
      obtain ⟨rfl, rfl⟩ := Prod.mk.inj hh
      simp [visitFills_nil, sumSizes_nil]
  | cons p rest ih =>
    intro amt s r vs h
    simp only [engineWalk] at h
    split at h
    · next vs₀ heq =>
      injection h with h1 h2
      subst h1
      subst h2
      obtain ⟨pm1, pm2, -⟩ := priceWalk_master params cb p _ _ _ _ _ heq
      refine ⟨pm1, pm2, ?_⟩
      intro s' amt' hr
      cases hr
    · next s₁ amt₁ stop vs₀ heq =>
      obtain ⟨pm1, pm2, pm3⟩ := priceWalk_master params cb p _ _ _ _ _ heq
      obtain ⟨hsum, hnostop⟩ := pm3 s₁ amt₁ stop rfl
      split at h
      · injection h with h1 h2
        subst h1
        subst h2
        refine ⟨pm1, pm2, ?_⟩
        intro s' amt' hr
        injection hr with hh
        obtain ⟨rfl, rfl⟩ := Prod.mk.inj hh
        exact hsum
      · next hstop =>
        have hsf : stop = false := by
          revert hstop
          cases stop <;> simp
        injection h with h1 h2
        subst h1
        subst h2
        obtain ⟨ih1, ih2, ih3⟩ := ih amt₁ s₁ _ _ Prod.mk.eta.symm
        have hns := hnostop hsf
        refine ⟨?_, ?_, ?_⟩
        · intro e he
          rw [visitFills_append] at he
          rcases List.mem_append.mp he with he' | he'
          · exact pm1 e he'
          · exact ih1 e he'
        · intro pre id post hsplit
          rcases List.append_eq_append_iff.mp hsplit with ⟨a', ha1, ha2⟩ | ⟨c', hc1, hc2⟩
          · exact ih2 a' id post ha2
          · cases c' with
            | nil =>
              rw [List.nil_append] at hc2
              exact ih2 [] id post hc2.symm
            | cons x c'' =>
              rw [List.cons_append] at hc2
              obtain ⟨hx, -⟩ := List.cons.inj hc2
              exfalso
              apply hns id
              rw [hc1, ← hx]
              exact List.mem_append_right _ (List.mem_cons_self _ _)
        · intro s' amt' hr
          have hsum' := ih3 s' amt' hr
          rw [visitFills_append, sumSizes_append]
          omega

/-- Reading back a freshly posted order: `get_order` of the id returned by
the storage `place_order` yields the posted price, size and details. -/
theorem getOrderS_place_self {T : Type} (b : BookState T) (side : OrderSide)
    (price size : Nat) (d : T) :
    getOrderS (placeOrderS b side price size d).2 (placeOrderS b side price size d).1
      = some ⟨(placeOrderS b side price size d).1, price, size, d⟩ := by
  rw [placeOrderS_fst]
  unfold getOrderS
  rw [placeOrderS_sizes_list, placeOrderS_details_list]
  rw [show sizeKey ⟨side, price, nextLocal b price⟩
    = (side, price % P56, nextLocal b price) from rfl]
  rw [alGet_alSet_self]
  rw [show detKey ⟨side, price, nextLocal b price⟩
    = (side, price, nextLocal b price) from rfl]
  rw [alGet_alSet_self]
  rfl

/-- Witness for the amended C2 theorem at a concrete reachable state:
after two bids at price 5 and one ask at price 7, `orders` yields exactly
the live orders on each side in priority order. -/
theorem c2_orders_iterator_amended_witness :
    (⟨OrderSide.Bid, 5, 0⟩ : OId) ∈ ordersListS reuseS2 OrderSide.Bid ∧
    (ordersListS reuseS2 OrderSide.Bid).Pairwise (priorityLT OrderSide.Bid) := by
  have hr : StoreReach reuseS2 := by
    have h1 : StoreReach reuseS1 :=
      StoreReach.place OrderSide.Bid 5 10 0 StoreReach.empty (by norm_num)
    exact StoreReach.place OrderSide.Bid 5 10 0 h1 (by norm_num)
  obtain ⟨hmem, hpw⟩ := c2_orders_iterator_amended reuseS2 hr
    (by
      intro s p hp
      cases s
      · have hb : reuseS2.book OrderSide.Bid = [5] := by decide
        rw [hb] at hp
        have hp5 : p = 5 := by simpa using hp
        rw [hp5]
        norm_num [P56]
      · have hb : reuseS2.book OrderSide.Ask = [] := by decide
        rw [hb] at hp
        cases hp)
    (by
      intro p hp hq
      have hb : reuseS2.book OrderSide.Ask = [] := by decide
      rw [hb] at hq
      cases hq) OrderSide.Bid
  exact ⟨(hmem ⟨OrderSide.Bid, 5, 0⟩).mpr ⟨rfl, by decide⟩, hpw⟩

/-! ## C3 and C4: the matching engine -/

/-- C3.  For every call to the engine's `place_order` — any detail type,
any callback state, any callback, any starting state — every fill
delivered to `on_match` satisfies the price gate (maker price `≤` the
taker's limit for a taker Bid, `≥` for a taker Ask), and the walk over the
opposite side stops at the first candidate that fails the gate: a
`gateStop` visit is the last visit of the walk, and it records a candidate
that failed the gate. -/
theorem c3_price_gate {T E : Type} (params : OBParams T)
    (cb : OrderEntry T → BookState T × E → Option (BookState T × E))
    (s : BookState T × E) (r : Option ((BookState T × E) × OBSummary))
    (vs : List (Visit T)) (h : obPlaceOrder params cb s = (r, vs)) :
    (∀ e ∈ visitFills vs, gateMatch params.side params.price e.price) ∧
    (∀ pre id post, vs = pre ++ Visit.gateStop id :: post →
        post = [] ∧ ¬ gateMatch params.side params.price id.price) := by
  simp only [obPlaceOrder] at h
  split at h
  · next vs₀ heq =>
    injection h with h1 h2
    subst h1
    subst h2
    obtain ⟨m1, m2, -⟩ := engineWalk_master params cb _ _ _ _ _ heq
    exact ⟨m1, m2⟩
  · next b e amt vs₀ heq =>
    obtain ⟨m1, m2, -⟩ := engineWalk_master params cb _ _ _ _ _ heq
    split at h <;>
      (injection h with h1 h2
       subst h1
       subst h2
       exact ⟨m1, m2⟩)

/-- Witness for C3: a concrete engine run (a Bid for 7 at price 5 against
a book holding one Ask of 10 at price 5) delivers one fill, and it passes
the gate. -/
theorem c3_price_gate_witness :
    (∀ e ∈ visitFills crossRun.2, gateMatch OrderSide.Bid 5 e.price) ∧
    (∀ pre id post, crossRun.2 = pre ++ Visit.gateStop id :: post →
        post = [] ∧ ¬ gateMatch OrderSide.Bid 5 id.price) ∧
    visitFills crossRun.2 ≠ [] :=
  ⟨(c3_price_gate ⟨OrderSide.Bid, 5, 7, 0⟩ noOpCb (crossS1, ()) crossRun.1 crossRun.2
      Prod.mk.eta.symm).1,
   (c3_price_gate ⟨OrderSide.Bid, 5, 7, 0⟩ noOpCb (crossS1, ()) crossRun.1 crossRun.2
      Prod.mk.eta.symm).2,
   by decide⟩

/-- C4.  For any single completed engine `place_order`: the posted size
plus the sum of all fill sizes passed to `on_match` equals `params.size`;
the posted size is 0 exactly when no order was posted (`posted_id = None`,
i.e. the order was fully filled); and when a remainder was posted, the
returned id designates an order stored at `params.price` carrying the
posted size and the taker's details. -/
theorem c4_fill_accounting {T E : Type} (params : OBParams T)
    (cb : OrderEntry T → BookState T × E → Option (BookState T × E))
    (s : BookState T × E) (s' : BookState T × E) (sm : OBSummary)
    (vs : List (Visit T)) (h : obPlaceOrder params cb s = (some (s', sm), vs)) :
    sm.postedSize + sumSizes (visitFills vs) = params.size ∧
    (sm.postedSize = 0 ↔ sm.postedId = none) ∧
    (∀ pid, sm.postedId = some pid → pid.side = params.side ∧ pid.price = params.price ∧
      getOrderS s'.1 pid = some ⟨pid, params.price, sm.postedSize, params.details⟩) := by
  simp only [obPlaceOrder] at h
  split at h
  · next vs₀ heq =>
    injection h with h1 h2
    cases h1
  · next b e amt vs₀ heq =>
    obtain ⟨-, -, m3⟩ := engineWalk_master params cb _ _ _ _ _ heq
    have hsum := m3 (b, e) amt rfl
    split at h
    · next hpos =>
      injection h with h1 h2
      subst h2
      injection h1 with h1
      obtain ⟨h1a, h1b⟩ := Prod.mk.inj h1
      subst h1a
      subst h1b
      refine ⟨hsum, ?_, ?_⟩
      · constructor
        · intro h0
          exfalso
          have h0' : amt = 0 := h0
          omega
        · intro hnone
          simp at hnone
      · intro pid hpid
        injection hpid with hpid
        subst hpid
        rw [placeOrderS_fst]
        exact ⟨rfl, rfl, by rw [← placeOrderS_fst]; exact getOrderS_place_self b params.side params.price amt params.details⟩
    · next hpos =>
      have hz : amt = 0 := by omega
      injection h with h1 h2
      subst h2
      injection h1 with h1
      obtain ⟨h1a, h1b⟩ := Prod.mk.inj h1
      subst h1a
      subst h1b
      subst hz
      refine ⟨hsum, by simp, ?_⟩
      intro pid hpid
      cases hpid

/-- Witness for C4: the concrete Bid-for-7 run fills 7 and posts nothing;
summary and fills balance. -/
theorem c4_fill_accounting_witness :
    ∃ s' sm, crossRun.1 = some (s', sm) ∧
      sm.postedSize + sumSizes (visitFills crossRun.2) = 7 ∧
      (sm.postedSize = 0 ↔ sm.postedId = none) := by
  have h : obPlaceOrder ⟨OrderSide.Bid, 5, 7, (0 : Nat)⟩ noOpCb (crossS1, ())
      = (some ((crossRun.1.getD ((BookState.empty, ()), ⟨none, 0⟩)).1,
          (crossRun.1.getD ((BookState.empty, ()), ⟨none, 0⟩)).2), crossRun.2) := by
    rfl
  refine ⟨(crossRun.1.getD ((BookState.empty, ()), ⟨none, 0⟩)).1,
    (crossRun.1.getD ((BookState.empty, ()), ⟨none, 0⟩)).2, congrArg Prod.fst h, ?_, ?_⟩
  · exact (c4_fill_accounting ⟨OrderSide.Bid, 5, 7, 0⟩ noOpCb (crossS1, ()) _ _
      crossRun.2 h).1
  · exact (c4_fill_accounting ⟨OrderSide.Bid, 5, 7, 0⟩ noOpCb (crossS1, ()) _ _
      crossRun.2 h).2.1

/-! ## Arithmetic facts about quote_amount -/

theorem quoteAmountN_zero (p : Nat) : quoteAmountN p 0 = 0 := by
  simp [quoteAmountN]

theorem quoteAmountN_mono_size (p : Nat) {a b : Nat} (h : a ≤ b) :
    quoteAmountN p a ≤ quoteAmountN p b :=
  Nat.div_le_div_right (Nat.mul_le_mul_left p h)

theorem quoteAmountN_mono_price {p q : Nat} (a : Nat) (h : p ≤ q) :
    quoteAmountN p a ≤ quoteAmountN q a :=
  Nat.div_le_div_right (Nat.mul_le_mul_right a h)

theorem quoteAmountN_add_le (p a b : Nat) :
    quoteAmountN p a + quoteAmountN p b ≤ quoteAmountN p (a + b) := by
  unfold quoteAmountN
  rw [Nat.mul_add]
  have h1 : p * a / 2 ^ 32 * 2 ^ 32 ≤ p * a := Nat.div_mul_le_self _ _
  have h2 : p * b / 2 ^ 32 * 2 ^ 32 ≤ p * b := Nat.div_mul_le_self _ _
  rw [Nat.le_div_iff_mul_le (by norm_num : 0 < 2 ^ 32)]
  calc (p * a / 2 ^ 32 + p * b / 2 ^ 32) * 2 ^ 32
      = p * a / 2 ^ 32 * 2 ^ 32 + p * b / 2 ^ 32 * 2 ^ 32 := by ring
    _ ≤ p * a + p * b := Nat.add_le_add h1 h2

/-! ## The mock token transfer -/

theorem transferTok_le {bal : Nat → Int} {src dst : Nat} {amt : Int} {bal' : Nat → Int}
    (h : transferTok bal src dst amt = some bal') : amt ≤ bal src := by
  simp only [transferTok] at h
  by_cases hc : bal src < amt
  · rw [if_pos hc] at h
    cases h
  · exact not_lt.mp hc

theorem transferTok_fun {bal : Nat → Int} {src dst : Nat} {amt : Int} {bal' : Nat → Int}
    (h : transferTok bal src dst amt = some bal') :
    bal' = fun a => if a = dst then bal dst + amt
      else if a = src then bal src - amt else bal a := by
  have hle := transferTok_le h
  simp only [transferTok] at h
  rw [if_neg (not_lt.mpr hle)] at h
  injection h with hh
  exact hh.symm

theorem transferTok_eq_some {bal : Nat → Int} {src dst : Nat} {amt : Int}
    (h : amt ≤ bal src) :
    transferTok bal src dst amt
      = some fun a => if a = dst then bal dst + amt
          else if a = src then bal src - amt else bal a := by
  simp only [transferTok]
  rw [if_neg (not_lt.mpr h)]

theorem transferTok_dst {bal : Nat → Int} {src dst : Nat} {amt : Int} {bal' : Nat → Int}
    (h : transferTok bal src dst amt = some bal') : bal' dst = bal dst + amt := by
  rw [transferTok_fun h]
  simp

theorem transferTok_src {bal : Nat → Int} {src dst : Nat} {amt : Int} {bal' : Nat → Int}
    (h : transferTok bal src dst amt = some bal') (hne : src ≠ dst) :
    bal' src = bal src - amt := by
  rw [transferTok_fun h]
  simp [hne]

theorem transferTok_other {bal : Nat → Int} {src dst : Nat} {amt : Int} {bal' : Nat → Int}
    (h : transferTok bal src dst amt = some bal') {a : Nat} (h1 : a ≠ dst) (h2 : a ≠ src) :
    bal' a = bal a := by
  rw [transferTok_fun h]
  simp [h1, h2]

theorem transferTok_nonneg {bal : Nat → Int} {src dst : Nat} {amt : Int} {bal' : Nat → Int}
    (h : transferTok bal src dst amt = some bal') (hb : ∀ a, 0 ≤ bal a) (ha : 0 ≤ amt) :
    ∀ a, 0 ≤ bal' a := by
  intro a
  have hle := transferTok_le h
  rw [transferTok_fun h]
  dsimp only
  have hd := hb dst
  have hs := hb src
  have h0 := hb a
  split
  · omega
  · split
    · omega
    · exact h0

/-! ## Splitting association lists at a key -/

theorem alGet_isSome_of_mem_keys {κ α : Type _} [DecidableEq κ] {l : List (κ × α)} {k : κ}
    (h : k ∈ l.map Prod.fst) : ∃ v, alGet l k = some v := by
  induction l with
  | nil => cases h
  | cons e t ih =>
    obtain ⟨k1, v1⟩ := e
    simp only [alGet]
    by_cases he : k1 = k
    · exact ⟨v1, by rw [if_pos he]⟩
    · rw [if_neg he]
      rcases List.mem_cons.mp h with h1 | h2
      · exact absurd h1.symm he
      · exact ih h2

theorem exists_split_of_alGet_some {κ α : Type _} [DecidableEq κ] {l : List (κ × α)}
    {k : κ} {v : α} (h : alGet l k = some v) :
    ∃ l₁ l₂, l = l₁ ++ (k, v) :: l₂ ∧ k ∉ l₁.map Prod.fst := by
  induction l with
  | nil => cases h
  | cons e t ih =>
    obtain ⟨k1, v1⟩ := e
    simp only [alGet] at h
    by_cases he : k1 = k
    · rw [if_pos he] at h
      injection h with h'
      subst he
      subst h'
      exact ⟨[], t, rfl, by simp⟩
    · rw [if_neg he] at h
      obtain ⟨l₁, l₂, hsplit, hmem⟩ := ih h
      refine ⟨(k1, v1) :: l₁, l₂, by rw [List.cons_append, hsplit], ?_⟩
      simp only [List.map_cons, List.mem_cons]
      push_neg
      exact ⟨fun hh => he hh.symm, hmem⟩

theorem nodup_keys_middle {κ α : Type _} {l₁ l₂ : List (κ × α)} {k : κ} {v : α}
    (h : ((l₁ ++ (k, v) :: l₂).map Prod.fst).Nodup) :
    k ∉ l₁.map Prod.fst ∧ k ∉ l₂.map Prod.fst := by
  rw [List.map_append, List.map_cons, List.nodup_append] at h
  obtain ⟨h1, h2, hdisj⟩ := h
  refine ⟨?_, ?_⟩
  · intro hmem
    exact hdisj hmem (List.mem_cons_self _ _)
  · intro hmem
    exact (List.nodup_cons.mp h2).1 hmem

theorem alRemove_append {κ α : Type _} [DecidableEq κ] (a b : List (κ × α)) (k : κ) :
    alRemove (a ++ b) k = alRemove a k ++ alRemove b k :=
  List.filter_append _ _

theorem alRemove_cons_self {κ α : Type _} [DecidableEq κ] (k : κ) (v : α)
    (t : List (κ × α)) : alRemove ((k, v) :: t) k = alRemove t k := by
  unfold alRemove
  rw [List.filter_cons_of_neg]
  simp

theorem alRemove_alSet_self {κ α : Type _} [DecidableEq κ] (l : List (κ × α)) (k : κ)
    (v : α) : alRemove (alSet l k v) k = alRemove l k := by
  rw [alSet, alRemove_append, alRemove_cons_self]
  show alRemove (alRemove l k) k ++ alRemove [] k = alRemove l k
  rw [show alRemove ([] : List (κ × α)) k = [] from rfl, List.append_nil]
  exact List.filter_eq_self.mpr fun a ha => (List.mem_filter.mp ha).2

/-! ## Keys, liveness and size records -/

theorem keyId_detKey (id : OId) : keyId (detKey id) = id := rfl

theorem detKey_keyId (k : OrderSide × Nat × Nat) : detKey (keyId k) = k := rfl

theorem live_of_mem_keys {T : Type} {b : BookState T} {k : OrderSide × Nat × Nat}
    (h : k ∈ b.details.map Prod.fst) : live b (keyId k) := by
  obtain ⟨v, hv⟩ := alGet_isSome_of_mem_keys h
  unfold live
  rw [detKey_keyId, hv]
  rfl

theorem live_sizeKey_inj {T : Type} {b : BookState T} (hWF : SWF b) {i j : OId}
    (hi : live b i) (hj : live b j) (h : sizeKey i = sizeKey j) : i = j := by
  obtain ⟨-, h2, h3⟩ := triple_inj h
  exact hWF.liveUnique i j hi hj h2 h3

theorem live_of_getOrderS {T : Type} {b : BookState T} {id : OId} {o : OrderEntry T}
    (h : getOrderS b id = some o) : live b id := by
  obtain ⟨-, -, -, hd⟩ := getOrderS_some h
  unfold live
  rw [hd]
  rfl

theorem storedSize_eq_of_getOrderS {T : Type} {b : BookState T} {id : OId}
    {o : OrderEntry T} (h : getOrderS b id = some o) : storedSize b id = o.size := by
  obtain ⟨-, -, hs, -⟩ := getOrderS_some h
  unfold storedSize
  rw [hs]
  rfl

theorem live_sizeKey_ne_next {T : Type} {b : BookState T} (hWF : SWF b) (side : OrderSide)
    (price : Nat) {id' : OId} (hl : live b id') :
    sizeKey id' ≠ sizeKey ⟨side, price, nextLocal b price⟩ := by
  intro hk
  obtain ⟨-, h2, h3⟩ := triple_inj hk
  have hq := hWF.liveInQueue _ hl
  rw [h2, h3] at hq
  exact nextLocal_not_mem b price (hWF.queuesSorted _) hq

theorem live_eq_of_details {T : Type} {b b' : BookState T} (hd : b'.details = b.details)
    (id : OId) : live b' id ↔ live b id := by
  unfold live
  rw [hd]

/-! ## Reserve sums: how the storage operations move them -/

theorem reserveSum_eq_of {T : Type} {b b' : BookState T} (w : OId → Nat → Nat)
    (hd : b'.details = b.details) (hs : b'.sizes = b.sizes) :
    reserveSum b' w = reserveSum b w := by
  unfold reserveSum storedSize
  rw [hd, hs]

/-- Splitting a well-formed book's details at a live order: the list
decomposes around the order's record, and every other record keeps its
size key distinct from the order's. -/
theorem details_split_of_live {T : Type} {b : BookState T} (hWF : SWF b) {id : OId}
    (hl : live b id) :
    ∃ (l₁ l₂ : List ((OrderSide × Nat × Nat) × T)) (d : T),
      b.details = l₁ ++ (detKey id, d) :: l₂ ∧
      (∀ e ∈ l₁, sizeKey (keyId e.1) ≠ sizeKey id) ∧
      (∀ e ∈ l₂, sizeKey (keyId e.1) ≠ sizeKey id) := by
  have hv : ∃ d, alGet b.details (detKey id) = some d := by
    unfold live at hl
    cases hg : alGet b.details (detKey id) with
    | none => rw [hg] at hl; cases hl
    | some d => exact ⟨d, rfl⟩
  obtain ⟨d, hd⟩ := hv
  obtain ⟨l₁, l₂, hsplit, -⟩ := exists_split_of_alGet_some hd
  have hnd := hWF.detailsNodup
  rw [hsplit] at hnd
  obtain ⟨hn1, hn2⟩ := nodup_keys_middle hnd
  refine ⟨l₁, l₂, d, hsplit, ?_, ?_⟩
  · intro e he hk
    have hmem : e.1 ∈ b.details.map Prod.fst := by
      rw [hsplit]
      exact List.mem_map_of_mem _ (List.mem_append_left _ he)
    have hlv : live b (keyId e.1) := live_of_mem_keys hmem
    have heq : keyId e.1 = id := live_sizeKey_inj hWF hlv hl hk
    have he1 : e.1 = detKey id := by rw [← heq, detKey_keyId]
    exact hn1 (he1 ▸ List.mem_map_of_mem Prod.fst he)
  · intro e he hk
    have hmem : e.1 ∈ b.details.map Prod.fst := by
      rw [hsplit]
      exact List.mem_map_of_mem _ (List.mem_append_right _ (List.mem_cons_of_mem _ he))
    have hlv : live b (keyId e.1) := live_of_mem_keys hmem
    have heq : keyId e.1 = id := live_sizeKey_inj hWF hlv hl hk
    have he1 : e.1 = detKey id := by rw [← heq, detKey_keyId]
    exact hn2 (he1 ▸ List.mem_map_of_mem Prod.fst he)

theorem single_le_reserveSum {T : Type} {b : BookState T} (hWF : SWF b) {id : OId}
    (hl : live b id) (w : OId → Nat → Nat) :
    w id (storedSize b id) ≤ reserveSum b w := by
  obtain ⟨l₁, l₂, d, hsplit, -, -⟩ := details_split_of_live hWF hl
  unfold reserveSum
  rw [hsplit, List.map_append, List.map_cons, List.sum_append, List.sum_cons]
  have hmid : w (keyId (detKey id, d).1) (storedSize b (keyId (detKey id, d).1))
      = w id (storedSize b id) := rfl
  rw [hmid]
  omega

theorem reserveSum_modify {T : Type} {b : BookState T} (hWF : SWF b) {id : OId}
    (hl : live b id) (z : Nat) (w : OId → Nat → Nat) :
    reserveSum (modifyOrderS b id z) w + w id (storedSize b id)
      = reserveSum b w + w id z := by
  obtain ⟨l₁, l₂, d, hsplit, hk1, hk2⟩ := details_split_of_live hWF hl
  have hmap : ∀ (l : List ((OrderSide × Nat × Nat) × T)),
      (∀ e ∈ l, sizeKey (keyId e.1) ≠ sizeKey id) →
      (l.map fun e => w (keyId e.1)
          ((alGet (alSet b.sizes (sizeKey id) z) (sizeKey (keyId e.1))).getD 0))
        = l.map fun e => w (keyId e.1) ((alGet b.sizes (sizeKey (keyId e.1))).getD 0) := by
    intro l hne
    refine List.map_congr_left ?_
    intro e he
    rw [alGet_alSet_ne _ _ (hne e he)]
  unfold reserveSum storedSize
  rw [modifyOrderS_details, modifyOrderS_sizes_list, hsplit]
  rw [List.map_append, List.map_cons, List.sum_append, List.sum_cons]
  rw [List.map_append, List.map_cons, List.sum_append, List.sum_cons]
  rw [hmap l₁ hk1, hmap l₂ hk2]
  have hmid : w (keyId (detKey id, d).1)
      ((alGet (alSet b.sizes (sizeKey id) z) (sizeKey (keyId (detKey id, d).1))).getD 0)
      = w id z := by
    dsimp only
    rw [keyId_detKey, alGet_alSet_self]
    rfl
  have hmid2 : w (keyId (detKey id, d).1)
      ((alGet b.sizes (sizeKey (keyId (detKey id, d).1))).getD 0)
      = w id ((alGet b.sizes (sizeKey id)).getD 0) := by
    dsimp only
    rw [keyId_detKey]
  rw [hmid, hmid2]
  omega

theorem reserveSum_remove {T : Type} {b : BookState T} (hWF : SWF b) {id : OId}
    (hl : live b id) (w : OId → Nat → Nat) :
    reserveSum (removeOrderS b id) w + w id (storedSize b id) = reserveSum b w := by
  obtain ⟨l₁, l₂, d, hsplit, hk1, hk2⟩ := details_split_of_live hWF hl
  have hnd := hWF.detailsNodup
  rw [hsplit] at hnd
  obtain ⟨hn1, hn2⟩ := nodup_keys_middle hnd
  have hrem : alRemove b.details (detKey id) = l₁ ++ l₂ := by
    rw [hsplit, alRemove_append, alRemove_cons_self, alRemove_eq_self hn1,
      alRemove_eq_self hn2]
  have hmap : ∀ (l : List ((OrderSide × Nat × Nat) × T)),
      (∀ e ∈ l, sizeKey (keyId e.1) ≠ sizeKey id) →
      (l.map fun e => w (keyId e.1)
          ((alGet (alRemove b.sizes (sizeKey id)) (sizeKey (keyId e.1))).getD 0))
        = l.map fun e => w (keyId e.1) ((alGet b.sizes (sizeKey (keyId e.1))).getD 0) := by
    intro l hne
    refine List.map_congr_left ?_
    intro e he
    rw [alGet_alRemove, if_neg (hne e he)]
  unfold reserveSum storedSize
  rw [removeOrderS_details_list, removeOrderS_sizes_list, hrem, hsplit]
  rw [List.map_append, List.sum_append]
  rw [List.map_append, List.map_cons, List.sum_append, List.sum_cons]
  rw [hmap l₁ hk1, hmap l₂ hk2]
  have hmid : w (keyId (detKey id, d).1)
      ((alGet b.sizes (sizeKey (keyId (detKey id, d).1))).getD 0)
      = w id ((alGet b.sizes (sizeKey id)).getD 0) := by
    dsimp only
    rw [keyId_detKey]
  rw [hmid]
  omega

theorem reserveSum_place {T : Type} {b : BookState T} (hWF : SWF b) (side : OrderSide)
    (price size : Nat) (d : T) (w : OId → Nat → Nat) :
    reserveSum (placeOrderS b side price size d).2 w
      = reserveSum b w + w ⟨side, price, nextLocal b price⟩ size := by
  have hfresh_det : (side, price, nextLocal b price) ∉ b.details.map Prod.fst := by
    intro hmem
    have hlv := live_of_mem_keys hmem
    have := hWF.liveInQueue _ hlv
    exact nextLocal_not_mem b price (hWF.queuesSorted _) this
  have hde : (placeOrderS b side price size d).2.details
      = b.details ++ [((side, price, nextLocal b price), d)] := by
    rw [placeOrderS_details_list, alSet, alRemove_eq_self hfresh_det]
  have hsz : (placeOrderS b side price size d).2.sizes
      = alSet b.sizes (side, price % P56, nextLocal b price) size :=
    placeOrderS_sizes_list b side price size d
  unfold reserveSum storedSize
  rw [hde, hsz, List.map_append, List.sum_append, List.map_cons, List.map_nil,
    List.sum_cons, List.sum_nil]
  have hmap : (b.details.map fun e => w (keyId e.1)
      ((alGet (alSet b.sizes (side, price % P56, nextLocal b price) size)
        (sizeKey (keyId e.1))).getD 0))
      = b.details.map fun e => w (keyId e.1) ((alGet b.sizes (sizeKey (keyId e.1))).getD 0) := by
    refine List.map_congr_left ?_
    intro e he
    have hlv := live_of_mem_keys (List.mem_map_of_mem Prod.fst he)
    have hne : sizeKey (keyId e.1) ≠ (side, price % P56, nextLocal b price) :=
      live_sizeKey_ne_next hWF side price hlv
    rw [alGet_alSet_ne _ _ hne]
  rw [hmap]
  have hmid : w (keyId ((side, price, nextLocal b price), d).1)
      ((alGet (alSet b.sizes (side, price % P56, nextLocal b price) size)
        (sizeKey (keyId ((side, price, nextLocal b price), d).1))).getD 0)
      = w ⟨side, price, nextLocal b price⟩ size := by
    dsimp only
    rw [show keyId (side, price, nextLocal b price) = ⟨side, price, nextLocal b price⟩
      from rfl]
    rw [show sizeKey (⟨side, price, nextLocal b price⟩ : OId)
      = (side, price % P56, nextLocal b price) from rfl]
    rw [alGet_alSet_self]
    rfl
  rw [hmid]
  omega

/-! ## The per-fill storage composite: modify, push event, consume -/

theorem fillBook_eq {T : Type} {b : BookState T} (hev : b.events = []) (id : OId)
    (z m : Nat) :
    fillBook b id z m
      = if z = 0
        then removeOrderS { b with sizes := alSet b.sizes (sizeKey id) z, events := [] } id
        else { b with sizes := alSet b.sizes (sizeKey id) z, events := [] } := by
  have h2 : pushEventS (modifyOrderS b id z) id m
      = { b with sizes := alSet b.sizes (sizeKey id) z,
                 events := alSet [] (detKey id) [m] } := by
    unfold pushEventS modifyOrderS
    dsimp only
    rw [hev]
    rfl
  unfold fillBook
  rw [h2]
  unfold consumeOneS
  dsimp only
  simp only [alGet_alSet_self, alRemove_alSet_self, Option.getD_some, List.drop_succ_cons,
    List.drop_nil, List.isEmpty_nil, eq_self_iff_true, if_true, ite_true, true_and,
    Option.some.injEq]
  rw [show alRemove ([] : List ((OrderSide × Nat × Nat) × List Nat)) (detKey id) = []
    from rfl]

theorem fillBook_events {T : Type} {b : BookState T} (hev : b.events = []) (id : OId)
    (z m : Nat) : (fillBook b id z m).events = [] := by
  rw [fillBook_eq hev]
  split
  · rw [removeOrderS_events]
  · rfl

theorem fillBook_SWF {T : Type} {b : BookState T} (hWF : SWF b) {id : OId}
    (hl : live b id) (hev : b.events = []) (z m : Nat) : SWF (fillBook b id z m) := by
  rw [fillBook_eq hev]
  have hX : SWF { b with sizes := alSet b.sizes (sizeKey id) z, events := ([] : List _) } :=
    SWF_eventsEq (SWF_modify hWF id z) rfl rfl rfl rfl rfl
  split
  · exact SWF_remove hX hl
  · exact hX

theorem fillBook_live {T : Type} {b : BookState T} (hev : b.events = []) {id : OId}
    (z m : Nat) (id' : OId) :
    live (fillBook b id z m) id' ↔ ((z = 0 → id' ≠ id) ∧ live b id') := by
  rw [fillBook_eq hev]
  split
  · next hz =>
    rw [live_remove]
    constructor
    · rintro ⟨h1, h2⟩
      exact ⟨fun _ => h1, h2⟩
    · rintro ⟨h1, h2⟩
      exact ⟨h1 hz, h2⟩
  · next hz =>
    constructor
    · intro h
      exact ⟨fun h0 => absurd h0 hz, h⟩
    · rintro ⟨-, h2⟩
      exact h2

theorem fillBook_storedSize {T : Type} {b : BookState T} (hev : b.events = []) {id : OId}
    (z m : Nat) (id' : OId) :
    storedSize (fillBook b id z m) id'
      = if sizeKey id' = sizeKey id then (if z = 0 then 0 else z)
        else storedSize b id' := by
  rw [fillBook_eq hev]
  by_cases hz : z = 0
  · rw [if_pos hz]
    unfold storedSize
    rw [removeOrderS_sizes_list]
    dsimp only
    rw [alRemove_alSet_self, alGet_alRemove]
    by_cases hk : sizeKey id' = sizeKey id
    · rw [if_pos hk, if_pos hk, if_pos hz]
      rfl
    · rw [if_neg hk, if_neg hk]
  · rw [if_neg hz]
    unfold storedSize
    dsimp only
    rw [alGet_alSet]
    by_cases hk : sizeKey id' = sizeKey id
    · rw [if_pos hk, if_pos hk, if_neg hz]
      rfl
    · rw [if_neg hk, if_neg hk]

theorem fillBook_details_sub {T : Type} {b : BookState T} (hev : b.events = []) {id : OId}
    (z m : Nat) : ∀ (k : OrderSide × Nat × Nat) (d' : T),
      alGet (fillBook b id z m).details k = some d' → alGet b.details k = some d' := by
  rw [fillBook_eq hev]
  split
  · intro k d' h
    rw [removeOrderS_details_list, alGet_alRemove] at h
    by_cases hk : k = detKey id
    · rw [if_pos hk] at h
      cases h
    · rw [if_neg hk] at h
      exact h
  · intro k d' h
    exact h

theorem fillBook_reserveSum {T : Type} {b : BookState T} (hWF : SWF b) {id : OId}
    (hl : live b id) (hev : b.events = []) (z m : Nat) (w : OId → Nat → Nat)
    (hw0 : w id 0 = 0) :
    reserveSum (fillBook b id z m) w + w id (storedSize b id)
      = reserveSum b w + w id z := by
  have hX : reserveSum
      { b with sizes := alSet b.sizes (sizeKey id) z, events := ([] : List _) } w
      = reserveSum (modifyOrderS b id z) w := reserveSum_eq_of w rfl rfl
  have h3 := reserveSum_modify hWF hl z w
  rw [fillBook_eq hev]
  by_cases hz : z = 0
  · rw [if_pos hz]
    have hXWF : SWF
        { b with sizes := alSet b.sizes (sizeKey id) z, events := ([] : List _) } :=
      SWF_eventsEq (SWF_modify hWF id z) rfl rfl rfl rfl rfl
    have hXl : live
        { b with sizes := alSet b.sizes (sizeKey id) z, events := ([] : List _) } id := hl
    have h1 := reserveSum_remove hXWF hXl w
    have h2 : storedSize
        { b with sizes := alSet b.sizes (sizeKey id) z, events := ([] : List _) } id = z := by
      unfold storedSize
      dsimp only
      rw [alGet_alSet_self]
      rfl
    rw [h2] at h1
    rw [hX] at h1
    rw [hz] at h1 h3 ⊢
    rw [hw0] at h1 h3 ⊢
    omega
  · rw [if_neg hz]
    omega

/-! ## Generic invariant preservation along the matching walk -/

/-- If the callback, applied to any live gated candidate exactly as the
walk applies it, never aborts and preserves an amount-indexed invariant
`Q`, then the per-price walk never aborts and carries `Q` from the amount
that entered to the amount that remains. -/
theorem priceWalk_invariant {T E : Type} (params : OBParams T)
    (cb : OrderEntry T → BookState T × E → Option (BookState T × E)) (price : Nat)
    (Q : Nat → BookState T × E → Prop)
    (hcb : ∀ (amt : Nat) (st : BookState T × E) (id : OId) (order : OrderEntry T),
      Q amt st → getOrderS st.1 id = some order → id.side = params.side.opposite →
      gateMatch params.side params.price order.price →
      cb { order with size := if order.size ≤ amt then order.size else amt }
          (pushEventS (modifyOrderS st.1 id (if order.size ≤ amt then 0 else order.size - amt))
            id (if order.size ≤ amt then order.size else amt), st.2) ≠ none ∧
      (∀ st', cb { order with size := if order.size ≤ amt then order.size else amt }
          (pushEventS (modifyOrderS st.1 id (if order.size ≤ amt then 0 else order.size - amt))
            id (if order.size ≤ amt then order.size else amt), st.2) = some st' →
        Q (amt - (if order.size ≤ amt then order.size else amt)) st')) :
    ∀ (locals : List Nat) (amt : Nat) (st : BookState T × E)
      (r : Option ((BookState T × E) × Nat × Bool)) (vs : List (Visit T)),
      priceWalk params cb price locals amt st = (r, vs) → Q amt st →
      ∃ st' amt' stop, r = some (st', amt', stop) ∧ Q amt' st' ∧ amt' ≤ amt := by
  intro locals
  induction locals with
  | nil =>
    intro amt st r vs h hQ
    simp only [priceWalk] at h
    injection h with h1 h2
    subst h1
    exact ⟨st, amt, false, rfl, hQ, le_refl amt⟩
  | cons l rest ih =>
    intro amt st r vs h hQ
    simp only [priceWalk] at h
    split at h
    · -- candidate not found: skip
      injection h with h1 h2
      subst h1
      obtain ⟨st', amt', stop, hr, hQ', hle⟩ := ih amt st _ _ Prod.mk.eta.symm hQ
      exact ⟨st', amt', stop, hr, hQ', hle⟩
    · next order heq =>
      split at h
      · next hg =>
        have hstep := hcb amt st ⟨params.side.opposite, price, l⟩ order hQ heq rfl hg
        split at h
        · next hcbn =>
          exact absurd hcbn hstep.1
        · next s₁ hcb₁ =>
          have hQ₁ := hstep.2 s₁ hcb₁
          split at h
          · next hsz =>
            rw [if_pos hsz] at hQ₁
            split at h
            · next hz =>
              injection h with h1 h2
              subst h1
              exact ⟨s₁, amt - order.size, true, rfl, hQ₁, Nat.sub_le _ _⟩
            · next hz =>
              injection h with h1 h2
              subst h1
              obtain ⟨st', amt', stop, hr, hQ', hle⟩ :=
                ih (amt - order.size) s₁ _ _ Prod.mk.eta.symm hQ₁
              exact ⟨st', amt', stop, hr, hQ', le_trans hle (Nat.sub_le _ _)⟩
          · next hsz =>
            rw [if_neg hsz] at hQ₁
            split at h
            · next hz =>
              injection h with h1 h2
              subst h1
              exact ⟨s₁, amt - amt, true, rfl, hQ₁, Nat.sub_le _ _⟩
            · next hz =>
              exact absurd (Nat.sub_self amt) hz
      · next hg =>
        injection h with h1 h2
        subst h1
        exact ⟨st, amt, true, rfl, hQ, le_refl amt⟩

/-- The same preservation along the outer walk over the price list. -/
theorem engineWalk_invariant {T E : Type} (params : OBParams T)
    (cb : OrderEntry T → BookState T × E → Option (BookState T × E))
    (Q : Nat → BookState T × E → Prop)
    (hcb : ∀ (amt : Nat) (st : BookState T × E) (id : OId) (order : OrderEntry T),
      Q amt st → getOrderS st.1 id = some order → id.side = params.side.opposite →
      gateMatch params.side params.price order.price →
      cb { order with size := if order.size ≤ amt then order.size else amt }
          (pushEventS (modifyOrderS st.1 id (if order.size ≤ amt then 0 else order.size - amt))
            id (if order.size ≤ amt then order.size else amt), st.2) ≠ none ∧
      (∀ st', cb { order with size := if order.size ≤ amt then order.size else amt }
          (pushEventS (modifyOrderS st.1 id (if order.size ≤ amt then 0 else order.size - amt))
            id (if order.size ≤ amt then order.size else amt), st.2) = some st' →
        Q (amt - (if order.size ≤ amt then order.size else amt)) st')) :
    ∀ (prices : List Nat) (amt : Nat) (st : BookState T × E)
      (r : Option ((BookState T × E) × Nat)) (vs : List (Visit T)),
      engineWalk params cb prices amt st = (r, vs) → Q amt st →
      ∃ st' amt', r = some (st', amt') ∧ Q amt' st' ∧ amt' ≤ amt := by
  intro prices
  induction prices with
  | nil =>
    intro amt st r vs h hQ
    simp only [engineWalk] at h
    injection h with h1 h2
    subst h1
    exact ⟨st, amt, rfl, hQ, le_refl amt⟩
  | cons p rest ih =>
    intro amt st r vs h hQ
    simp only [engineWalk] at h
    split at h
    · next vs₀ heq =>
      obtain ⟨st', amt', stop, hr, -, -⟩ :=
        priceWalk_invariant params cb p Q hcb _ _ _ _ _ heq hQ
      cases hr
    · next s₁ amt₁ stop vs₀ heq =>
      obtain ⟨st', amt₁', stop', hr, hQ₁, hle₁⟩ :=
        priceWalk_invariant params cb p Q hcb _ _ _ _ _ heq hQ
      injection hr with hh
      obtain ⟨h1, h2, h3⟩ := triple_inj hh
      subst h1
      subst h2
      split at h
      · injection h with h1 h2
        subst h1
        exact ⟨s₁, amt₁, rfl, hQ₁, hle₁⟩
      · injection h with h1 h2
        subst h1
        obtain ⟨st', amt', hr', hQ', hle'⟩ := ih amt₁ s₁ _ _ Prod.mk.eta.symm hQ₁
        exact ⟨st', amt', hr', hQ', le_trans hle' hle₁⟩

/-! ## The self-trade flag is monotone along the walk -/

/-- If the callback can only raise a boolean flag of the ambient state, and
raises it whenever the delivered entry satisfies `pred`, then a completed
per-price walk whose trace contains a `pred` fill ends with the flag
raised. -/
theorem priceWalk_flag {T E : Type} (params : OBParams T)
    (cb : OrderEntry T → BookState T × E → Option (BookState T × E)) (price : Nat)
    (flagOf : E → Bool) (pred : OrderEntry T → Prop)
    (hmono : ∀ (e : OrderEntry T) (st st' : BookState T × E), cb e st = some st' →
      (flagOf st.2 = true → flagOf st'.2 = true) ∧ (pred e → flagOf st'.2 = true)) :
    ∀ (locals : List Nat) (amt : Nat) (st : BookState T × E)
      (r : Option ((BookState T × E) × Nat × Bool)) (vs : List (Visit T)),
      priceWalk params cb price locals amt st = (r, vs) →
      ∀ st' amt' stop, r = some (st', amt', stop) →
      (flagOf st.2 = true ∨ ∃ e ∈ visitFills vs, pred e) → flagOf st'.2 = true := by
  intro locals
  induction locals with
  | nil =>
    intro amt st r vs h st' amt' stop hr hor
    simp only [priceWalk] at h
    injection h with h1 h2
    subst h1
    subst h2
    injection hr with hh
    obtain ⟨h1, -, -⟩ := triple_inj hh
    subst h1
    rcases hor with hf | ⟨e, he, -⟩
    · exact hf
    · rw [visitFills_nil] at he
      cases he
  | cons l rest ih =>
    intro amt st r vs h st' amt' stop hr hor
    simp only [priceWalk] at h
    split at h
    · injection h with h1 h2
      subst h1
      subst h2
      refine ih amt st _ _ Prod.mk.eta.symm st' amt' stop hr ?_
      rcases hor with hf | ⟨e, he, hp⟩
      · exact Or.inl hf
      · rw [visitFills_skipped] at he
        exact Or.inr ⟨e, he, hp⟩
    · next order heq =>
      split at h
      · next hg =>
        split at h
        · injection h with h1 h2
          subst h1
          cases hr
        · next s₁ hcb₁ =>
          split at h
          · next hsz =>
            rw [if_pos hsz] at hcb₁
            have hm := hmono _ _ _ hcb₁
            split at h
            · next hz =>
              injection h with h1 h2
              subst h1
              subst h2
              injection hr with hh
              obtain ⟨h1, -, -⟩ := triple_inj hh
              subst h1
              rcases hor with hf | ⟨e, he, hp⟩
              · exact hm.1 hf
              · rw [visitFills_filled, visitFills_nil] at he
                rcases List.mem_singleton.mp he with rfl
                exact hm.2 hp
            · next hz =>
              injection h with h1 h2
              subst h1
              subst h2
              refine ih (amt - order.size) s₁ _ _ Prod.mk.eta.symm st' amt' stop hr ?_
              rcases hor with hf | ⟨e, he, hp⟩
              · exact Or.inl (hm.1 hf)
              · rw [visitFills_filled] at he
                rcases List.mem_cons.mp he with rfl | he'
                · exact Or.inl (hm.2 hp)
                · exact Or.inr ⟨e, he', hp⟩
          · next hsz =>
            rw [if_neg hsz] at hcb₁
            have hm := hmono _ _ _ hcb₁
            split at h
            · next hz =>
              injection h with h1 h2
              subst h1
              subst h2
              injection hr with hh
              obtain ⟨h1, -, -⟩ := triple_inj hh
              subst h1
              rcases hor with hf | ⟨e, he, hp⟩
              · exact hm.1 hf
              · rw [visitFills_filled, visitFills_nil] at he
                rcases List.mem_singleton.mp he with rfl
                exact hm.2 hp
            · next hz =>
              exact absurd (Nat.sub_self amt) hz
      · next hg =>
        injection h with h1 h2
        subst h1
        subst h2
        injection hr with hh
        obtain ⟨h1, -, -⟩ := triple_inj hh
        subst h1
        rcases hor with hf | ⟨e, he, -⟩
        · exact hf
        · rw [visitFills_gateStop, visitFills_nil] at he
          cases he

/-- The flag property lifted over the outer walk. -/
theorem engineWalk_flag {T E : Type} (params : OBParams T)
    (cb : OrderEntry T → BookState T × E → Option (BookState T × E))
    (flagOf : E → Bool) (pred : OrderEntry T → Prop)
    (hmono : ∀ (e : OrderEntry T) (st st' : BookState T × E), cb e st = some st' →
      (flagOf st.2 = true → flagOf st'.2 = true) ∧ (pred e → flagOf st'.2 = true)) :
    ∀ (prices : List Nat) (amt : Nat) (st : BookState T × E)
      (r : Option ((BookState T × E) × Nat)) (vs : List (Visit T)),
      engineWalk params cb prices amt st = (r, vs) →
      ∀ st' amt', r = some (st', amt') →
      (flagOf st.2 = true ∨ ∃ e ∈ visitFills vs, pred e) → flagOf st'.2 = true := by
  intro prices
  induction prices with
  | nil =>
    intro amt st r vs h st' amt' hr hor
    simp only [engineWalk] at h
    injection h with h1 h2
    subst h1
    subst h2
    injection hr with hh
    obtain ⟨h1, -⟩ := Prod.mk.inj hh
    subst h1
    rcases hor with hf | ⟨e, he, -⟩
    · exact hf
    · rw [visitFills_nil] at he
      cases he
  | cons p rest ih =>
    intro amt st r vs h st' amt' hr hor
    simp only [engineWalk] at h
    split at h
    · next vs₀ heq =>
      injection h with h1 h2
      subst h1
      cases hr
    · next s₁ amt₁ stop vs₀ heq =>
      split at h
      · injection h with h1 h2
        subst h1
        subst h2
        injection hr with hh
        obtain ⟨h1, -⟩ := Prod.mk.inj hh
        subst h1
        exact priceWalk_flag params cb p flagOf pred hmono _ _ _ _ _ heq s₁ amt₁ stop
          rfl hor
      · injection h with h1 h2
        subst h1
        subst h2
        rcases hor with hf | ⟨e, he, hp⟩
        · have hf₁ : flagOf s₁.2 = true :=
            priceWalk_flag params cb p flagOf pred hmono _ _ _ _ _ heq s₁ amt₁ stop
              rfl (Or.inl hf)
          exact ih amt₁ s₁ _ _ Prod.mk.eta.symm st' amt' hr (Or.inl hf₁)
        · rw [visitFills_append] at he
          rcases List.mem_append.mp he with he' | he'
          · have hf₁ : flagOf s₁.2 = true :=
              priceWalk_flag params cb p flagOf pred hmono _ _ _ _ _ heq s₁ amt₁ stop
                rfl (Or.inr ⟨e, he', hp⟩)
            exact ih amt₁ s₁ _ _ Prod.mk.eta.symm st' amt' hr (Or.inl hf₁)
          · exact ih amt₁ s₁ _ _ Prod.mk.eta.symm st' amt' hr (Or.inr ⟨e, he', hp⟩)

/-! ## Invariants across the whole engine place_order -/

/-- Under the callback conditions of `engineWalk_invariant`, the engine's
`place_order` never aborts: it returns a state and summary, `Q` holds at
the walk's end, and the final book is the walk's book with the residual
posted (or unchanged when the taker was filled). -/
theorem obPlaceOrder_invariant {T E : Type} (params : OBParams T)
    (cb : OrderEntry T → BookState T × E → Option (BookState T × E))
    (Q : Nat → BookState T × E → Prop)
    (hcb : ∀ (amt : Nat) (st : BookState T × E) (id : OId) (order : OrderEntry T),
      Q amt st → getOrderS st.1 id = some order → id.side = params.side.opposite →
      gateMatch params.side params.price order.price →
      cb { order with size := if order.size ≤ amt then order.size else amt }
          (pushEventS (modifyOrderS st.1 id (if order.size ≤ amt then 0 else order.size - amt))
            id (if order.size ≤ amt then order.size else amt), st.2) ≠ none ∧
      (∀ st', cb { order with size := if order.size ≤ amt then order.size else amt }
          (pushEventS (modifyOrderS st.1 id (if order.size ≤ amt then 0 else order.size - amt))
            id (if order.size ≤ amt then order.size else amt), st.2) = some st' →
        Q (amt - (if order.size ≤ amt then order.size else amt)) st'))
    {st₀ : BookState T × E} {r : Option ((BookState T × E) × OBSummary)}
    {vs : List (Visit T)}
    (h : obPlaceOrder params cb st₀ = (r, vs)) (hQ : Q params.size st₀) :
    ∃ b' e sm b₀, r = some ((b', e), sm) ∧ sm.postedSize ≤ params.size ∧
      Q sm.postedSize (b₀, e) ∧
      ((0 < sm.postedSize ∧
        sm.postedId
          = some (placeOrderS b₀ params.side params.price sm.postedSize params.details).1 ∧
        b' = (placeOrderS b₀ params.side params.price sm.postedSize params.details).2) ∨
       (sm.postedSize = 0 ∧ sm.postedId = none ∧ b' = b₀)) := by
  simp only [obPlaceOrder] at h
  split at h
  · next vs₀ heq =>
    obtain ⟨st', amt', hr, -, -⟩ :=
      engineWalk_invariant params cb Q hcb _ _ _ _ _ heq hQ
    cases hr
  · next b₀ e₀ amt₀ vs₀ heq =>
    obtain ⟨st', amt₀', hr, hQ', hle⟩ :=
      engineWalk_invariant params cb Q hcb _ _ _ _ _ heq hQ
    injection hr with hh
    obtain ⟨h1, h2⟩ := Prod.mk.inj hh
    subst h2
    split at h
    · next hpos =>
      injection h with h1' h2'
      rw [← h1']
      refine ⟨(placeOrderS b₀ params.side params.price amt₀ params.details).2, e₀,
        ⟨some (placeOrderS b₀ params.side params.price amt₀ params.details).1, amt₀⟩, b₀,
        rfl, hle, ?_, Or.inl ⟨hpos, rfl, rfl⟩⟩
      rw [← h1] at hQ'
      exact hQ'
    · next hpos =>
      injection h with h1' h2'
      rw [← h1']
      have hz : amt₀ = 0 := by omega
      refine ⟨b₀, e₀, ⟨none, amt₀⟩, b₀, rfl, hle, ?_, Or.inr ⟨hz, rfl, rfl⟩⟩
      rw [← h1] at hQ'
      exact hQ'

/-- The flag property for the whole engine `place_order`: a completed run
whose trace contains a `pred` fill ends with the flag raised in the
returned ambient state. -/
theorem obPlaceOrder_flag {T E : Type} (params : OBParams T)
    (cb : OrderEntry T → BookState T × E → Option (BookState T × E))
    (flagOf : E → Bool) (pred : OrderEntry T → Prop)
    (hmono : ∀ (e : OrderEntry T) (st st' : BookState T × E), cb e st = some st' →
      (flagOf st.2 = true → flagOf st'.2 = true) ∧ (pred e → flagOf st'.2 = true))
    {st₀ : BookState T × E} {r : Option ((BookState T × E) × OBSummary)}
    {vs : List (Visit T)}
    (h : obPlaceOrder params cb st₀ = (r, vs))
    (hfill : ∃ e ∈ visitFills vs, pred e) :
    ∀ b' e' sm, r = some ((b', e'), sm) → flagOf e' = true := by
  intro b' e' sm hr
  simp only [obPlaceOrder] at h
  split at h
  · next vs₀ heq =>
    injection h with h1 h2
    rw [← h1] at hr
    cases hr
  · next b₀ e₀ amt₀ vs₀ heq =>
    split at h
    · next hpos =>
      injection h with h1' h2'
      subst h2'
      rw [← h1'] at hr
      injection hr with hh
      obtain ⟨hh1, -⟩ := Prod.mk.inj hh
      obtain ⟨-, hh2⟩ := Prod.mk.inj hh1
      rw [← hh2]
      exact engineWalk_flag params cb flagOf pred hmono _ _ _ _ _ heq (b₀, e₀) amt₀ rfl
        (Or.inr hfill)
    · next hpos =>
      injection h with h1' h2'
      subst h2'
      rw [← h1'] at hr
      injection hr with hh
      obtain ⟨hh1, -⟩ := Prod.mk.inj hh
      obtain ⟨-, hh2⟩ := Prod.mk.inj hh1
      rw [← hh2]
      exact engineWalk_flag params cb flagOf pred hmono _ _ _ _ _ heq (b₀, e₀) amt₀ rfl
        (Or.inr hfill)

/-! ## The market settlement callback, computed -/

/-- A successful settlement sets the self-trade flag to its disjunction
with the owner comparison — and can never clear it. -/
theorem marketCb_selfTrade (owner : Nat) (e : OrderEntry ODetail)
    (st st' : BookState ODetail × MExt) (h : marketCb owner e st = some st') :
    st'.2.selfTrade = (st.2.selfTrade || decide (e.details.owner = owner)) := by
  simp only [marketCb] at h
  split at h
  · cases h
  · next qa hqa =>
    split at h
    · -- maker Bid
      split at h
      · cases h
      · next base' hb =>
        split at h
        · cases h
        · next quote' hq =>
          injection h with hh
          rw [← hh]
    · -- maker Ask
      split at h
      · cases h
      · next quote' hq =>
        split at h
        · cases h
        · next base' hb =>
          injection h with hh
          rw [← hh]

/-- A fill against an `Ask` maker, computed: quote goes from the market to
the maker's owner and base from the market to the taker, both at the
maker's price. -/
theorem marketCb_ask_run (owner : Nat) (e : OrderEntry ODetail) (b : BookState ODetail)
    (x : MExt) {qa : Int} (hqa : quoteAmountChecked e.price e.size = some qa)
    (hside : e.id.side = OrderSide.Ask)
    (h1 : qa ≤ x.quote marketAddr) (h2 : (e.size : Int) ≤ x.base marketAddr) :
    marketCb owner e (b, x) = some (consumeOneS b e.id 1,
      { base := fun a => if a = owner then x.base owner + (e.size : Int)
          else if a = marketAddr then x.base marketAddr - (e.size : Int) else x.base a,
        quote := fun a => if a = e.details.owner then x.quote e.details.owner + qa
          else if a = marketAddr then x.quote marketAddr - qa else x.quote a,
        selfTrade := x.selfTrade || decide (e.details.owner = owner),
        quoteConsumed := x.quoteConsumed + qa,
        baseConsumed := x.baseConsumed + (e.size : Int) }) := by
  simp only [marketCb]
  rw [hqa, hside]
  dsimp only
  rw [transferTok_eq_some h1, transferTok_eq_some h2]

/-- A fill against a `Bid` maker, computed: base goes from the market to
the maker's owner and quote from the market to the taker, both at the
maker's price. -/
theorem marketCb_bid_run (owner : Nat) (e : OrderEntry ODetail) (b : BookState ODetail)
    (x : MExt) {qa : Int} (hqa : quoteAmountChecked e.price e.size = some qa)
    (hside : e.id.side = OrderSide.Bid)
    (h1 : (e.size : Int) ≤ x.base marketAddr) (h2 : qa ≤ x.quote marketAddr) :
    marketCb owner e (b, x) = some (consumeOneS b e.id 1,
      { base := fun a => if a = e.details.owner then x.base e.details.owner + (e.size : Int)
          else if a = marketAddr then x.base marketAddr - (e.size : Int) else x.base a,
        quote := fun a => if a = owner then x.quote owner + qa
          else if a = marketAddr then x.quote marketAddr - qa else x.quote a,
        selfTrade := x.selfTrade || decide (e.details.owner = owner),
        quoteConsumed := x.quoteConsumed + qa,
        baseConsumed := x.baseConsumed + (e.size : Int) }) := by
  simp only [marketCb]
  rw [hqa, hside]
  dsimp only
  rw [transferTok_eq_some h1, transferTok_eq_some h2]

/-- One fill of a `Bid` taker against an `Ask` maker preserves the loop
invariant `QBid` and cannot abort. -/
theorem QBid_step (P qo owner : Nat) (howner : owner ≠ marketAddr) :
    ∀ (amt : Nat) (st : BookState ODetail × MExt) (id : OId) (order : OrderEntry ODetail),
      QBid P qo amt st → getOrderS st.1 id = some order →
      id.side = OrderSide.Ask →
      gateMatch OrderSide.Bid P order.price →
      marketCb owner { order with size := if order.size ≤ amt then order.size else amt }
          (pushEventS
            (modifyOrderS st.1 id (if order.size ≤ amt then 0 else order.size - amt))
            id (if order.size ≤ amt then order.size else amt), st.2) ≠ none ∧
      (∀ st',
        marketCb owner { order with size := if order.size ≤ amt then order.size else amt }
          (pushEventS
            (modifyOrderS st.1 id (if order.size ≤ amt then 0 else order.size - amt))
            id (if order.size ≤ amt then order.size else amt), st.2) = some st' →
        QBid P qo (amt - (if order.size ≤ amt then order.size else amt)) st') := by
  intro amt st id order hQ hget hside hgate
  have hzm : (if order.size ≤ amt then 0 else order.size - amt)
      = order.size - (if order.size ≤ amt then order.size else amt) := by
    split <;> omega
  rw [hzm]
  generalize hm : (if order.size ≤ amt then order.size else amt) = m
  have hmle : m ≤ order.size := by rw [← hm]; split <;> omega
  have hmle2 : m ≤ amt := by rw [← hm]; split <;> omega
  obtain ⟨hoid, hoprice, hosz, hodet⟩ := getOrderS_some hget
  have hlv : live st.1 id := live_of_getOrderS hget
  have hss : storedSize st.1 id = order.size := storedSize_eq_of_getOrderS hget
  obtain ⟨hwf, hsOK, hown, hev, hbNN, hqNN, hbR, hqR, hqC⟩ := hQ
  have hgate' : order.price ≤ P := hgate
  have hbounds := hsOK id hlv
  rw [hss] at hbounds
  obtain ⟨hpos96, hs96, hs128⟩ := hbounds
  have hop : order.price = id.price := hoprice
  have hownm : order.details.owner ≠ marketAddr := hown (detKey id) order.details hodet
  have hqa : quoteAmountChecked ({ order with size := m } : OrderEntry ODetail).price
      ({ order with size := m } : OrderEntry ODetail).size
      = some ((quoteAmountN order.price m : Nat) : Int) := by
    show quoteAmountChecked order.price m = some _
    unfold quoteAmountChecked
    have hc : m < 2 ^ 96 ∧ order.price * m < 2 ^ 128 := by
      refine ⟨by omega, ?_⟩
      calc order.price * m ≤ order.price * order.size := Nat.mul_le_mul_left _ hmle
        _ = id.price * order.size := by rw [hop]
        _ < 2 ^ 128 := hs128
    rw [if_pos hc]
  have hside' : ({ order with size := m } : OrderEntry ODetail).id.side = OrderSide.Ask := by
    show order.id.side = OrderSide.Ask
    rw [hoid]
    exact hside
  have haskW : order.size ≤ askReserve st.1 := by
    have h0 := single_le_reserveSum hwf hlv askWeight
    have h1 : askWeight id (storedSize st.1 id) = order.size := by
      unfold askWeight
      rw [if_pos hside, hss]
    rw [h1] at h0
    exact h0
  have hqmono : quoteAmountN order.price m ≤ quoteAmountN P amt :=
    le_trans (quoteAmountN_mono_price m hgate') (quoteAmountN_mono_size P hmle2)
  have h2 : ((m : Nat) : Int) ≤ st.2.base marketAddr := by omega
  have h1 : ((quoteAmountN order.price m : Nat) : Int) ≤ st.2.quote marketAddr := by omega
  have hrun := marketCb_ask_run owner ({ order with size := m })
    (pushEventS (modifyOrderS st.1 id (order.size - m)) id m) st.2 hqa hside' h1 h2
  constructor
  · rw [hrun]
    simp
  · intro st' hst'
    rw [hrun] at hst'
    injection hst' with hv
    rw [← hv]
    dsimp only
    rw [hoid]
    have hw0a : askWeight id 0 = 0 := by
      unfold askWeight
      split <;> rfl
    have hw0b : bidWeight id 0 = 0 := by
      unfold bidWeight
      rw [quoteAmountN_zero]
      split <;> rfl
    have hask : askReserve (fillBook st.1 id (order.size - m) m) + m = askReserve st.1 := by
      have h0 := fillBook_reserveSum hwf hlv hev (order.size - m) m askWeight hw0a
      have e1 : askWeight id (storedSize st.1 id) = order.size := by
        unfold askWeight
        rw [if_pos hside, hss]
      have e2 : askWeight id (order.size - m) = order.size - m := by
        unfold askWeight
        rw [if_pos hside]
      rw [e1, e2] at h0
      unfold askReserve
      omega
    have hbid : bidReserve (fillBook st.1 id (order.size - m) m) = bidReserve st.1 := by
      have h0 := fillBook_reserveSum hwf hlv hev (order.size - m) m bidWeight hw0b
      have e1 : bidWeight id (storedSize st.1 id) = 0 := by
        unfold bidWeight
        rw [hside]
        rfl
      have e2 : bidWeight id (order.size - m) = 0 := by
        unfold bidWeight
        rw [hside]
        rfl
      rw [e1, e2] at h0
      unfold bidReserve
      omega
    refine ⟨?_, ?_, ?_, ?_, ?_, ?_, ?_, ?_, ?_⟩
    · exact fillBook_SWF hwf hlv hev _ m
    · intro id' hlv'
      obtain ⟨hne, hl'⟩ := (fillBook_live hev _ m id').mp hlv'
      show 0 < storedSize (fillBook st.1 id (order.size - m) m) id'
        ∧ storedSize (fillBook st.1 id (order.size - m) m) id' < 2 ^ 96
        ∧ id'.price * storedSize (fillBook st.1 id (order.size - m) m) id' < 2 ^ 128
      rw [fillBook_storedSize hev _ m id']
      by_cases hk : sizeKey id' = sizeKey id
      · rw [if_pos hk]
        have hid : id' = id := live_sizeKey_inj hwf hl' hlv hk
        by_cases hz0 : order.size - m = 0
        · exact absurd hid (hne hz0)
        · rw [if_neg hz0]
          refine ⟨Nat.pos_of_ne_zero hz0, by omega, ?_⟩
          calc id'.price * (order.size - m)
              ≤ id'.price * order.size := Nat.mul_le_mul_left _ (Nat.sub_le _ _)
            _ = id.price * order.size := by rw [hid]
            _ < 2 ^ 128 := hs128
      · rw [if_neg hk]
        exact hsOK id' hl'
    · intro k d hd
      exact hown k d (fillBook_details_sub hev _ m k d hd)
    · exact fillBook_events hev id _ m
    · intro a
      dsimp only
      have hb1 := hbNN owner
      have hb2 := hbNN a
      split
      · omega
      · split
        · omega
        · exact hb2
    · intro a
      dsimp only
      have hq1 := hqNN order.details.owner
      have hq2 := hqNN a
      split
      · omega
      · split
        · omega
        · exact hq2
    · show (askReserve (fillBook st.1 id (order.size - m) m) : Int) ≤ _
      dsimp only
      rw [if_neg (Ne.symm howner), if_pos rfl]
      omega
    · show (bidReserve (fillBook st.1 id (order.size - m) m) : Int) + _ - _ ≤ _
      dsimp only
      rw [if_neg (Ne.symm hownm), if_pos rfl]
      omega
    · show _ + ((quoteAmountN P (amt - m) : Nat) : Int) ≤ ((qo : Nat) : Int)
      dsimp only
      have hadd : quoteAmountN P m + quoteAmountN P (amt - m) ≤ quoteAmountN P amt := by
        have h0 := quoteAmountN_add_le P m (amt - m)
        rw [show m + (amt - m) = amt from by omega] at h0
        exact h0
      have hpm : quoteAmountN order.price m ≤ quoteAmountN P m :=
        quoteAmountN_mono_price m hgate'
      omega

/-- One fill of an `Ask` taker against a `Bid` maker preserves the loop
invariant `QAsk` and cannot abort. -/
theorem QAsk_step (P sz0 owner : Nat) (howner : owner ≠ marketAddr) :
    ∀ (amt : Nat) (st : BookState ODetail × MExt) (id : OId) (order : OrderEntry ODetail),
      QAsk sz0 amt st → getOrderS st.1 id = some order →
      id.side = OrderSide.Bid →
      gateMatch OrderSide.Ask P order.price →
      marketCb owner { order with size := if order.size ≤ amt then order.size else amt }
          (pushEventS
            (modifyOrderS st.1 id (if order.size ≤ amt then 0 else order.size - amt))
            id (if order.size ≤ amt then order.size else amt), st.2) ≠ none ∧
      (∀ st',
        marketCb owner { order with size := if order.size ≤ amt then order.size else amt }
          (pushEventS
            (modifyOrderS st.1 id (if order.size ≤ amt then 0 else order.size - amt))
            id (if order.size ≤ amt then order.size else amt), st.2) = some st' →
        QAsk sz0 (amt - (if order.size ≤ amt then order.size else amt)) st') := by
  intro amt st id order hQ hget hside hgate
  have hzm : (if order.size ≤ amt then 0 else order.size - amt)
      = order.size - (if order.size ≤ amt then order.size else amt) := by
    split <;> omega
  rw [hzm]
  generalize hm : (if order.size ≤ amt then order.size else amt) = m
  have hmle : m ≤ order.size := by rw [← hm]; split <;> omega
  have hmle2 : m ≤ amt := by rw [← hm]; split <;> omega
  obtain ⟨hoid, hoprice, hosz, hodet⟩ := getOrderS_some hget
  have hlv : live st.1 id := live_of_getOrderS hget
  have hss : storedSize st.1 id = order.size := storedSize_eq_of_getOrderS hget
  obtain ⟨hwf, hsOK, hown, hev, hbNN, hqNN, hbR, hqR, hbcNN, hbcAcc⟩ := hQ
  have hbounds := hsOK id hlv
  rw [hss] at hbounds
  obtain ⟨hpos96, hs96, hs128⟩ := hbounds
  have hop : order.price = id.price := hoprice
  have hownm : order.details.owner ≠ marketAddr := hown (detKey id) order.details hodet
  have hqa : quoteAmountChecked ({ order with size := m } : OrderEntry ODetail).price
      ({ order with size := m } : OrderEntry ODetail).size
      = some ((quoteAmountN order.price m : Nat) : Int) := by
    show quoteAmountChecked order.price m = some _
    unfold quoteAmountChecked
    have hc : m < 2 ^ 96 ∧ order.price * m < 2 ^ 128 := by
      refine ⟨by omega, ?_⟩
      calc order.price * m ≤ order.price * order.size := Nat.mul_le_mul_left _ hmle
        _ = id.price * order.size := by rw [hop]
        _ < 2 ^ 128 := hs128
    rw [if_pos hc]
  have hside' : ({ order with size := m } : OrderEntry ODetail).id.side = OrderSide.Bid := by
    show order.id.side = OrderSide.Bid
    rw [hoid]
    exact hside
  have hbidW : quoteAmountN id.price order.size ≤ bidReserve st.1 := by
    have h0 := single_le_reserveSum hwf hlv bidWeight
    have h1 : bidWeight id (storedSize st.1 id) = quoteAmountN id.price order.size := by
      unfold bidWeight
      rw [if_pos hside, hss]
    rw [h1] at h0
    exact h0
  have hqaN : quoteAmountN order.price m = quoteAmountN id.price m := by rw [hop]
  have hmono2 : quoteAmountN id.price m ≤ quoteAmountN id.price order.size :=
    quoteAmountN_mono_size _ hmle
  have h1 : ((m : Nat) : Int) ≤ st.2.base marketAddr := by omega
  have h2 : ((quoteAmountN order.price m : Nat) : Int) ≤ st.2.quote marketAddr := by omega
  have hrun := marketCb_bid_run owner ({ order with size := m })
    (pushEventS (modifyOrderS st.1 id (order.size - m)) id m) st.2 hqa hside' h1 h2
  constructor
  · rw [hrun]
    simp
  · intro st' hst'
    rw [hrun] at hst'
    injection hst' with hv
    rw [← hv]
    dsimp only
    rw [hoid]
    have hw0a : askWeight id 0 = 0 := by
      unfold askWeight
      split <;> rfl
    have hw0b : bidWeight id 0 = 0 := by
      unfold bidWeight
      rw [quoteAmountN_zero]
      split <;> rfl
    have hask : askReserve (fillBook st.1 id (order.size - m) m) = askReserve st.1 := by
      have h0 := fillBook_reserveSum hwf hlv hev (order.size - m) m askWeight hw0a
      have e1 : askWeight id (storedSize st.1 id) = 0 := by
        unfold askWeight
        rw [hside]
        rfl
      have e2 : askWeight id (order.size - m) = 0 := by
        unfold askWeight
        rw [hside]
        rfl
      rw [e1, e2] at h0
      unfold askReserve
      omega
    have hbid : bidReserve (fillBook st.1 id (order.size - m) m)
        + quoteAmountN id.price order.size
        = bidReserve st.1 + quoteAmountN id.price (order.size - m) := by
      have h0 := fillBook_reserveSum hwf hlv hev (order.size - m) m bidWeight hw0b
      have e1 : bidWeight id (storedSize st.1 id) = quoteAmountN id.price order.size := by
        unfold bidWeight
        rw [if_pos hside, hss]
      have e2 : bidWeight id (order.size - m) = quoteAmountN id.price (order.size - m) := by
        unfold bidWeight
        rw [if_pos hside]
      rw [e1, e2] at h0
      unfold bidReserve
      omega
    have hsup : quoteAmountN id.price m + quoteAmountN id.price (order.size - m)
        ≤ quoteAmountN id.price order.size := by
      have h0 := quoteAmountN_add_le id.price m (order.size - m)
      rw [show m + (order.size - m) = order.size from by omega] at h0
      exact h0
    refine ⟨?_, ?_, ?_, ?_, ?_, ?_, ?_, ?_, ?_, ?_⟩
    · exact fillBook_SWF hwf hlv hev _ m
    · intro id' hlv'
      obtain ⟨hne, hl'⟩ := (fillBook_live hev _ m id').mp hlv'
      show 0 < storedSize (fillBook st.1 id (order.size - m) m) id'
        ∧ storedSize (fillBook st.1 id (order.size - m) m) id' < 2 ^ 96
        ∧ id'.price * storedSize (fillBook st.1 id (order.size - m) m) id' < 2 ^ 128
      rw [fillBook_storedSize hev _ m id']
      by_cases hk : sizeKey id' = sizeKey id
      · rw [if_pos hk]
        have hid : id' = id := live_sizeKey_inj hwf hl' hlv hk
        by_cases hz0 : order.size - m = 0
        · exact absurd hid (hne hz0)
        · rw [if_neg hz0]
          refine ⟨Nat.pos_of_ne_zero hz0, by omega, ?_⟩
          calc id'.price * (order.size - m)
              ≤ id'.price * order.size := Nat.mul_le_mul_left _ (Nat.sub_le _ _)
            _ = id.price * order.size := by rw [hid]
            _ < 2 ^ 128 := hs128
      · rw [if_neg hk]
        exact hsOK id' hl'
    · intro k d hd
      exact hown k d (fillBook_details_sub hev _ m k d hd)
    · exact fillBook_events hev id _ m
    · intro a
      dsimp only
      have hb1 := hbNN order.details.owner
      have hb2 := hbNN a
      split
      · omega
      · split
        · omega
        · exact hb2
    · intro a
      dsimp only
      have hq1 := hqNN owner
      have hq2 := hqNN a
      split
      · omega
      · split
        · omega
        · exact hq2
    · show (askReserve (fillBook st.1 id (order.size - m) m) : Int) + _ ≤ _
      dsimp only
      rw [if_neg (Ne.symm hownm), if_pos rfl]
      omega
    · show (bidReserve (fillBook st.1 id (order.size - m) m) : Int) ≤ _
      dsimp only
      rw [if_neg (Ne.symm howner), if_pos rfl]
      omega
    · dsimp only
      omega
    · dsimp only
      omega

/-! ## Entering and leaving the walk: the market invariant around it -/

theorem storedSize_place_new {T : Type} (b : BookState T) (side : OrderSide)
    (price size : Nat) (d : T) :
    storedSize (placeOrderS b side price size d).2 ⟨side, price, nextLocal b price⟩
      = size := by
  unfold storedSize
  rw [placeOrderS_sizes_list]
  rw [show sizeKey (⟨side, price, nextLocal b price⟩ : OId)
    = (side, price % P56, nextLocal b price) from rfl]
  rw [alGet_alSet_self]
  rfl

theorem storedSize_place_old {T : Type} {b : BookState T} (hWF : SWF b) (side : OrderSide)
    (price size : Nat) (d : T) {id' : OId} (hl : live b id') :
    storedSize (placeOrderS b side price size d).2 id' = storedSize b id' := by
  unfold storedSize
  rw [placeOrderS_sizes_list]
  have hne : sizeKey id' ≠ (side, price % P56, nextLocal b price) :=
    live_sizeKey_ne_next hWF side price hl
  rw [alGet_alSet_ne _ _ hne]

/-- The `Bid` escrow establishes the walk invariant. -/
theorem QBid_init {s : MarketState} (hI : MINV s) (P sz : Nat) {owner : Nat}
    {q' : Nat → Int}
    (hq : transferTok s.quote owner marketAddr ((quoteAmountN P sz : Nat) : Int)
      = some q') :
    QBid P (quoteAmountN P sz) sz (s.book, ⟨s.base, q', false, 0, 0⟩) := by
  obtain ⟨hwf, hsOK, hown, hev, hbNN, hqNN, hbR, hqR⟩ := hI
  have hd := transferTok_dst hq
  refine ⟨hwf, hsOK, hown, hev, hbNN, ?_, hbR, ?_, ?_⟩
  · exact transferTok_nonneg hq hqNN (Int.natCast_nonneg _)
  · dsimp only
    omega
  · dsimp only
    omega

/-- The `Ask` escrow establishes the walk invariant. -/
theorem QAsk_init {s : MarketState} (hI : MINV s) (sz : Nat) {owner : Nat}
    {b' : Nat → Int}
    (hb : transferTok s.base owner marketAddr ((sz : Nat) : Int) = some b') :
    QAsk sz sz (s.book, ⟨b', s.quote, false, 0, 0⟩) := by
  obtain ⟨hwf, hsOK, hown, hev, hbNN, hqNN, hbR, hqR⟩ := hI
  have hd := transferTok_dst hb
  refine ⟨hwf, hsOK, hown, hev, ?_, hqNN, ?_, hqR, ?_, ?_⟩
  · exact transferTok_nonneg hb hbNN (Int.natCast_nonneg _)
  · dsimp only
    omega
  · dsimp only
    omega
  · dsimp only
    omega

/-- A fresh market satisfies the invariant. -/
theorem marketInit_MINV (minSize : Nat) (base quote : Nat → Int)
    (hb : ∀ a, 0 ≤ base a) (hq : ∀ a, 0 ≤ quote a) :
    MINV (marketInit minSize base quote) := by
  refine ⟨SWF_empty, ?_, ?_, rfl, hb, hq, ?_, ?_⟩
  · intro id hlv
    simp [live, BookState.empty, alGet] at hlv
  · intro k d hd
    simp [marketInit, BookState.empty, alGet] at hd
  · have h0 : askReserve (BookState.empty : BookState ODetail) = 0 := rfl
    show ((askReserve (BookState.empty : BookState ODetail) : Nat) : Int) ≤ base marketAddr
    rw [h0]
    simpa using hb marketAddr
  · have h0 : bidReserve (BookState.empty : BookState ODetail) = 0 := rfl
    show ((bidReserve (BookState.empty : BookState ODetail) : Nat) : Int) ≤ quote marketAddr
    rw [h0]
    simpa using hq marketAddr

/-- Leaving a `Bid` taker's walk: post the residual, refund the unspent
quote, and the market invariant holds again. -/
theorem QBid_final {P sz : Nat} {b₀ : BookState ODetail} {x : MExt} {amt' : Nat}
    (hQ : QBid P (quoteAmountN P sz) amt' (b₀, x))
    (hp : P < 2 ^ 64) (hsz96 : sz < 2 ^ 96) (hsz128 : P * sz < 2 ^ 128)
    (hle : amt' ≤ sz) {owner : Nat} (howner : owner ≠ marketAddr)
    {q'' : Nat → Int}
    (hq'' : transferTok x.quote marketAddr owner
      (((quoteAmountN P sz : Nat) : Int) - x.quoteConsumed
        - ((quoteAmountN P amt' : Nat) : Int)) = some q'')
    (b' : BookState ODetail)
    (hb' : (0 < amt' ∧ b' = (placeOrderS b₀ OrderSide.Bid P amt' ⟨owner⟩).2)
         ∨ (amt' = 0 ∧ b' = b₀))
    (minSize : Nat) :
    MINV ⟨b', x.base, q'', minSize⟩ := by
  obtain ⟨hwf0, hsOK0, hown0, hev0, hbNN0, hqNN0, hbR0, hqR0, hqC0⟩ := hQ
  dsimp only at hwf0 hsOK0 hown0 hev0 hbNN0 hqNN0 hbR0 hqR0 hqC0
  have hretNN : (0 : Int) ≤ ((quoteAmountN P sz : Nat) : Int) - x.quoteConsumed
      - ((quoteAmountN P amt' : Nat) : Int) := by
    omega
  have hqm : q'' marketAddr = x.quote marketAddr
      - (((quoteAmountN P sz : Nat) : Int) - x.quoteConsumed
        - ((quoteAmountN P amt' : Nat) : Int)) :=
    transferTok_src hq'' (Ne.symm howner)
  have hqNN'' : ∀ a, 0 ≤ q'' a := transferTok_nonneg hq'' hqNN0 hretNN
  rcases hb' with ⟨hpos, hbdef⟩ | ⟨hzero, hbdef⟩
  · subst hbdef
    have haskP : askReserve (placeOrderS b₀ OrderSide.Bid P amt' ⟨owner⟩).2
        = askReserve b₀ := by
      have h0 := reserveSum_place hwf0 OrderSide.Bid P amt' (⟨owner⟩ : ODetail) askWeight
      have e1 : askWeight ⟨OrderSide.Bid, P, nextLocal b₀ P⟩ amt' = 0 := rfl
      rw [e1] at h0
      unfold askReserve
      omega
    have hbidP : bidReserve (placeOrderS b₀ OrderSide.Bid P amt' ⟨owner⟩).2
        = bidReserve b₀ + quoteAmountN P amt' := by
      have h0 := reserveSum_place hwf0 OrderSide.Bid P amt' (⟨owner⟩ : ODetail) bidWeight
      have e1 : bidWeight ⟨OrderSide.Bid, P, nextLocal b₀ P⟩ amt' = quoteAmountN P amt' :=
        rfl
      rw [e1] at h0
      exact h0
    refine ⟨SWF_place hwf0 OrderSide.Bid P amt' ⟨owner⟩ hp, ?_, ?_, ?_, hbNN0, hqNN'',
      ?_, ?_⟩
    · intro id' hlv'
      rcases (live_place b₀ OrderSide.Bid P amt' ⟨owner⟩ id').mp hlv' with rfl | hold
      · rw [storedSize_place_new]
        refine ⟨hpos, by omega, ?_⟩
        calc (⟨OrderSide.Bid, P, nextLocal b₀ P⟩ : OId).price * amt' = P * amt' := rfl
          _ ≤ P * sz := Nat.mul_le_mul_left _ hle
          _ < 2 ^ 128 := hsz128
      · rw [storedSize_place_old hwf0 _ _ _ _ hold]
        exact hsOK0 id' hold
    · intro k d hd
      rw [placeOrderS_details_list, alGet_alSet] at hd
      by_cases hk : k = (OrderSide.Bid, P, nextLocal b₀ P)
      · rw [if_pos hk] at hd
        injection hd with hd'
        rw [← hd']
        exact howner
      · rw [if_neg hk] at hd
        exact hown0 k d hd
    · rw [placeOrderS_events]
      exact hev0
    · show ((askReserve (placeOrderS b₀ OrderSide.Bid P amt' ⟨owner⟩).2 : Nat) : Int)
        ≤ x.base marketAddr
      rw [haskP]
      exact hbR0
    · show ((bidReserve (placeOrderS b₀ OrderSide.Bid P amt' ⟨owner⟩).2 : Nat) : Int)
        ≤ q'' marketAddr
      rw [hbidP, hqm]
      push_cast
      omega
  · subst hbdef
    refine ⟨hwf0, hsOK0, hown0, hev0, hbNN0, hqNN'', hbR0, ?_⟩
    show ((bidReserve b' : Nat) : Int) ≤ q'' marketAddr
    rw [hqm, hzero, quoteAmountN_zero]
    omega

/-- Leaving an `Ask` taker's walk: post the residual; the refund is
exactly zero, and the market invariant holds again. -/
theorem QAsk_final {P sz : Nat} {b₀ : BookState ODetail} {x : MExt} {amt' : Nat}
    (hQ : QAsk sz amt' (b₀, x))
    (hp : P < 2 ^ 64) (hsz96 : sz < 2 ^ 96) (hsz128 : P * sz < 2 ^ 128)
    (hle : amt' ≤ sz) {owner : Nat} (howner : owner ≠ marketAddr)
    {b'' : Nat → Int}
    (hb'' : transferTok x.base marketAddr owner
      (((sz - amt' : Nat) : Int) - x.baseConsumed) = some b'')
    (b' : BookState ODetail)
    (hb' : (0 < amt' ∧ b' = (placeOrderS b₀ OrderSide.Ask P amt' ⟨owner⟩).2)
         ∨ (amt' = 0 ∧ b' = b₀))
    (minSize : Nat) :
    MINV ⟨b', b'', x.quote, minSize⟩ := by
  obtain ⟨hwf0, hsOK0, hown0, hev0, hbNN0, hqNN0, hbR0, hqR0, hbcNN0, hbcAcc0⟩ := hQ
  dsimp only at hwf0 hsOK0 hown0 hev0 hbNN0 hqNN0 hbR0 hqR0 hbcNN0 hbcAcc0
  have hret0 : ((sz - amt' : Nat) : Int) - x.baseConsumed = 0 := by omega
  have hbm : b'' marketAddr = x.base marketAddr
      - (((sz - amt' : Nat) : Int) - x.baseConsumed) :=
    transferTok_src hb'' (Ne.symm howner)
  rw [hret0] at hbm
  have hbNN'' : ∀ a, 0 ≤ b'' a := transferTok_nonneg hb'' hbNN0 (le_of_eq hret0.symm)
  rcases hb' with ⟨hpos, hbdef⟩ | ⟨hzero, hbdef⟩
  · subst hbdef
    have haskP : askReserve (placeOrderS b₀ OrderSide.Ask P amt' ⟨owner⟩).2
        = askReserve b₀ + amt' := by
      have h0 := reserveSum_place hwf0 OrderSide.Ask P amt' (⟨owner⟩ : ODetail) askWeight
      have e1 : askWeight ⟨OrderSide.Ask, P, nextLocal b₀ P⟩ amt' = amt' := rfl
      rw [e1] at h0
      exact h0
    have hbidP : bidReserve (placeOrderS b₀ OrderSide.Ask P amt' ⟨owner⟩).2
        = bidReserve b₀ := by
      have h0 := reserveSum_place hwf0 OrderSide.Ask P amt' (⟨owner⟩ : ODetail) bidWeight
      have e1 : bidWeight ⟨OrderSide.Ask, P, nextLocal b₀ P⟩ amt' = 0 := rfl
      rw [e1] at h0
      unfold bidReserve
      omega
    refine ⟨SWF_place hwf0 OrderSide.Ask P amt' ⟨owner⟩ hp, ?_, ?_, ?_, hbNN'', hqNN0,
      ?_, ?_⟩
    · intro id' hlv'
      rcases (live_place b₀ OrderSide.Ask P amt' ⟨owner⟩ id').mp hlv' with rfl | hold
      · rw [storedSize_place_new]
        refine ⟨hpos, by omega, ?_⟩
        calc (⟨OrderSide.Ask, P, nextLocal b₀ P⟩ : OId).price * amt' = P * amt' := rfl
          _ ≤ P * sz := Nat.mul_le_mul_left _ hle
          _ < 2 ^ 128 := hsz128
      · rw [storedSize_place_old hwf0 _ _ _ _ hold]
        exact hsOK0 id' hold
    · intro k d hd
      rw [placeOrderS_details_list, alGet_alSet] at hd
      by_cases hk : k = (OrderSide.Ask, P, nextLocal b₀ P)
      · rw [if_pos hk] at hd
        injection hd with hd'
        rw [← hd']
        exact howner
      · rw [if_neg hk] at hd
        exact hown0 k d hd
    · rw [placeOrderS_events]
      exact hev0
    · show ((askReserve (placeOrderS b₀ OrderSide.Ask P amt' ⟨owner⟩).2 : Nat) : Int)
        ≤ b'' marketAddr
      rw [haskP, hbm]
      push_cast
      omega
    · show ((bidReserve (placeOrderS b₀ OrderSide.Ask P amt' ⟨owner⟩).2 : Nat) : Int)
        ≤ x.quote marketAddr
      rw [hbidP]
      exact hqR0
  · subst hbdef
    refine ⟨hwf0, hsOK0, hown0, hev0, hbNN'', hqNN0, ?_, hqR0⟩
    show ((askReserve b' : Nat) : Int) ≤ b'' marketAddr
    rw [hbm]
    omega

/-- A successful `DexMarket::place_order` preserves the market invariant. -/
theorem marketPlaceOrder_MINV {s : MarketState} {p : MParams} {s' : MarketState}
    {oid : Option OId} {vs : List (Visit ODetail)} (hI : MINV s)
    (hp : p.price < 2 ^ 64) (howner : p.owner ≠ marketAddr)
    (h : marketPlaceOrder s p = (some (Except.ok (s', oid)), vs)) : MINV s' := by
  simp only [marketPlaceOrder] at h
  split at h
  · injection h with h1 h2
    injection h1 with h1'
    cases h1'
  · next hmin =>
    split at h
    · injection h with h1 h2
      cases h1
    · next quoteOffer hqoc =>
      have hqv : quoteOffer = ((quoteAmountN p.price p.size : Nat) : Int)
          ∧ p.size < 2 ^ 96 ∧ p.price * p.size < 2 ^ 128 := by
        unfold quoteAmountChecked at hqoc
        by_cases hc : p.size < 2 ^ 96 ∧ p.price * p.size < 2 ^ 128
        · rw [if_pos hc] at hqoc
          injection hqoc with hv
          exact ⟨hv.symm, hc⟩
        · rw [if_neg hc] at hqoc
          cases hqoc
      obtain ⟨hqv, hsz96, hsz128⟩ := hqv
      subst hqv
      cases hside : p.side with
      | Bid =>
        rw [hside] at h
        split at h
        · injection h with h1 h2
          cases h1
        · next s₁ hesc =>
          obtain ⟨q', hq', hs₁⟩ := Option.map_eq_some'.mp hesc
          subst hs₁
          split at h
          · next wvs heqW =>
            injection h with h1 h2
            cases h1
          · next b x sm wvs heqW =>
            split at h
            · injection h with h1 h2
              injection h1 with h1'
              cases h1'
            · next hst =>
              split at h
              case h_2 xx heqq =>
                cases heqq
              split at h
              · injection h with h1 h2
                cases h1
              · next reserve hres =>
                have hrv : reserve
                    = ((quoteAmountN p.price sm.postedSize : Nat) : Int) := by
                  unfold quoteAmountChecked at hres
                  by_cases hc : sm.postedSize < 2 ^ 96
                      ∧ p.price * sm.postedSize < 2 ^ 128
                  · rw [if_pos hc] at hres
                    injection hres with hv
                    exact hv.symm
                  · rw [if_neg hc] at hres
                    cases hres
                subst hrv
                split at h
                · injection h with h1 h2
                  cases h1
                · next q'' hq'' =>
                  injection h with h1 h2
                  injection h1 with h1'
                  injection h1' with h1''
                  obtain ⟨hsA, -⟩ := Prod.mk.inj h1''
                  rw [← hsA]
                  have hQ0 := QBid_init hI p.price p.size hq'
                  obtain ⟨b', e', sm', b₀, hr, hle, hQf, hpost⟩ :=
                    obPlaceOrder_invariant ⟨OrderSide.Bid, p.price, p.size, ⟨p.owner⟩⟩
                      (marketCb p.owner)
                      (QBid p.price (quoteAmountN p.price p.size))
                      (QBid_step p.price (quoteAmountN p.price p.size) p.owner howner)
                      heqW hQ0
                  injection hr with hh
                  obtain ⟨hh1, hh2⟩ := Prod.mk.inj hh
                  obtain ⟨hb1, he1⟩ := Prod.mk.inj hh1
                  subst hb1
                  subst he1
                  subst hh2
                  have hpost' : (0 < sm.postedSize ∧ b = (placeOrderS b₀ OrderSide.Bid
                        p.price sm.postedSize ⟨p.owner⟩).2)
                      ∨ (sm.postedSize = 0 ∧ b = b₀) := by
                    rcases hpost with ⟨ha1, -, ha3⟩ | ⟨ha1, -, ha3⟩
                    · exact Or.inl ⟨ha1, ha3⟩
                    · exact Or.inr ⟨ha1, ha3⟩
                  exact QBid_final hQf hp hsz96 hsz128 hle howner hq'' b hpost' s.minSize
      | Ask =>
        rw [hside] at h
        split at h
        · injection h with h1 h2
          cases h1
        · next s₁ hesc =>
          obtain ⟨b', hb', hs₁⟩ := Option.map_eq_some'.mp hesc
          subst hs₁
          split at h
          · next wvs heqW =>
            injection h with h1 h2
            cases h1
          · next b x sm wvs heqW =>
            split at h
            · injection h with h1 h2
              injection h1 with h1'
              cases h1'
            · next hst =>
              split at h
              case h_1 xx heqq =>
                cases heqq
              split at h
              · injection h with h1 h2
                cases h1
              · next b'' hb'' =>
                injection h with h1 h2
                injection h1 with h1'
                injection h1' with h1''
                obtain ⟨hsA, -⟩ := Prod.mk.inj h1''
                rw [← hsA]
                have hQ0 := QAsk_init hI p.size hb'
                obtain ⟨bk', e', sm', b₀, hr, hle, hQf, hpost⟩ :=
                  obPlaceOrder_invariant ⟨OrderSide.Ask, p.price, p.size, ⟨p.owner⟩⟩
                    (marketCb p.owner)
                    (QAsk p.size)
                    (QAsk_step p.price p.size p.owner howner)
                    heqW hQ0
                injection hr with hh
                obtain ⟨hh1, hh2⟩ := Prod.mk.inj hh
                obtain ⟨hb1, he1⟩ := Prod.mk.inj hh1
                subst hb1
                subst he1
                subst hh2
                have hpost' : (0 < sm.postedSize ∧ b = (placeOrderS b₀ OrderSide.Ask
                      p.price sm.postedSize ⟨p.owner⟩).2)
                    ∨ (sm.postedSize = 0 ∧ b = b₀) := by
                  rcases hpost with ⟨ha1, -, ha3⟩ | ⟨ha1, -, ha3⟩
                  · exact Or.inl ⟨ha1, ha3⟩
                  · exact Or.inr ⟨ha1, ha3⟩
                exact QAsk_final hQf hp hsz96 hsz128 hle howner hb'' b hpost' s.minSize

theorem storedSize_remove {T : Type} (b : BookState T) (id id' : OId) :
    storedSize (removeOrderS b id) id'
      = if sizeKey id' = sizeKey id then 0 else storedSize b id' := by
  unfold storedSize
  rw [removeOrderS_sizes_list, alGet_alRemove]
  by_cases hk : sizeKey id' = sizeKey id
  · rw [if_pos hk, if_pos hk]
    rfl
  · rw [if_neg hk, if_neg hk]

/-- A successful `DexMarket::cancel_order` preserves the market invariant. -/
theorem marketCancelOrder_MINV {s : MarketState} {id : OId} {s' : MarketState}
    (hI : MINV s) (h : marketCancelOrder s id = some s') : MINV s' := by
  simp only [marketCancelOrder] at h
  split at h
  · injection h with h1
    rw [← h1]
    exact hI
  · next o hget =>
    obtain ⟨hoid, hoprice, hosz, hodet⟩ := getOrderS_some hget
    have hlv : live s.book id := live_of_getOrderS hget
    have hss : storedSize s.book id = o.size := storedSize_eq_of_getOrderS hget
    obtain ⟨hwf, hsOK, hown, hev, hbNN, hqNN, hbR, hqR⟩ := hI
    have hownm : o.details.owner ≠ marketAddr := hown (detKey id) o.details hodet
    have hszcommon : ∀ id', live (removeOrderS s.book id) id' →
        (0 < storedSize (removeOrderS s.book id) id'
          ∧ storedSize (removeOrderS s.book id) id' < 2 ^ 96
          ∧ id'.price * storedSize (removeOrderS s.book id) id' < 2 ^ 128) := by
      intro id' hlv'
      obtain ⟨hne, hold⟩ := (live_remove s.book id id').mp hlv'
      rw [storedSize_remove]
      by_cases hk : sizeKey id' = sizeKey id
      · exact absurd (live_sizeKey_inj hwf hold hlv hk) hne
      · rw [if_neg hk]
        exact hsOK id' hold
    have howncommon : ∀ (k : OrderSide × Nat × Nat) (d : ODetail),
        alGet (removeOrderS s.book id).details k = some d → d.owner ≠ marketAddr := by
      intro k d hd
      rw [removeOrderS_details_list, alGet_alRemove] at hd
      by_cases hk : k = detKey id
      · rw [if_pos hk] at hd
        cases hd
      · rw [if_neg hk] at hd
        exact hown k d hd
    split at h
    · next heqA =>
      have hsideA : id.side = OrderSide.Ask := by
        rw [← hoid]
        exact heqA
      obtain ⟨bal', hbT, hs'⟩ := Option.map_eq_some'.mp h
      rw [← hs']
      have hask : askReserve (removeOrderS s.book id) + o.size = askReserve s.book := by
        have h0 := reserveSum_remove hwf hlv askWeight
        have e1 : askWeight id (storedSize s.book id) = o.size := by
          unfold askWeight
          rw [if_pos hsideA, hss]
        rw [e1] at h0
        exact h0
      have hbid : bidReserve (removeOrderS s.book id) = bidReserve s.book := by
        have h0 := reserveSum_remove hwf hlv bidWeight
        have e1 : bidWeight id (storedSize s.book id) = 0 := by
          unfold bidWeight
          rw [hsideA]
          rfl
        rw [e1] at h0
        unfold bidReserve
        omega
      have hmkt : bal' marketAddr = s.base marketAddr - (o.size : Int) :=
        transferTok_src hbT (Ne.symm hownm)
      refine ⟨SWF_remove hwf hlv, hszcommon, howncommon, ?_, ?_, hqNN, ?_, ?_⟩
      · show (removeOrderS s.book id).events = []
        rw [removeOrderS_events]
        exact hev
      · exact transferTok_nonneg hbT hbNN (Int.natCast_nonneg _)
      · show ((askReserve (removeOrderS s.book id) : Nat) : Int) ≤ bal' marketAddr
        rw [hmkt]
        omega
      · show ((bidReserve (removeOrderS s.book id) : Nat) : Int) ≤ s.quote marketAddr
        rw [hbid]
        exact hqR
    · next heqB =>
      have hsideB : id.side = OrderSide.Bid := by
        rw [← hoid]
        exact heqB
      split at h
      · cases h
      · next qa hqac =>
        have hqa : qa = ((quoteAmountN o.price o.size : Nat) : Int) := by
          unfold quoteAmountChecked at hqac
          by_cases hc : o.size < 2 ^ 96 ∧ o.price * o.size < 2 ^ 128
          · rw [if_pos hc] at hqac
            injection hqac with hv
            exact hv.symm
          · rw [if_neg hc] at hqac
            cases hqac
        subst hqa
        obtain ⟨bal', hqT, hs'⟩ := Option.map_eq_some'.mp h
        rw [← hs']
        have hbid : bidReserve (removeOrderS s.book id) + quoteAmountN o.price o.size
            = bidReserve s.book := by
          have h0 := reserveSum_remove hwf hlv bidWeight
          have e1 : bidWeight id (storedSize s.book id)
              = quoteAmountN o.price o.size := by
            unfold bidWeight
            rw [if_pos hsideB, hss, hoprice]
          rw [e1] at h0
          exact h0
        have hask : askReserve (removeOrderS s.book id) = askReserve s.book := by
          have h0 := reserveSum_remove hwf hlv askWeight
          have e1 : askWeight id (storedSize s.book id) = 0 := by
            unfold askWeight
            rw [hsideB]
            rfl
          rw [e1] at h0
          unfold askReserve
          omega
        have hmkt : bal' marketAddr
            = s.quote marketAddr - ((quoteAmountN o.price o.size : Nat) : Int) :=
          transferTok_src hqT (Ne.symm hownm)
        refine ⟨SWF_remove hwf hlv, hszcommon, howncommon, ?_, hbNN, ?_, ?_, ?_⟩
        · show (removeOrderS s.book id).events = []
          rw [removeOrderS_events]
          exact hev
        · exact transferTok_nonneg hqT hqNN (Int.natCast_nonneg _)
        · show ((askReserve (removeOrderS s.book id) : Nat) : Int) ≤ s.base marketAddr
          rw [hask]
          exact hbR
        · show ((bidReserve (removeOrderS s.book id) : Nat) : Int) ≤ bal' marketAddr
          rw [hmkt]
          omega

/-- Every reachable market state satisfies the invariant. -/
theorem MINV_reach {s : MarketState} (h : Reach s) : MINV s := by
  induction h with
  | init minSize base quote hb hq => exact marketInit_MINV minSize base quote hb hq
  | place p _ hp hsz howner heq ih => exact marketPlaceOrder_MINV ih hp howner heq
  | cancel id _ hp hl heq ih => exact marketCancelOrder_MINV ih heq

/-! ## Reachability of the concrete example markets -/

theorem reach_exS0 : Reach exS0 :=
  Reach.init 1 exBase0 exQuote0
    (by intro a; unfold exBase0; split <;> norm_num)
    (by intro a; unfold exQuote0; split <;> norm_num)

theorem reach_exS1 : Reach exS1 :=
  Reach.place exPA reach_exS0 (by norm_num [exPA, px2]) (by norm_num [exPA])
    (by norm_num [exPA, marketAddr])
    (rfl : marketPlaceOrder exS0 exPA
      = (some (Except.ok (exS1, some ⟨OrderSide.Ask, px2, 0⟩)), []))

theorem reach_exS2 : Reach exS2 :=
  Reach.place exPB reach_exS1 (by norm_num [exPB, px3]) (by norm_num [exPB])
    (by norm_num [exPB, marketAddr])
    (rfl : marketPlaceOrder exS1 exPB
      = (some (Except.ok (exS2, none)), exPlaceB.2))

theorem reach_exT0 : Reach exT0 :=
  Reach.init 1 exTBase exTQuote
    (by intro a; unfold exTBase; split <;> norm_num)
    (by intro a; unfold exTQuote; split <;> norm_num)

theorem reach_exT1 : Reach exT1 :=
  Reach.place exTPA reach_exT0 (by norm_num [exTPA, px2]) (by norm_num [exTPA])
    (by norm_num [exTPA, marketAddr])
    (rfl : marketPlaceOrder exT0 exTPA
      = (some (Except.ok (exT1, some ⟨OrderSide.Ask, px2, 0⟩)), []))

theorem reach_exU0 : Reach exU0 :=
  Reach.init 1 exUBase exUQuote
    (by intro a; unfold exUBase; split <;> norm_num)
    (by intro a; unfold exUQuote; split <;> norm_num)

theorem reach_exU1 : Reach exU1 :=
  Reach.place exUPA reach_exU0 (by norm_num [exUPA, px2]) (by norm_num [exUPA])
    (by norm_num [exUPA, marketAddr])
    (rfl : marketPlaceOrder exU0 exUPA
      = (some (Except.ok (exU1, some ⟨OrderSide.Ask, px2, 0⟩)), []))

theorem reach_exU2 : Reach exU2 :=
  Reach.place exUPB reach_exU1 (by norm_num [exUPB, px3, P56]) (by norm_num [exUPB])
    (by norm_num [exUPB, marketAddr])
    (rfl : marketPlaceOrder exU1 exUPB
      = (some (Except.ok (exU2, some ⟨OrderSide.Ask, P56 + px3, 0⟩)), []))

/-! ## C1: no negative balances -/

/-- C1.  No operation leaves any participant or the contract with a
negative token balance: in every reachable market state all base and quote
balances are non-negative, and moreover the contract's own balances cover
the book's outstanding obligations (the total remaining size of resting
`Ask` orders in base, and the total `quote_amount(price, remaining)` of
resting `Bid` orders in quote) — the sense in which every escrow, per-fill
transfer and end-of-call refund the operations compute is non-negative and
never exceeds what the contract holds.  Proved by induction along `Reach`
with the invariant `MINV`; the per-fill and refund amounts are shown
non-negative and covered inside `QBid_step` / `QAsk_step` / `QBid_final` /
`QAsk_final`. -/
theorem c1_no_negative_balances (s : MarketState) (hr : Reach s) :
    (∀ a, 0 ≤ s.base a) ∧ (∀ a, 0 ≤ s.quote a) ∧
    ((askReserve s.book : Nat) : Int) ≤ s.base marketAddr ∧
    ((bidReserve s.book : Nat) : Int) ≤ s.quote marketAddr := by
  obtain ⟨-, -, -, -, hb, hq, hbr, hqr⟩ := MINV_reach hr
  exact ⟨hb, hq, hbr, hqr⟩

/-- Witness for C1 at the Scenario B market after the cross. -/
theorem c1_no_negative_balances_witness :
    (∀ a, 0 ≤ exS2.base a) ∧ (∀ a, 0 ≤ exS2.quote a) ∧
    ((askReserve exS2.book : Nat) : Int) ≤ exS2.base marketAddr ∧
    ((bidReserve exS2.book : Nat) : Int) ≤ exS2.quote marketAddr :=
  c1_no_negative_balances exS2 reach_exS2

/-! ## C6: no zero-size resting orders -/

/-- C6.  After every successful market operation, every order present in
the book has positive remaining size: `get_order` never returns a
size-zero entry, every live details record has a positive stored size, and
every price-queue entry belongs to a live order (so a fully filled order
loses its queue entry and details record too).  The engine signals a full
fill by writing size 0; the removal itself happens in the event-consume
cleanup, whose implementation is missing from `src/` and is modelled from
the spec (`consumeOneS`). -/
theorem c6_positive_sizes (s : MarketState) (hr : Reach s) :
    (∀ (id : OId) (o : OrderEntry ODetail), getOrderS s.book id = some o → 0 < o.size) ∧
    (∀ id : OId, live s.book id → 0 < storedSize s.book id) ∧
    (∀ qk l, l ∈ s.book.queueAt qk →
      ∃ id : OId, id.price % P56 = qk ∧ id.localId = l ∧ live s.book id) := by
  have hI := MINV_reach hr
  refine ⟨?_, ?_, ?_⟩
  · intro id o hget
    have h1 := (hI.sizesOK id (live_of_getOrderS hget)).1
    rw [storedSize_eq_of_getOrderS hget] at h1
    exact h1
  · intro id hlv
    exact (hI.sizesOK id hlv).1
  · exact hI.wf.queueOwner

/-- Witness for C6 at the Scenario B market with one resting ask. -/
theorem c6_positive_sizes_witness :
    (∀ (id : OId) (o : OrderEntry ODetail), getOrderS exS1.book id = some o → 0 < o.size) ∧
    (∀ id : OId, live exS1.book id → 0 < storedSize exS1.book id) ∧
    (∀ qk l, l ∈ exS1.book.queueAt qk →
      ∃ id : OId, id.price % P56 = qk ∧ id.localId = l ∧ live exS1.book id) :=
  c6_positive_sizes exS1 reach_exS1

/-! ## C5: consideration at the maker price -/

/-- C5.  Every fill settles at the RESTING order's price: for any
successful settlement-callback invocation, the quote consideration moved
between the parties is exactly `quote_amount(entry.price, entry.size)` —
and `entry.price` is the maker's stored price (the engine builds the entry
from `get_order`, see `getOrderS_some` and the walk lemmas).  The second
conjunct is the spec's Scenario B: the taker bids 1000 at limit 3.0
against a resting 2.0 ask, the single fill carries the maker's price 2.0,
the maker receives 2000 quote, and the taker keeps the 1000 quote of price
improvement (event consumption inside the callback is modelled from the
spec, `consumeOneS`). -/
theorem c5_maker_price_consideration :
    (∀ (owner : Nat) (e : OrderEntry ODetail) (st st' : BookState ODetail × MExt),
      marketCb owner e st = some st' →
      st'.2.quoteConsumed
        = st.2.quoteConsumed + ((quoteAmountN e.price e.size : Nat) : Int) ∧
      (e.details.owner ≠ marketAddr → owner ≠ marketAddr →
        (e.id.side = OrderSide.Ask →
          st'.2.quote e.details.owner
            = st.2.quote e.details.owner + ((quoteAmountN e.price e.size : Nat) : Int) ∧
          st'.2.quote marketAddr
            = st.2.quote marketAddr - ((quoteAmountN e.price e.size : Nat) : Int)) ∧
        (e.id.side = OrderSide.Bid →
          st'.2.quote owner
            = st.2.quote owner + ((quoteAmountN e.price e.size : Nat) : Int) ∧
          st'.2.quote marketAddr
            = st.2.quote marketAddr - ((quoteAmountN e.price e.size : Nat) : Int)))) ∧
    (visitFills exPlaceB.2 = [exMakerEntry] ∧ exMakerEntry.price = px2 ∧
      exMakerEntry.id = ⟨OrderSide.Ask, px2, 0⟩ ∧ exPB.price = px3 ∧ px2 < px3 ∧
      exS2.quote 1 = 2000 ∧ exS2.quote 2 = 1000 ∧ exS2.base 2 = 1000 ∧
      exS2.base 1 = 0) := by
  constructor
  · intro owner e st st' h
    have hqaval : ∀ qa : Int, quoteAmountChecked e.price e.size = some qa →
        qa = ((quoteAmountN e.price e.size : Nat) : Int) := by
      intro qa hqa
      unfold quoteAmountChecked at hqa
      by_cases hc : e.size < 2 ^ 96 ∧ e.price * e.size < 2 ^ 128
      · rw [if_pos hc] at hqa
        injection hqa with hv
        exact hv.symm
      · rw [if_neg hc] at hqa
        cases hqa
    simp only [marketCb] at h
    split at h
    · cases h
    · next qa hqa =>
      have hqv := hqaval qa hqa
      subst hqv
      split at h
      · next heqB =>
        split at h
        · cases h
        · next base' hb =>
          split at h
          · cases h
          · next quote' hq =>
            injection h with hh
            rw [← hh]
            refine ⟨rfl, ?_⟩
            intro hmo hto
            constructor
            · intro hA
              rw [heqB] at hA
              cases hA
            · intro hB
              exact ⟨transferTok_dst hq, transferTok_src hq (Ne.symm hto)⟩
      · next heqA =>
        split at h
        · cases h
        · next quote' hq =>
          split at h
          · cases h
          · next base' hb =>
            injection h with hh
            rw [← hh]
            refine ⟨rfl, ?_⟩
            intro hmo hto
            constructor
            · intro hA
              exact ⟨transferTok_dst hq, transferTok_src hq (Ne.symm hmo)⟩
            · intro hB
              rw [heqA] at hB
              cases hB
  · exact ⟨rfl, rfl, rfl, rfl, by norm_num [px2, px3], rfl, rfl, rfl, rfl⟩

/-- Witness for C5: a concrete settlement of the Scenario B fill, checked
against the theorem's equations. -/
theorem c5_maker_price_consideration_witness :
    marketCb 2 exMakerEntry (exCbBook, exCbX) = some (exCbRun.getD (exCbBook, exCbX)) ∧
    (exCbRun.getD (exCbBook, exCbX)).2.quoteConsumed
      = exCbX.quoteConsumed
        + ((quoteAmountN exMakerEntry.price exMakerEntry.size : Nat) : Int) ∧
    (exCbRun.getD (exCbBook, exCbX)).2.quote 1
      = exCbX.quote 1 + ((quoteAmountN exMakerEntry.price exMakerEntry.size : Nat) : Int) := by
  have h : marketCb 2 exMakerEntry (exCbBook, exCbX)
      = some (exCbRun.getD (exCbBook, exCbX)) := rfl
  have h2 := c5_maker_price_consideration.1 2 exMakerEntry (exCbBook, exCbX)
    (exCbRun.getD (exCbBook, exCbX)) h
  refine ⟨h, h2.1, ?_⟩
  exact (h2.2 (by decide) (by decide) |>.1 rfl).1

/-! ## C8: self-trades fail with CannotSelfTrade -/

theorem marketCb_flag_mono (owner : Nat) :
    ∀ (e : OrderEntry ODetail) (st st' : BookState ODetail × MExt),
      marketCb owner e st = some st' →
      (MExt.selfTrade st.2 = true → MExt.selfTrade st'.2 = true) ∧
      (e.details.owner = owner → MExt.selfTrade st'.2 = true) := by
  intro e st st' h
  have hself := marketCb_selfTrade owner e st st' h
  constructor
  · intro hf
    show st'.2.selfTrade = true
    rw [hself, hf]
    simp
  · intro hp
    show st'.2.selfTrade = true
    rw [hself, hp]
    simp

/-- When the byte-faithful read completes, it returns what the
collision-blind read computes. -/
theorem getOrderR_agrees {T : Type} {b : BookState T} {id : OId}
    {ro : Option (OrderEntry T)} (h : getOrderR b id = some ro) :
    getOrderS b id = ro := by
  cases hs : alGet b.sizes (sizeKey id) with
  | none =>
    simp only [getOrderR, hs] at h
    simp only [getOrderS, hs]
    exact Option.some.inj h
  | some z =>
    simp only [getOrderR, hs] at h
    simp only [getOrderS, hs]
    split at h
    · cases h
    · exact Option.some.inj h

/-- An id whose price top byte is not 1 is always read collision-free:
`get_order` cannot trap on it, in any book state. -/
theorem getOrderR_eq_of_ne {T : Type} (b : BookState T) (id : OId)
    (h : ¬(P56 ≤ id.price ∧ id.price < 2 * P56)) :
    getOrderR b id = some (getOrderS b id) := by
  cases hs : alGet b.sizes (sizeKey id) with
  | none => simp only [getOrderR, getOrderS, hs]
  | some z =>
    simp only [getOrderR, getOrderS, hs]
    rw [if_neg h]

/-- A trapped read means: the price top byte is 1 and the shared size slot
is occupied. -/
theorem getOrderR_none {T : Type} {b : BookState T} {id : OId}
    (h : getOrderR b id = none) :
    (P56 ≤ id.price ∧ id.price < 2 * P56) ∧
      ∃ z, alGet b.sizes (sizeKey id) = some z := by
  cases hs : alGet b.sizes (sizeKey id) with
  | none =>
    simp only [getOrderR, hs] at h
    cases h
  | some z =>
    simp only [getOrderR, hs] at h
    split at h
    · next hc => exact ⟨hc, z, rfl⟩
    · cases h

/-- The byte-level content of a trapped read: a size record occupies the
id's own slot, and the raw id key the details read uses has exactly the
bytes of that record's size-attribute key — so `get::<OrderId,
OrderDetail>` meets a `u128` and panics on `Val` conversion. -/
theorem getOrderR_trap_bytes {T : Type} {b : BookState T} {id : OId}
    (h : getOrderR b id = none) :
    (∃ z, alGet b.sizes (sizeKey id) = some z) ∧
    ∀ pfx : Nat, idBytes pfx id.side id.price id.localId
      = withAttrKeyBytes pfx id.side (id.price % P56) id.localId ORDER_ATTR_KEY_SIZE := by
  obtain ⟨⟨h1, h2⟩, hz⟩ := getOrderR_none h
  refine ⟨hz, fun pfx => ?_⟩
  have hP : 0 < P56 := by norm_num [P56]
  have h4 : id.price - P56 < P56 := by omega
  have h3 : id.price % P56 = id.price - P56 := by
    rw [show id.price = P56 + (id.price - P56) from by omega]
    rw [Nat.add_mod_left, Nat.mod_eq_of_lt h4]
    omega
  have heq2 : id.price = P56 + id.price % P56 := by omega
  nth_rewrite 1 [heq2]
  exact idBytes_size_key_collision pfx id.side (id.price % P56) id.localId
    (Nat.mod_lt _ hP)

/-- Every candidate the per-price walk visits carries the walked price. -/
theorem priceWalk_visits {T E : Type} (params : OBParams T)
    (cb : OrderEntry T → BookState T × E → Option (BookState T × E)) (price : Nat) :
    ∀ (locals : List Nat) (amt : Nat) (st : BookState T × E)
      (r : Option ((BookState T × E) × Nat × Bool)) (vs : List (Visit T)),
      priceWalk params cb price locals amt st = (r, vs) →
      ∀ v ∈ vs, (visitId v).price = price := by
  intro locals
  induction locals with
  | nil =>
    intro amt st r vs h v hv
    simp only [priceWalk] at h
    injection h with h1 h2
    rw [← h2] at hv
    cases hv
  | cons l rest ih =>
    intro amt st r vs h v hv
    simp only [priceWalk] at h
    split at h
    · injection h with h1 h2
      rw [← h2] at hv
      rcases List.mem_cons.mp hv with rfl | hv'
      · rfl
      · exact ih amt st _ _ Prod.mk.eta.symm v hv'
    · next order heq =>
      split at h
      · next hg =>
        split at h
        · injection h with h1 h2
          rw [← h2] at hv
          rcases List.mem_singleton.mp hv with rfl
          show order.id.price = price
          rw [(getOrderS_some heq).1]
        · next s₁ hcb₁ =>
          split at h
          · next hsz =>
            split at h
            · next hz =>
              injection h with h1 h2
              rw [← h2] at hv
              rcases List.mem_singleton.mp hv with rfl
              show order.id.price = price
              rw [(getOrderS_some heq).1]
            · next hz =>
              injection h with h1 h2
              rw [← h2] at hv
              rcases List.mem_cons.mp hv with rfl | hv'
              · show order.id.price = price
                rw [(getOrderS_some heq).1]
              · exact ih _ s₁ _ _ Prod.mk.eta.symm v hv'
          · next hsz =>
            split at h
            · next hz =>
              injection h with h1 h2
              rw [← h2] at hv
              rcases List.mem_singleton.mp hv with rfl
              show order.id.price = price
              rw [(getOrderS_some heq).1]
            · next hz =>
              exact absurd (Nat.sub_self amt) hz
      · next hg =>
        injection h with h1 h2
        rw [← h2] at hv
        rcases List.mem_singleton.mp hv with rfl
        rfl

/-- Every candidate the outer walk visits carries one of the walked
prices. -/
theorem engineWalk_visits {T E : Type} (params : OBParams T)
    (cb : OrderEntry T → BookState T × E → Option (BookState T × E)) :
    ∀ (prices : List Nat) (amt : Nat) (st : BookState T × E)
      (r : Option ((BookState T × E) × Nat)) (vs : List (Visit T)),
      engineWalk params cb prices amt st = (r, vs) →
      ∀ v ∈ vs, (visitId v).price ∈ prices := by
  intro prices
  induction prices with
  | nil =>
    intro amt st r vs h v hv
    simp only [engineWalk] at h
    injection h with h1 h2
    rw [← h2] at hv
    cases hv
  | cons p rest ih =>
    intro amt st r vs h v hv
    simp only [engineWalk] at h
    split at h
    · next vs₀ heq =>
      injection h with h1 h2
      rw [← h2] at hv
      rw [priceWalk_visits params cb p _ _ _ _ _ heq v hv]
      exact List.mem_cons_self p rest
    · next s₁ amt₁ stop vs₀ heq =>
      split at h
      · injection h with h1 h2
        rw [← h2] at hv
        rw [priceWalk_visits params cb p _ _ _ _ _ heq v hv]
        exact List.mem_cons_self p rest
      · injection h with h1 h2
        rw [← h2] at hv
        rcases List.mem_append.mp hv with hv' | hv'
        · rw [priceWalk_visits params cb p _ _ _ _ _ heq v hv']
          exact List.mem_cons_self p rest
        · exact List.mem_cons_of_mem p (ih amt₁ s₁ _ _ Prod.mk.eta.symm v hv')

/-- Every candidate the engine's `place_order` visits rests at a price of
the opposite side's initial price set. -/
theorem obPlaceOrder_visits {T E : Type} (params : OBParams T)
    (cb : OrderEntry T → BookState T × E → Option (BookState T × E))
    (s : BookState T × E)
    (r : Option ((BookState T × E) × OBSummary)) (vs : List (Visit T))
    (h : obPlaceOrder params cb s = (r, vs)) :
    ∀ v ∈ vs, (visitId v).price ∈ s.1.book params.side.opposite := by
  have key : ∀ v ∈ vs, (visitId v).price ∈
      (match params.side.opposite with
        | OrderSide.Bid => s.1.bidBook.reverse
        | OrderSide.Ask => s.1.askBook) := by
    simp only [obPlaceOrder] at h
    split at h
    · next vs₀ heq =>
      injection h with h1 h2
      rw [← h2]
      exact fun v hv => engineWalk_visits params cb _ _ _ _ _ heq v hv
    · next b e amt vs₀ heq =>
      have hvs : vs = vs₀ := by
        split at h
        · injection h with h1 h2
          exact h2.symm
        · injection h with h1 h2
          exact h2.symm
      rw [hvs]
      exact fun v hv => engineWalk_visits params cb _ _ _ _ _ heq v hv
  intro v hv
  have h1 := key v hv
  cases ho : params.side.opposite with
  | Bid =>
    simp only [ho] at h1
    exact List.mem_reverse.mp h1
  | Ask =>
    simp only [ho] at h1
    exact h1

/-- Every candidate a market `place_order` call visits rests at a price of
the pre-call opposite book. -/
theorem marketPlaceOrder_visits (s : MarketState) (p : MParams)
    (r : Option (Except DexMarketError (MarketState × Option OId)))
    (vs : List (Visit ODetail)) (h : marketPlaceOrder s p = (r, vs)) :
    ∀ v ∈ vs, (visitId v).price ∈ s.book.book p.side.opposite := by
  simp only [marketPlaceOrder] at h
  split at h
  · injection h with h1 h2
    rw [← h2]
    intro v hv
    cases hv
  · split at h
    · injection h with h1 h2
      rw [← h2]
      intro v hv
      cases hv
    · next quoteOffer hqoc =>
      split at h
      · injection h with h1 h2
        rw [← h2]
        intro v hv
        cases hv
      · next s₁ hesc =>
        have hb : s₁.book = s.book := by
          cases hps : p.side with
          | Bid =>
            simp only [hps] at hesc
            obtain ⟨q', -, hs₁⟩ := Option.map_eq_some'.mp hesc
            rw [← hs₁]
          | Ask =>
            simp only [hps] at hesc
            obtain ⟨b', -, hs₁⟩ := Option.map_eq_some'.mp hesc
            rw [← hs₁]
        split at h
        · next wvs heqW =>
          injection h with h1 h2
          rw [← h2]
          intro v hv
          have hm := obPlaceOrder_visits _ _ _ _ _ heqW v hv
          dsimp only at hm
          rw [hb] at hm
          exact hm
        · next b x sm wvs heqW =>
          have hvs : vs = wvs := by
            split at h
            · injection h with h1 h2
              exact h2.symm
            · split at h
              · split at h
                · injection h with h1 h2
                  exact h2.symm
                · split at h
                  · injection h with h1 h2
                    exact h2.symm
                  · injection h with h1 h2
                    exact h2.symm
              · split at h
                · injection h with h1 h2
                  exact h2.symm
                · injection h with h1 h2
                  exact h2.symm
          rw [hvs]
          intro v hv
          have hm := obPlaceOrder_visits _ _ _ _ _ heqW v hv
          dsimp only at hm
          rw [hb] at hm
          exact hm

/-- C8, amended.  On books whose resting prices all have top byte other
than 1 — so that no `get_order` read the walk performs can hit the
details/size byte-key collision and trap — a `place_order` call in which
any maker touched during matching has the same owner as the taker fails
with `CannotSelfTrade` (code 101) rather than succeeding or aborting: the
matching loop completes (the settlement transfers are all covered, by the
reachable-state invariant), the self-trade flag is raised at the offending
fill and never cleared, and the check fires before any refund.  An error
result carries no state, so the pre-call balances and book remain current
— the transaction's rollback.  The second conjunct states why the price
restriction suffices: every candidate the walk visits rests at an opposite
book price, hence its read agrees with the collision-blind one in every
state.  Without the restriction the claim fails: see the counterexample,
where the walk reads a resting order priced in `[2^56, 2*2^56)` and the
program panics inside `get_order` instead of reaching the self-trade
error. -/
theorem c8_self_trade_amended (s : MarketState) (hr : Reach s) (p : MParams)
    (howner : p.owner ≠ marketAddr)
    (hbb : ∀ (sd : OrderSide) (q : Nat), q ∈ s.book.book sd →
      ¬(P56 ≤ q ∧ q < 2 * P56))
    (r : Option (Except DexMarketError (MarketState × Option OId)))
    (vs : List (Visit ODetail)) (h : marketPlaceOrder s p = (r, vs))
    (hfill : ∃ e ∈ visitFills vs, e.details.owner = p.owner) :
    r = some (Except.error DexMarketError.CannotSelfTrade) ∧
    (∀ v ∈ vs, ∀ b' : BookState ODetail,
      getOrderR b' (visitId v) = some (getOrderS b' (visitId v))) ∧
    DexMarketError.CannotSelfTrade.code = 101 ∧
    ∀ (s'' : MarketState) (oid : Option OId), r ≠ some (Except.ok (s'', oid)) := by
  have hI := MINV_reach hr
  have hmain : r = some (Except.error DexMarketError.CannotSelfTrade) := by
    simp only [marketPlaceOrder] at h
    split at h
    · injection h with h1 h2
      rw [← h2] at hfill
      obtain ⟨e, he, -⟩ := hfill
      rw [visitFills_nil] at he
      cases he
    · next hmin =>
      split at h
      · injection h with h1 h2
        rw [← h2] at hfill
        obtain ⟨e, he, -⟩ := hfill
        rw [visitFills_nil] at he
        cases he
      · next quoteOffer hqoc =>
        have hqv : quoteOffer = ((quoteAmountN p.price p.size : Nat) : Int) := by
          unfold quoteAmountChecked at hqoc
          by_cases hc : p.size < 2 ^ 96 ∧ p.price * p.size < 2 ^ 128
          · rw [if_pos hc] at hqoc
            injection hqoc with hv
            exact hv.symm
          · rw [if_neg hc] at hqoc
            cases hqoc
        subst hqv
        cases hside : p.side with
        | Bid =>
          rw [hside] at h
          split at h
          · injection h with h1 h2
            rw [← h2] at hfill
            obtain ⟨e, he, -⟩ := hfill
            rw [visitFills_nil] at he
            cases he
          · next s₁ hesc =>
            obtain ⟨q', hq', hs₁⟩ := Option.map_eq_some'.mp hesc
            subst hs₁
            split at h
            · next wvs heqW =>
              obtain ⟨b', e', sm', b₀, hrr, -, -, -⟩ :=
                obPlaceOrder_invariant ⟨OrderSide.Bid, p.price, p.size, ⟨p.owner⟩⟩
                  (marketCb p.owner)
                  (QBid p.price (quoteAmountN p.price p.size))
                  (QBid_step p.price (quoteAmountN p.price p.size) p.owner howner)
                  heqW (QBid_init hI p.price p.size hq')
              cases hrr
            · next b x sm wvs heqW =>
              cases hxs : x.selfTrade with
              | true =>
                rw [hxs] at h
                rw [if_pos rfl] at h
                injection h with h1 h2
                exact h1.symm
              | false =>
                exfalso
                have hflag : wvs = vs → False := by
                  intro hvs
                  subst hvs
                  have hx := obPlaceOrder_flag
                    ⟨OrderSide.Bid, p.price, p.size, ⟨p.owner⟩⟩ (marketCb p.owner)
                    MExt.selfTrade (fun e => e.details.owner = p.owner)
                    (marketCb_flag_mono p.owner) heqW hfill b x sm rfl
                  rw [hxs] at hx
                  cases hx
                rw [hxs] at h
                rw [if_neg (by simp)] at h
                split at h
                case h_2 xx heqq =>
                  cases heqq
                split at h
                · injection h with h1 h2
                  exact hflag h2
                · next reserve hres =>
                  split at h
                  · injection h with h1 h2
                    exact hflag h2
                  · next q'' hq'' =>
                    injection h with h1 h2
                    exact hflag h2
        | Ask =>
          rw [hside] at h
          split at h
          · injection h with h1 h2
            rw [← h2] at hfill
            obtain ⟨e, he, -⟩ := hfill
            rw [visitFills_nil] at he
            cases he
          · next s₁ hesc =>
            obtain ⟨b', hb', hs₁⟩ := Option.map_eq_some'.mp hesc
            subst hs₁
            split at h
            · next wvs heqW =>
              obtain ⟨bk', e', sm', b₀, hrr, -, -, -⟩ :=
                obPlaceOrder_invariant ⟨OrderSide.Ask, p.price, p.size, ⟨p.owner⟩⟩
                  (marketCb p.owner)
                  (QAsk p.size)
                  (QAsk_step p.price p.size p.owner howner)
                  heqW (QAsk_init hI p.size hb')
              cases hrr
            · next b x sm wvs heqW =>
              cases hxs : x.selfTrade with
              | true =>
                rw [hxs] at h
                rw [if_pos rfl] at h
                injection h with h1 h2
                exact h1.symm
              | false =>
                exfalso
                have hflag : wvs = vs → False := by
                  intro hvs
                  subst hvs
                  have hx := obPlaceOrder_flag
                    ⟨OrderSide.Ask, p.price, p.size, ⟨p.owner⟩⟩ (marketCb p.owner)
                    MExt.selfTrade (fun e => e.details.owner = p.owner)
                    (marketCb_flag_mono p.owner) heqW hfill b x sm rfl
                  rw [hxs] at hx
                  cases hx
                rw [hxs] at h
                rw [if_neg (by simp)] at h
                split at h
                case h_1 xx heqq =>
                  cases heqq
                split at h
                · injection h with h1 h2
                  exact hflag h2
                · next b'' hb'' =>
                  injection h with h1 h2
                  exact hflag h2
  refine ⟨hmain, ?_, rfl, ?_⟩
  · intro v hv b'
    exact getOrderR_eq_of_ne b' (visitId v)
      (hbb _ _ (marketPlaceOrder_visits s p r vs h v hv))
  · intro s'' oid hok
    rw [hmain] at hok
    injection hok with hok'
    cases hok'

/-- Witness for the amended C8: user 3 bids into their own resting ask
(all book prices are tiny, so the price restriction holds); the call
returns exactly `CannotSelfTrade`. -/
theorem c8_self_trade_amended_witness :
    exPlaceC.1 = some (Except.error DexMarketError.CannotSelfTrade) ∧
    (∀ v ∈ exPlaceC.2, ∀ b' : BookState ODetail,
      getOrderR b' (visitId v) = some (getOrderS b' (visitId v))) ∧
    DexMarketError.CannotSelfTrade.code = 101 ∧
    ∀ (s'' : MarketState) (oid : Option OId),
      exPlaceC.1 ≠ some (Except.ok (s'', oid)) :=
  c8_self_trade_amended exT1 reach_exT1 exTPC (by norm_num [exTPC, marketAddr])
    (by
      intro sd q hq
      cases sd with
      | Bid =>
        rw [show exT1.book.book OrderSide.Bid = [] from rfl] at hq
        cases hq
      | Ask =>
        rw [show exT1.book.book OrderSide.Ask = [px2] from rfl] at hq
        rcases List.mem_singleton.mp hq with rfl
        decide)
    exPlaceC.1 exPlaceC.2 Prod.mk.eta.symm (by decide)

/-- Counterexample to C8 as stated (no price restriction): on the
reachable market `exU2`, user 4 rests asks at `2.0` and at the `u64` price
`2^56 + 3.0`, then self-crosses with a bid.  The collision-blind model
completes the walk and returns `CannotSelfTrade` — but the walk's trace
shows it reads the candidate `⟨Ask, 2^56 + 3.0, 0⟩`, whose raw id key has
exactly the bytes of its own size record's attribute key (last conjunct);
the byte-faithful read of that candidate traps (`getOrderR … = none`,
backed by the occupied size slot), i.e. the real program panics inside
`get_order` on the `u128` it finds at the details key, and never reaches
the self-trade error the claim promises. -/
theorem c8_self_trade_counterexample :
    Reach exU2 ∧
    exPlaceU.1 = some (Except.error DexMarketError.CannotSelfTrade) ∧
    (∃ e ∈ visitFills exPlaceU.2, e.details.owner = exUPC.owner) ∧
    Visit.gateStop ⟨OrderSide.Ask, P56 + px3, 0⟩ ∈ exPlaceU.2 ∧
    getOrderR exU2.book ⟨OrderSide.Ask, P56 + px3, 0⟩ = none ∧
    alGet exU2.book.sizes (sizeKey ⟨OrderSide.Ask, P56 + px3, 0⟩) = some 500 ∧
    idBytes 0xF1A0 OrderSide.Ask (P56 + px3) 0
      = withAttrKeyBytes 0xF1A0 OrderSide.Ask px3 0 ORDER_ATTR_KEY_SIZE := by
  refine ⟨reach_exU2, rfl, ?_, ?_, ?_, ?_, ?_⟩
  · decide
  · decide
  · decide
  · decide
  · exact idBytes_size_key_collision 0xF1A0 OrderSide.Ask px3 0 (by norm_num [px3, P56])

/-! ## C9: cancel returns exactly the escrowed collateral -/

/-- C9, amended.  The silent-no-op / exact-refund dichotomy holds exactly
when the initial `get_order` read completes — stated via the byte-faithful
read `getOrderR`: if it returns `None` the call is a silent no-op (no
transfers, no state change); if it returns an order the contract transfers
back exactly the escrowed collateral — `order.size` base for an `Ask`,
`quote_amount(order.price, order.size)` quote for a `Bid` — from its own
balance to the stored owner, and removes the order from storage (the
transfers always succeed because the reachable-state invariant keeps the
contract's balances above both reserves).  But the read can instead trap:
for an id whose price top byte is 1 and whose `(side, price % 2^56,
local)` size slot is occupied, the details read lands on the `u128` size
record at the identical byte key (third conjunct) and the call panics —
neither branch of the claimed dichotomy.  See the counterexample for a
reachable instance. -/
theorem c9_cancel_refund_amended (s : MarketState) (hr : Reach s) (id : OId) :
    (getOrderR s.book id = some none → marketCancelOrder s id = some s) ∧
    (∀ o : OrderEntry ODetail, getOrderR s.book id = some (some o) →
      ∃ s', marketCancelOrder s id = some s' ∧
        s'.book = removeOrderS s.book id ∧ s'.minSize = s.minSize ∧
        (o.id.side = OrderSide.Ask →
          s'.quote = s.quote ∧
          s'.base o.details.owner = s.base o.details.owner + (o.size : Int) ∧
          s'.base marketAddr = s.base marketAddr - (o.size : Int) ∧
          (∀ a, a ≠ o.details.owner → a ≠ marketAddr → s'.base a = s.base a)) ∧
        (o.id.side = OrderSide.Bid →
          s'.base = s.base ∧
          s'.quote o.details.owner
            = s.quote o.details.owner + ((quoteAmountN o.price o.size : Nat) : Int) ∧
          s'.quote marketAddr
            = s.quote marketAddr - ((quoteAmountN o.price o.size : Nat) : Int) ∧
          (∀ a, a ≠ o.details.owner → a ≠ marketAddr → s'.quote a = s.quote a))) ∧
    (getOrderR s.book id = none →
      (∃ z, alGet s.book.sizes (sizeKey id) = some z) ∧
      ∀ pfx : Nat, idBytes pfx id.side id.price id.localId
        = withAttrKeyBytes pfx id.side (id.price % P56) id.localId
            ORDER_ATTR_KEY_SIZE) := by
  have hI := MINV_reach hr
  obtain ⟨hwf, hsOK, hown, hev, hbNN, hqNN, hbR, hqR⟩ := hI
  refine ⟨?_, ?_, fun htrap => getOrderR_trap_bytes htrap⟩
  · intro hgR
    have hnone : getOrderS s.book id = none := getOrderR_agrees hgR
    simp only [marketCancelOrder]
    rw [hnone]
  · intro o hgR
    have hget : getOrderS s.book id = some o := getOrderR_agrees hgR
    obtain ⟨hoid, hoprice, hosz, hodet⟩ := getOrderS_some hget
    have hlv := live_of_getOrderS hget
    have hss := storedSize_eq_of_getOrderS hget
    have hownm : o.details.owner ≠ marketAddr := hown (detKey id) o.details hodet
    simp only [marketCancelOrder, hget]
    cases hos : o.id.side with
    | Ask =>
      have hsd : id.side = OrderSide.Ask := by
        rw [← hoid]
        exact hos
      have hsizele : (o.size : Int) ≤ s.base marketAddr := by
        have h0 : o.size ≤ askReserve s.book := by
          have h1 := single_le_reserveSum hwf hlv askWeight
          have e1 : askWeight id (storedSize s.book id) = o.size := by
            unfold askWeight
            rw [if_pos hsd, hss]
          rw [e1] at h1
          exact h1
        omega
      simp only [hos]
      rw [transferTok_eq_some hsizele]
      refine ⟨_, rfl, rfl, rfl, ?_, ?_⟩
      · intro hA
        refine ⟨rfl, ?_, ?_, ?_⟩
        · show (if o.details.owner = o.details.owner then _ else _) = _
          rw [if_pos rfl]
        · show (if marketAddr = o.details.owner then _
            else if marketAddr = marketAddr then _ else _) = _
          rw [if_neg (Ne.symm hownm), if_pos rfl]
        · intro a h1 h2
          show (if a = o.details.owner then _ else if a = marketAddr then _ else _) = _
          rw [if_neg h1, if_neg h2]
      · intro hB
        cases hB
    | Bid =>
      have hsd : id.side = OrderSide.Bid := by
        rw [← hoid]
        exact hos
      have hbounds := hsOK id hlv
      rw [hss] at hbounds
      have hqac : quoteAmountChecked o.price o.size
          = some ((quoteAmountN o.price o.size : Nat) : Int) := by
        unfold quoteAmountChecked
        have hc : o.size < 2 ^ 96 ∧ o.price * o.size < 2 ^ 128 := by
          refine ⟨hbounds.2.1, ?_⟩
          rw [hoprice]
          exact hbounds.2.2
        rw [if_pos hc]
      have hqle : ((quoteAmountN o.price o.size : Nat) : Int) ≤ s.quote marketAddr := by
        have h0 : quoteAmountN o.price o.size ≤ bidReserve s.book := by
          have h1 := single_le_reserveSum hwf hlv bidWeight
          have e1 : bidWeight id (storedSize s.book id)
              = quoteAmountN o.price o.size := by
            unfold bidWeight
            rw [if_pos hsd, hss, hoprice]
          rw [e1] at h1
          exact h1
        omega
      simp only [hos, hqac]
      rw [transferTok_eq_some hqle]
      refine ⟨_, rfl, rfl, rfl, ?_, ?_⟩
      · intro hA
        cases hA
      · intro hB
        refine ⟨rfl, ?_, ?_, ?_⟩
        · show (if o.details.owner = o.details.owner then _ else _) = _
          rw [if_pos rfl]
        · show (if marketAddr = o.details.owner then _
            else if marketAddr = marketAddr then _ else _) = _
          rw [if_neg (Ne.symm hownm), if_pos rfl]
        · intro a h1 h2
          show (if a = o.details.owner then _ else if a = marketAddr then _ else _) = _
          rw [if_neg h1, if_neg h2]

/-- Witness for the amended C9: cancelling the resting Scenario B ask
(price `2.0`, far below `2^56`, so the read completes) refunds its 1000
base to user 1 and removes the order. -/
theorem c9_cancel_refund_amended_witness :
    getOrderR exS1.book ⟨OrderSide.Ask, px2, 0⟩
      = some (some ⟨⟨OrderSide.Ask, px2, 0⟩, px2, 1000, ⟨1⟩⟩) ∧
    ∃ s', marketCancelOrder exS1 ⟨OrderSide.Ask, px2, 0⟩ = some s' ∧
      s'.book = removeOrderS exS1.book ⟨OrderSide.Ask, px2, 0⟩ ∧
      s'.minSize = exS1.minSize ∧
      ((⟨⟨OrderSide.Ask, px2, 0⟩, px2, 1000, ⟨1⟩⟩ : OrderEntry ODetail).id.side
          = OrderSide.Ask →
        s'.quote = exS1.quote ∧
        s'.base 1 = exS1.base 1 + (1000 : Int) ∧
        s'.base marketAddr = exS1.base marketAddr - (1000 : Int) ∧
        (∀ a, a ≠ 1 → a ≠ marketAddr → s'.base a = exS1.base a)) ∧
      ((⟨⟨OrderSide.Ask, px2, 0⟩, px2, 1000, ⟨1⟩⟩ : OrderEntry ODetail).id.side
          = OrderSide.Bid →
        s'.base = exS1.base ∧
        s'.quote 1 = exS1.quote 1 + ((quoteAmountN px2 1000 : Nat) : Int) ∧
        s'.quote marketAddr
          = exS1.quote marketAddr - ((quoteAmountN px2 1000 : Nat) : Int) ∧
        (∀ a, a ≠ 1 → a ≠ marketAddr → s'.quote a = exS1.quote a)) := by
  have hget : getOrderR exS1.book ⟨OrderSide.Ask, px2, 0⟩
      = some (some ⟨⟨OrderSide.Ask, px2, 0⟩, px2, 1000, ⟨1⟩⟩) := by decide
  exact ⟨hget,
    (c9_cancel_refund_amended exS1 reach_exS1 ⟨OrderSide.Ask, px2, 0⟩).2.1 _ hget⟩

/-- Counterexample to C9 as stated: against the reachable Scenario B
market `exS1` (one live ask of 1000 at price `2.0`), call `cancel_order`
with the forged id `⟨Ask, 2^56 + 2.0, 0⟩`.  The collision-blind read says
the order is absent (`getOrderS … = none`), so the claim promises a silent
no-op — but the raw id key of that price has exactly the bytes of the live
ask's size-attribute key (last conjunct), which holds the `u128` 1000:
the byte-faithful read traps (`getOrderR … = none`), i.e. the real
`get::<OrderId, OrderDetail>` panics on `Val` conversion, and the call is
neither a silent no-op nor a refund.  Cancelling an order actually placed
at such a price traps the same way, its details record having been
clobbered by its own size write. -/
theorem c9_cancel_counterexample :
    Reach exS1 ∧
    getOrderS exS1.book ⟨OrderSide.Ask, P56 + px2, 0⟩ = none ∧
    getOrderR exS1.book ⟨OrderSide.Ask, P56 + px2, 0⟩ = none ∧
    alGet exS1.book.sizes (sizeKey ⟨OrderSide.Ask, P56 + px2, 0⟩) = some 1000 ∧
    idBytes 0xF1A0 OrderSide.Ask (P56 + px2) 0
      = withAttrKeyBytes 0xF1A0 OrderSide.Ask px2 0 ORDER_ATTR_KEY_SIZE := by
  refine ⟨reach_exS1, ?_, ?_, ?_, ?_⟩
  · decide
  · decide
  · decide
  · exact idBytes_size_key_collision 0xF1A0 OrderSide.Ask px2 0 (by norm_num [px2, P56])

/-- Witness for the amended C10 theorem at concrete keys: the id of an
order whose price top byte is 1 coincides with the size-attribute key of
the corresponding low price, and below `2^56` the details keys separate
side, price and local id. -/
theorem c10_storage_keys_amended_witness :
    idBytes 0xF1A0 OrderSide.Bid (P56 + 7) 3
      = withAttrKeyBytes 0xF1A0 OrderSide.Bid 7 3 ORDER_ATTR_KEY_SIZE ∧
    (idBytes 0xF1A0 OrderSide.Bid 5 0 = idBytes 0xF1A0 OrderSide.Ask 5 0
      ↔ OrderSide.Bid = OrderSide.Ask ∧ (5 : Nat) = 5 ∧ (0 : Nat) = 0) := by
  refine ⟨c10_storage_keys_amended.2.1 0xF1A0 OrderSide.Bid 7 3 (by decide), ?_⟩
  exact (c10_storage_keys_amended.2.2 0xF1A0 OrderSide.Bid OrderSide.Ask 5 5 0 0
    (by decide) (by decide) (by decide) (by decide)).1

end SorobanDex
